import Mathlib

/-! Huffman file compression: embedding of `HCTree`, `compress` and `decompress`

The C++ sources `HCTree.cpp`, `compress.cpp` and `decompress.cpp` are embedded
as pure functions.

* A pointer to an `HCNode` is an index into the list of allocated nodes (the
  heap of the tree); `nullptr` is `none`.  `new HCNode` appends to that list.
* `int`, `unsigned int` and `size_t` counters are natural numbers (exact for
  inputs below `2 ^ 31` bytes); the `unsigned short` of the header is written
  with an explicit `% 65536`.
* A byte is a natural number below 256; a file is a list of bytes.
* `Helper.hpp` (`HCNode`, `HCNodePtrComp`, `FancyInputStream`,
  `FancyOutputStream`) is not among the sources: those parts are modelled from
  the specification, and the comparator of the priority queue is a parameter
  `comp` of `build`.
-/

namespace Huffman

/-! ## Nodes and the priority queue -/

/-- Modelled from the spec: the node type `HCNode` of `Helper.hpp` (spec §3,
Node): a weight, a symbol, links to the zero-child and the one-child, and a
back-reference to the parent.  Links are indices into the heap of the tree. -/
structure HCNode where
  count : Nat
  symbol : Nat
  c0 : Option Nat
  c1 : Option Nat
  p : Option Nat
  deriving DecidableEq, Repr

/-- Modelled from the spec: the constructor `HCNode(count, symbol)` of
`Helper.hpp`; a new node has no children and no parent. -/
def HCNode.mk0 (count symbol : Nat) : HCNode :=
  { count := count, symbol := symbol, c0 := none, c1 := none, p := none }

/-- Dereference of a non-null node pointer. -/
def deref (heap : List HCNode) (i : Nat) : HCNode :=
  heap.getD i (HCNode.mk0 0 0)

/-- Modelled from the spec: the comparator `HCNodePtrComp` of `Helper.hpp`
(spec §4.2: a min-priority structure ordered primarily by weight).
`HCNodePtrComp lhs rhs` says that `lhs` has lower priority than `rhs`, which
is the case when its weight is larger. -/
def HCNodePtrComp (lhs rhs : HCNode) : Bool :=
  decide (rhs.count < lhs.count)

/-- Modelled from the spec: `std::priority_queue::top`.  The queue is the list
of pushed pointers in push order; the top is an element than which no other
has higher priority.  Among elements the comparator does not separate, the one
pushed first is taken (spec §4.2: ties broken by insertion order). -/
def pqTop (comp : HCNode → HCNode → Bool) (heap : List HCNode) : List Nat → Option Nat
  | [] => none
  | x :: xs =>
    some (xs.foldl (fun best y => if comp (deref heap best) (deref heap y) then y else best) x)

/-- Assignment `node->p = parent`. -/
def setParent (heap : List HCNode) (node parent : Nat) : List HCNode :=
  heap.set node
    { count := (deref heap node).count, symbol := (deref heap node).symbol,
      c0 := (deref heap node).c0, c1 := (deref heap node).c1, p := some parent }

/-! ## HCTree -/

/-- The class `HCTree`: the root pointer, the `leaves` vector, and the nodes
allocated by `build`. -/
structure HCTree where
  heap : List HCNode
  root : Option Nat
  leaves : List (Option Nat)
  deriving DecidableEq, Repr

/-- The constructor `HCTree()`: null root, 256 null leaves. -/
def HCTree.new : HCTree :=
  { heap := [], root := none, leaves := List.replicate 256 none }

/-- First loop of `HCTree::build`: a leaf for every non-zero frequency, stored
in `leaves[i]` and pushed to the queue; `j` is the `unsigned char` counter. -/
def buildLeaves : List Nat → Nat → List HCNode × List (Option Nat) × List Nat →
    List HCNode × List (Option Nat) × List Nat
  | [], _, st => st
  | f :: fs, i, (heap, leaves, pq) =>
    if f ≠ 0 then
      buildLeaves fs (i + 1)
        (heap ++ [HCNode.mk0 f (i % 256)], leaves.set i (some heap.length), pq ++ [heap.length])
    else
      buildLeaves fs (i + 1) (heap, leaves, pq)

/-- The merge loop of `HCTree::build` (`while (pq.size() > 1)`); every
iteration shortens the queue by one, so `fuel = pq.size()` iterations suffice. -/
def buildLoop (comp : HCNode → HCNode → Bool) :
    Nat → List HCNode → List Nat → List HCNode × List Nat
  | 0, heap, pq => (heap, pq)
  | fuel + 1, heap, pq =>
    if 1 < pq.length then
      match pqTop comp heap pq with
      | none => (heap, pq)
      | some left =>
        let pq1 := pq.erase left
        match pqTop comp heap pq1 with
        | none => (heap, pq)
        | some right =>
          let pq2 := pq1.erase right
          let parent : HCNode :=
            { count := (deref heap left).count + (deref heap right).count, symbol := 0,
              c0 := some left, c1 := some right, p := none }
          let m := heap.length
          let heap1 := setParent (setParent (heap ++ [parent]) left m) right m
          buildLoop comp fuel heap1 (pq2 ++ [m])
    else (heap, pq)

/-- The function `HCTree::build`. -/
def HCTree.build (comp : HCNode → HCNode → Bool) (t : HCTree) (freqs : List Nat) : HCTree :=
  let st := buildLeaves freqs 0 (t.heap, t.leaves, [])
  let r := buildLoop comp st.2.2.length st.1 st.2.2
  match pqTop comp r.1 r.2 with
  | some top => { heap := r.1, root := some top, leaves := st.2.1 }
  | none => { heap := r.1 ++ [HCNode.mk0 0 0], root := some r.1.length, leaves := st.2.1 }

/-- The upward walk of `HCTree::encode` (`while (curr != this->root)`), which
fills the vector `encoding` from the front.  `none` stands for a null pointer
dereference, or for a walk longer than the number of allocated nodes. -/
def encodeLoop (t : HCTree) : Nat → Option Nat → List Nat → Option (List Nat)
  | 0, curr, encoding => if curr = t.root then some encoding else none
  | fuel + 1, curr, encoding =>
    if curr = t.root then some encoding
    else
      match curr with
      | none => none
      | some c =>
        match (deref t.heap c).p with
        | none => none
        | some par =>
          let e1 := if some c = (deref t.heap par).c0 then 0 :: encoding else encoding
          let e2 := if some c = (deref t.heap par).c1 then 1 :: e1 else e1
          encodeLoop t fuel (some par) e2

/-- The vector `encoding` that `HCTree::encode` computes for `symbol` and then
writes bit by bit. -/
def HCTree.code (t : HCTree) (symbol : Nat) : Option (List Nat) :=
  encodeLoop t t.heap.length (t.leaves.getD symbol none) []

/-! ## Bit stream ports -/

/-- Ways in which a run does not finish with exit code 0. -/
inductive Fault where
  | reported
  | diverges
  | undefined
  deriving DecidableEq, Repr

/-- A byte from eight bits, most significant bit first. -/
def byteOfBits (bits : List Nat) : Nat :=
  bits.foldl (fun acc b => 2 * acc + b) 0

/-- The eight bits of a byte, most significant bit first. -/
def bitsOfByte (b : Nat) : List Nat :=
  [b / 128 % 2, b / 64 % 2, b / 32 % 2, b / 16 % 2, b / 8 % 2, b / 4 % 2, b / 2 % 2, b % 2]

/-- Modelled from the spec: the class `FancyOutputStream` of `Helper.hpp`
(spec §2, Bit Stream Ports; §6, on-disk format): the bytes written so far and
the bits of the partly filled byte, packed most significant bit first. -/
structure FancyOutputStream where
  file : List Nat
  buffer : List Nat
  deriving DecidableEq, Repr

/-- Modelled from the spec: a freshly opened output file. -/
def FancyOutputStream.create : FancyOutputStream :=
  { file := [], buffer := [] }

/-- Modelled from the spec: `write<unsigned char>`. -/
def FancyOutputStream.write_uchar (out : FancyOutputStream) (b : Nat) : FancyOutputStream :=
  { out with file := out.file ++ [b % 256] }

/-- Modelled from the spec: `write<unsigned short>`, a 16-bit field of two
bytes in platform order (low byte first). -/
def FancyOutputStream.write_ushort (out : FancyOutputStream) (v : Nat) : FancyOutputStream :=
  { out with file := out.file ++ [v % 256, v / 256 % 256] }

/-- Modelled from the spec: `write_bit`; a byte is written once eight bits are
buffered. -/
def FancyOutputStream.write_bit (out : FancyOutputStream) (bit : Nat) : FancyOutputStream :=
  if out.buffer.length + 1 = 8 then
    { file := out.file ++ [byteOfBits (out.buffer ++ [bit])], buffer := [] }
  else
    { out with buffer := out.buffer ++ [bit] }

/-- Modelled from the spec: `flush`, which writes the partly filled byte; the
padding bits, which the spec leaves undefined, are zero here. -/
def FancyOutputStream.flush (out : FancyOutputStream) : FancyOutputStream :=
  if out.buffer = [] then out
  else
    { file := out.file ++ [byteOfBits (out.buffer ++ List.replicate (8 - out.buffer.length) 0)],
      buffer := [] }

/-- Modelled from the spec: the class `FancyInputStream` of `Helper.hpp`: the
file, the read position, the unread bits of the byte fetched last by
`read_bit`, and the state that `good()` reports. -/
structure FancyInputStream where
  file : List Nat
  pos : Nat
  buffer : List Nat
  good : Bool
  deriving DecidableEq, Repr

/-- Modelled from the spec: a freshly opened input file. -/
def FancyInputStream.create (file : List Nat) : FancyInputStream :=
  { file := file, pos := 0, buffer := [], good := true }

/-- Modelled from the spec: `filesize()`, the total byte size. -/
def FancyInputStream.filesize (s : FancyInputStream) : Nat :=
  s.file.length

/-- Modelled from the spec: `reset()`, back to the start of the file. -/
def FancyInputStream.reset (s : FancyInputStream) : FancyInputStream :=
  { s with pos := 0, buffer := [], good := true }

/-- Modelled from the spec: `read<char>` taken as `unsigned char`; a read
past the end of the file is an I/O failure, which the port reports and which
ends the run (spec §7); `none` stands for it. -/
def FancyInputStream.read_char (s : FancyInputStream) : Option (Nat × FancyInputStream) :=
  match s.file[s.pos]? with
  | some b => some (b, { s with pos := s.pos + 1 })
  | none => none

/-- Modelled from the spec: `read<unsigned short>`, the reverse of
`write<unsigned short>`. -/
def FancyInputStream.read_ushort (s : FancyInputStream) : Option (Nat × FancyInputStream) :=
  match s.file[s.pos]?, s.file[s.pos + 1]? with
  | some lo, some hi => some (lo + 256 * hi, { s with pos := s.pos + 2 })
  | _, _ => none

/-- Modelled from the spec: `read_bit`; the next bit, most significant bit of
each byte first.  At the end of the data the result is `-1` and the stream is
no longer good (spec §4.4: a caller-detectable exhaustion condition). -/
def FancyInputStream.read_bit (s : FancyInputStream) : Int × FancyInputStream :=
  match s.buffer with
  | b :: rest => ((b : Int), { s with buffer := rest })
  | [] =>
    match s.file[s.pos]? with
    | none => (-1, { s with good := false })
    | some byte =>
      (((bitsOfByte byte).headD 0 : Nat), { s with pos := s.pos + 1, buffer := (bitsOfByte byte).tail })

/-! ## encode and decode -/

/-- The function `HCTree::encode`: the encoding is computed by the upward
walk and written bit by bit. -/
def HCTree.encode (t : HCTree) (symbol : Nat) (out : FancyOutputStream) :
    Option FancyOutputStream :=
  match t.code symbol with
  | none => none
  | some encoding => some (encoding.foldl (fun o bit => o.write_bit bit) out)

/-- The loop of `HCTree::decode` (`while (curr->c1 != nullptr && curr->c0 !=
nullptr)`).  When `read_bit` returns neither 1 nor 0, which it does at the end
of the data only, no branch is taken and the loop repeats in the same state
for ever: `Fault.diverges`.  `Fault.undefined` stands for a descent longer
than the number of allocated nodes. -/
def decodeLoop (t : HCTree) : Nat → Nat → FancyInputStream → Except Fault (Nat × FancyInputStream)
  | 0, _, _ => .error .undefined
  | fuel + 1, curr, s =>
    if (deref t.heap curr).c1 ≠ none ∧ (deref t.heap curr).c0 ≠ none then
      if (s.read_bit).1 = 1 then
        match (deref t.heap curr).c1 with
        | some c => decodeLoop t fuel c (s.read_bit).2
        | none => .error .undefined
      else if (s.read_bit).1 = 0 then
        match (deref t.heap curr).c0 with
        | some c => decodeLoop t fuel c (s.read_bit).2
        | none => .error .undefined
      else .error .diverges
    else .ok ((deref t.heap curr).symbol, s)

/-- The function `HCTree::decode`. -/
def HCTree.decode (t : HCTree) (s : FancyInputStream) : Except Fault (Nat × FancyInputStream) :=
  match t.root with
  | none => .error .undefined
  | some r => decodeLoop t t.heap.length r s

/-! ## compress -/

/-- The loop of `countOccurances`; `remaining` is `filesize - count`. -/
def countLoop : Nat → FancyInputStream → List Nat → Except Fault (List Nat × FancyInputStream)
  | 0, inFile, frequencies => .ok (frequencies, inFile)
  | remaining + 1, inFile, frequencies =>
    if inFile.good then
      match inFile.read_char with
      | none => .error .reported
      | some (ch, inFile1) =>
        countLoop remaining inFile1 (frequencies.set ch (frequencies.getD ch 0 + 1))
    else .ok (frequencies, inFile)

/-- The function `countOccurances` of `compress.cpp`. -/
def countOccurances (inFile : FancyInputStream) : Except Fault (List Nat × FancyInputStream) :=
  match countLoop inFile.filesize inFile (List.replicate 256 0) with
  | .error e => .error e
  | .ok (frequencies, inFile1) => .ok (frequencies, inFile1.reset)

/-- The loop of `encodeFile`; `remaining` is `filesize - count`. -/
def encodeLoopFile (tree : HCTree) :
    Nat → FancyInputStream → FancyOutputStream → Except Fault FancyOutputStream
  | 0, _, outFile => .ok outFile
  | remaining + 1, inFile, outFile =>
    if inFile.good then
      match inFile.read_char with
      | none => .error .reported
      | some (ch, inFile1) =>
        match tree.encode ch outFile with
        | none => .error .undefined
        | some outFile1 => encodeLoopFile tree remaining inFile1 outFile1
    else .ok outFile

/-- The function `encodeFile` of `compress.cpp`. -/
def encodeFile (inFile : FancyInputStream) (outFile : FancyOutputStream) (tree : HCTree) :
    Except Fault FancyOutputStream :=
  encodeLoopFile tree inFile.filesize inFile outFile

/-- The function `addHeader` of `compress.cpp`: every count is converted to
`unsigned short` and written as a 16-bit field. -/
def addHeader (frequencies : List Nat) (outFile : FancyOutputStream) : FancyOutputStream :=
  frequencies.foldl (fun o f => o.write_ushort (f % 65536)) outFile

/-- The `main` of `compress.cpp` from the opened input file on: the content of
the output file at exit. -/
def compress (comp : HCNode → HCNode → Bool) (file : List Nat) : Except Fault (List Nat) :=
  let inFile := FancyInputStream.create file
  if inFile.filesize = 0 then .ok FancyOutputStream.create.file
  else
    match countOccurances inFile with
    | .error e => .error e
    | .ok (frequencies, inFile1) =>
      let tree := HCTree.new.build comp frequencies
      let outFile := addHeader frequencies FancyOutputStream.create
      match encodeFile inFile1 outFile tree with
      | .error e => .error e
      | .ok outFile1 => .ok outFile1.flush.file

/-! ## decompress -/

/-- The header loop of the `main` of `decompress.cpp` (`for (int i = 0; i <
256; i++)`); `remaining` is `256 - i`. -/
def readHeader : Nat → Nat → FancyInputStream → List Nat → Nat →
    Except Fault (List Nat × Nat × FancyInputStream)
  | 0, _, inFile, frequencies, total_chars => .ok (frequencies, total_chars, inFile)
  | remaining + 1, i, inFile, frequencies, total_chars =>
    match inFile.read_ushort with
    | none => .error .reported
    | some (sht, inFile1) =>
      readHeader remaining (i + 1) inFile1 (frequencies.set i sht) (total_chars + sht)

/-- The decode loop of the `main` of `decompress.cpp` (`while (inFile->good()
&& total_chars != 0)`). -/
def decodeFile (tree : HCTree) :
    Nat → FancyInputStream → FancyOutputStream → Except Fault FancyOutputStream
  | 0, _, outFile => .ok outFile
  | total_chars + 1, inFile, outFile =>
    if inFile.good then
      match tree.decode inFile with
      | .error e => .error e
      | .ok (ch, inFile1) => decodeFile tree total_chars inFile1 (outFile.write_uchar ch)
    else .ok outFile

/-- The `main` of `decompress.cpp` from the opened input file on: the content
of the output file at exit. -/
def decompress (comp : HCNode → HCNode → Bool) (file : List Nat) : Except Fault (List Nat) :=
  let inFile := FancyInputStream.create file
  if inFile.filesize = 0 then .ok FancyOutputStream.create.file
  else
    match readHeader 256 0 inFile (List.replicate 256 0) 0 with
    | .error e => .error e
    | .ok (frequencies, total_chars, inFile1) =>
      let tree := HCTree.new.build comp frequencies
      match decodeFile tree total_chars inFile1 FancyOutputStream.create with
      | .error e => .error e
      | .ok outFile => .ok outFile.flush.file

/-- The heap after one merge of `left` and `right`. -/
def mergeHeap (heap : List HCNode) (left right : Nat) : List HCNode :=
  setParent (setParent (heap ++ [
    { count := (deref heap left).count + (deref heap right).count, symbol := 0,
      c0 := some left, c1 := some right, p := none }]) left heap.length) right heap.length

/-- Well-formedness of the heap while the queue `pq` holds the roots of the
trees built so far. -/
structure Forest (heap : List HCNode) (pq : List Nat) : Prop where
  nodup : pq.Nodup
  pq_lt : ∀ i, i ∈ pq → i < heap.length
  root_iff : ∀ i, i < heap.length → ((deref heap i).p = none ↔ i ∈ pq)
  up : ∀ i k, i < heap.length → (deref heap i).p = some k →
    i < k ∧ k < heap.length ∧ ((deref heap k).c0 = some i ∨ (deref heap k).c1 = some i)
  down : ∀ k, k < heap.length →
    ((deref heap k).c0 = none ∧ (deref heap k).c1 = none) ∨
    (∃ a b, (deref heap k).c0 = some a ∧ (deref heap k).c1 = some b ∧ a ≠ b ∧ a < k ∧ b < k ∧
      (deref heap a).p = some k ∧ (deref heap b).p = some k)

/-- The heap `h2` extends `h`: old nodes keep their fields, and a parent
pointer that is set stays. -/
structure Ext (h h2 : List HCNode) : Prop where
  len : h.length ≤ h2.length
  count : ∀ i, i < h.length → (deref h2 i).count = (deref h i).count
  symbol : ∀ i, i < h.length → (deref h2 i).symbol = (deref h i).symbol
  c0 : ∀ i, i < h.length → (deref h2 i).c0 = (deref h i).c0
  c1 : ∀ i, i < h.length → (deref h2 i).c1 = (deref h i).c1
  p : ∀ i k, i < h.length → (deref h i).p = some k → (deref h2 i).p = some k

/-- The state of the first loop of `build` once the frequencies `pre` are
processed. -/
structure LeafInv (pre : List Nat) (heap : List HCNode) (leaves : List (Option Nat))
    (pq : List Nat) : Prop where
  pq_eq : pq = List.range heap.length
  leaf : ∀ j, j < heap.length → (deref heap j).c0 = none ∧ (deref heap j).c1 = none ∧
    (deref heap j).p = none
  len : leaves.length = 256
  present : ∀ s, s < pre.length → pre.getD s 0 ≠ 0 →
    ∃ j, leaves.getD s none = some j ∧ j < heap.length ∧
      deref heap j = HCNode.mk0 (pre.getD s 0) (s % 256)
  absent : ∀ s, (s < pre.length → pre.getD s 0 = 0) → leaves.getD s none = none
  onto : ∀ j, j < heap.length → ∃ s, s < pre.length ∧ pre.getD s 0 ≠ 0 ∧
    leaves.getD s none = some j

/-! ## The tree that `build` returns -/

/-- What `encode` and `decode` rely on in a tree built from `freqs`. -/
structure Built (freqs : List Nat) (t : HCTree) (r : Nat) : Prop where
  root : t.root = some r
  forest : Forest t.heap [r]
  present : ∀ s, s < 256 → freqs.getD s 0 ≠ 0 →
    ∃ j, t.leaves.getD s none = some j ∧ j < t.heap.length ∧
      (deref t.heap j).c0 = none ∧ (deref t.heap j).c1 = none ∧
      (deref t.heap j).symbol = s ∧ (deref t.heap j).count = freqs.getD s 0
  absent : ∀ s, freqs.getD s 0 = 0 → t.leaves.getD s none = none

/-- The state after the first loop of `build`, started from `HCTree()`. -/
def buildState (freqs : List Nat) : List HCNode × List (Option Nat) × List Nat :=
  buildLeaves freqs 0 ([], List.replicate 256 none, [])

/-- The state after the merge loop of `build`, started from `HCTree()`. -/
def buildRun (comp : HCNode → HCNode → Bool) (freqs : List Nat) : List HCNode × List Nat :=
  buildLoop comp (buildState freqs).2.2.length (buildState freqs).1 (buildState freqs).2.2

/-! ## Paths, encode and decode -/

/-- The node reached from `curr` along `bits` (0: zero-child, else one-child). -/
def walk (heap : List HCNode) : Nat → List Nat → Option Nat
  | curr, [] => some curr
  | curr, b :: bs =>
    match (if b = 0 then (deref heap curr).c0 else (deref heap curr).c1) with
    | some c => walk heap c bs
    | none => none

/-- The number of parent links from node `i` up to a root. -/
def depthUp (heap : List HCNode) : Nat → Nat → Nat
  | 0, _ => 0
  | n + 1, i =>
    match (deref heap i).p with
    | none => 0
    | some k => depthUp heap n k + 1

/-! ## The bits of a stream -/

/-- The bits of a list of bytes, most significant bit of every byte first. -/
def bitsOfBytes : List Nat → List Nat
  | [] => []
  | b :: bs => bitsOfByte b ++ bitsOfBytes bs

/-- The bits that `read_bit` will deliver, in order. -/
def FancyInputStream.bits (s : FancyInputStream) : List Nat :=
  s.buffer ++ bitsOfBytes (s.file.drop s.pos)

/-- Writing the bits `bs` one by one with `write_bit`. -/
def writeBits (out : FancyOutputStream) (bs : List Nat) : FancyOutputStream :=
  bs.foldl (fun o bit => o.write_bit bit) out

/-! ## The header -/

/-- The bytes that `addHeader` writes for a frequency table. -/
def headerBytes : List Nat → List Nat
  | [] => []
  | f :: fs => f % 65536 % 256 :: f % 65536 / 256 % 256 :: headerBytes fs

/-- The frequency table of a byte sequence. -/
def freqTable (S : List Nat) : List Nat :=
  (List.range 256).map (fun b => S.count b)

/-- The bits that `encodeFile` writes for a byte sequence: the codes of its
bytes in order. -/
def encodeAll (t : HCTree) : List Nat → List Nat
  | [] => []
  | s :: S => (t.code s).getD [] ++ encodeAll t S

/-! ## Kraft's inequality for prefix-free codes -/

/-- No code word of a symbol of `P` is a prefix of that of another. -/
def PrefixFree (P : Finset Nat) (c : Nat → List Bool) : Prop :=
  ∀ a, a ∈ P → ∀ b, b ∈ P → a ≠ b → ¬ c a <+: c b

/-! ## The exchange argument -/

/-- The lengths `len` satisfy Kraft's inequality on `Q`. -/
def Kraft (Q : Finset Nat) (len : Nat → Nat) : Prop :=
  ∃ D, (∀ r, r ∈ Q → len r ≤ D) ∧ Q.sum (fun r => 2 ^ (D - len r)) ≤ 2 ^ D

/-- The symbols of non-zero frequency. -/
def presentSymbols (freqs : List Nat) : Finset Nat :=
  (Finset.range 256).filter (fun s => freqs.getD s 0 ≠ 0)

/-- Nodes allocated by the merge loop, from index `n0` on, have children. -/
def InternalFrom (n0 : Nat) (heap : List HCNode) : Prop :=
  ∀ k, n0 ≤ k → k < heap.length → (deref heap k).c0 ≠ none

/-- Every node with two children weighs as much as its children together, and
the weights of the roots in the queue add up to `total`. -/
def Weighted (total : Nat) (heap : List HCNode) (pq : List Nat) : Prop :=
  (∀ k a b, k < heap.length → (deref heap k).c0 = some a → (deref heap k).c1 = some b →
    (deref heap k).count = (deref heap a).count + (deref heap b).count) ∧
  pq.toFinset.sum (fun r => (deref heap r).count) = total

/-! ## Code length against frequency -/

/-- The bits of a code as booleans. -/
def bitsToBool (l : List Nat) : List Bool :=
  l.map (fun b => decide (b = 1))

/-! ## Two runs of `build` -/

/-- The node `nd` with every link moved by `n0` addresses. -/
def shiftNode (n0 : Nat) (nd : HCNode) : HCNode :=
  { count := nd.count, symbol := nd.symbol,
    c0 := nd.c0.map (fun k => k + n0), c1 := nd.c1.map (fun k => k + n0),
    p := nd.p.map (fun k => k + n0) }

/-- The `leaves` vector `l2` holds the entries of `l1`, moved by `n0` addresses,
wherever `l1` has an entry. -/
def LeavesShift (n0 : Nat) (l1 l2 : List (Option Nat)) : Prop :=
  l1.length = l2.length ∧ ∀ s k, l1.getD s none = some k → l2.getD s none = some (k + n0)

/-! ## Theorems -/

/-! ## Facts about the heap -/

theorem deref_append_lt (heap : List HCNode) (x : HCNode) (i : Nat) (h : i < heap.length) :
    deref (heap ++ [x]) i = deref heap i := by
  unfold deref
  exact List.getD_append heap [x] _ i h

theorem deref_append_len (heap : List HCNode) (x : HCNode) :
    deref (heap ++ [x]) heap.length = x := by
  unfold deref
  rw [List.getD_eq_getElem?_getD, List.getElem?_concat_length]
  rfl

theorem deref_set (heap : List HCNode) (j : Nat) (x : HCNode) (i : Nat) :
    deref (heap.set j x) i = if j = i ∧ j < heap.length then x else deref heap i := by
  unfold deref
  rw [List.getD_eq_getElem?_getD, List.getD_eq_getElem?_getD, List.getElem?_set]
  by_cases h1 : j = i
  · by_cases h2 : j < heap.length
    · subst h1
      simp [h2]
    · subst h1
      have : heap[j]? = none := List.getElem?_eq_none (by omega)
      simp [h2, this]
  · simp [h1]

theorem length_setParent (heap : List HCNode) (a b : Nat) :
    (setParent heap a b).length = heap.length := by
  simp [setParent]

theorem deref_setParent (heap : List HCNode) (a b i : Nat) :
    deref (setParent heap a b) i =
      if a = i ∧ a < heap.length then
        { count := (deref heap a).count, symbol := (deref heap a).symbol,
          c0 := (deref heap a).c0, c1 := (deref heap a).c1, p := some b }
      else deref heap i := by
  unfold setParent
  exact deref_set heap a _ i

theorem length_mergeHeap (heap : List HCNode) (l r : Nat) :
    (mergeHeap heap l r).length = heap.length + 1 := by
  simp [mergeHeap, length_setParent]

theorem deref_mergeHeap_new (heap : List HCNode) (l r : Nat)
    (hl : l < heap.length) (hr : r < heap.length) :
    deref (mergeHeap heap l r) heap.length =
      { count := (deref heap l).count + (deref heap r).count, symbol := 0,
        c0 := some l, c1 := some r, p := none } := by
  unfold mergeHeap
  rw [deref_setParent, if_neg (by intro h; omega), deref_setParent, if_neg (by intro h; omega),
    deref_append_len]

theorem deref_mergeHeap_old (heap : List HCNode) (l r i : Nat)
    (hl : l < heap.length) (hr : r < heap.length) (hi : i < heap.length) (hlr : l ≠ r) :
    deref (mergeHeap heap l r) i =
      if i = l ∨ i = r then
        { count := (deref heap i).count, symbol := (deref heap i).symbol,
          c0 := (deref heap i).c0, c1 := (deref heap i).c1, p := some heap.length }
      else deref heap i := by
  unfold mergeHeap
  rw [deref_setParent, deref_setParent, deref_setParent]
  simp only [length_setParent, List.length_append, List.length_singleton]
  by_cases h1 : r = i
  · subst h1
    have : ¬ (l = r ∧ l < heap.length + 1) := by intro h; exact hlr h.1
    simp [this, deref_append_lt _ _ _ hr, hr, Nat.lt_succ_of_lt hr]
  · by_cases h2 : l = i
    · subst h2
      simp [h1, deref_append_lt _ _ _ hl, Nat.lt_succ_of_lt hl]
    · have e1 : ¬ (i = l ∨ i = r) := by
        intro h; rcases h with h | h
        · exact h2 h.symm
        · exact h1 h.symm
      simp [h1, h2, e1, deref_append_lt _ _ _ hi]

theorem pqTop_foldl_mem (comp : HCNode → HCNode → Bool) (heap : List HCNode) (xs : List Nat) :
    ∀ x : Nat, xs.foldl (fun best y => if comp (deref heap best) (deref heap y) then y else best) x
      ∈ x :: xs := by
  induction xs with
  | nil => intro x; simp
  | cons y ys ih =>
    intro x
    rw [List.foldl_cons]
    have h := ih (if comp (deref heap x) (deref heap y) then y else x)
    rw [List.mem_cons] at h
    rcases h with h | h
    · rw [h]
      by_cases hc : comp (deref heap x) (deref heap y) = true
      · simp [hc]
      · simp [hc]
    · simp [h]

theorem pqTop_mem (comp : HCNode → HCNode → Bool) (heap : List HCNode) (pq : List Nat) (t : Nat)
    (h : pqTop comp heap pq = some t) : t ∈ pq := by
  cases pq with
  | nil => simp [pqTop] at h
  | cons x xs =>
    simp only [pqTop, Option.some.injEq] at h
    rw [← h]
    exact pqTop_foldl_mem comp heap xs x

theorem pqTop_isSome (comp : HCNode → HCNode → Bool) (heap : List HCNode) (pq : List Nat)
    (h : pq ≠ []) : ∃ t, pqTop comp heap pq = some t := by
  cases pq with
  | nil => exact absurd rfl h
  | cons x xs => exact ⟨_, rfl⟩

theorem mergeHeap_count (heap : List HCNode) (l r i : Nat)
    (hl : l < heap.length) (hr : r < heap.length) (hi : i < heap.length) (hlr : l ≠ r) :
    (deref (mergeHeap heap l r) i).count = (deref heap i).count := by
  rw [deref_mergeHeap_old heap l r i hl hr hi hlr]; split <;> rfl

theorem mergeHeap_symbol (heap : List HCNode) (l r i : Nat)
    (hl : l < heap.length) (hr : r < heap.length) (hi : i < heap.length) (hlr : l ≠ r) :
    (deref (mergeHeap heap l r) i).symbol = (deref heap i).symbol := by
  rw [deref_mergeHeap_old heap l r i hl hr hi hlr]; split <;> rfl

theorem mergeHeap_c0 (heap : List HCNode) (l r i : Nat)
    (hl : l < heap.length) (hr : r < heap.length) (hi : i < heap.length) (hlr : l ≠ r) :
    (deref (mergeHeap heap l r) i).c0 = (deref heap i).c0 := by
  rw [deref_mergeHeap_old heap l r i hl hr hi hlr]; split <;> rfl

theorem mergeHeap_c1 (heap : List HCNode) (l r i : Nat)
    (hl : l < heap.length) (hr : r < heap.length) (hi : i < heap.length) (hlr : l ≠ r) :
    (deref (mergeHeap heap l r) i).c1 = (deref heap i).c1 := by
  rw [deref_mergeHeap_old heap l r i hl hr hi hlr]; split <;> rfl

theorem mergeHeap_p (heap : List HCNode) (l r i : Nat)
    (hl : l < heap.length) (hr : r < heap.length) (hi : i < heap.length) (hlr : l ≠ r) :
    (deref (mergeHeap heap l r) i).p =
      if i = l ∨ i = r then some heap.length else (deref heap i).p := by
  rw [deref_mergeHeap_old heap l r i hl hr hi hlr]; split <;> rfl

theorem Ext.refl (h : List HCNode) : Ext h h :=
  ⟨le_refl _, fun _ _ => rfl, fun _ _ => rfl, fun _ _ => rfl, fun _ _ => rfl, fun _ _ _ hk => hk⟩

theorem Ext.trans {h1 h2 h3 : List HCNode} (a : Ext h1 h2) (b : Ext h2 h3) : Ext h1 h3 where
  len := le_trans a.len b.len
  count := fun i hi => by rw [b.count i (lt_of_lt_of_le hi a.len), a.count i hi]
  symbol := fun i hi => by rw [b.symbol i (lt_of_lt_of_le hi a.len), a.symbol i hi]
  c0 := fun i hi => by rw [b.c0 i (lt_of_lt_of_le hi a.len), a.c0 i hi]
  c1 := fun i hi => by rw [b.c1 i (lt_of_lt_of_le hi a.len), a.c1 i hi]
  p := fun i k hi hk => b.p i k (lt_of_lt_of_le hi a.len) (a.p i k hi hk)

theorem Forest.merge_ext {heap : List HCNode} {pq : List Nat} (F : Forest heap pq) (l r : Nat)
    (hl : l ∈ pq) (hr : r ∈ pq) (hlr : l ≠ r) : Ext heap (mergeHeap heap l r) := by
  have hl1 := F.pq_lt l hl
  have hr1 := F.pq_lt r hr
  refine ⟨by rw [length_mergeHeap]; omega, fun i hi => mergeHeap_count heap l r i hl1 hr1 hi hlr,
    fun i hi => mergeHeap_symbol heap l r i hl1 hr1 hi hlr,
    fun i hi => mergeHeap_c0 heap l r i hl1 hr1 hi hlr,
    fun i hi => mergeHeap_c1 heap l r i hl1 hr1 hi hlr, ?_⟩
  intro i k hi hk
  rw [mergeHeap_p heap l r i hl1 hr1 hi hlr]
  have hnot : i ∉ pq := by
    intro hmem
    have := (F.root_iff i hi).2 hmem
    rw [this] at hk
    exact Option.noConfusion hk
  have : ¬ (i = l ∨ i = r) := by
    intro h
    rcases h with h | h
    · exact hnot (h ▸ hl)
    · exact hnot (h ▸ hr)
  rw [if_neg this]
  exact hk

theorem Forest.merge {heap : List HCNode} {pq : List Nat} (F : Forest heap pq) (l r : Nat)
    (hl : l ∈ pq) (hr : r ∈ pq) (hlr : l ≠ r) :
    Forest (mergeHeap heap l r) ((pq.erase l).erase r ++ [heap.length]) := by
  have hl1 := F.pq_lt l hl
  have hr1 := F.pq_lt r hr
  have hnd1 : (pq.erase l).Nodup := F.nodup.erase l
  have hmem : ∀ i, i ∈ (pq.erase l).erase r ++ [heap.length] ↔
      (i ≠ r ∧ i ≠ l ∧ i ∈ pq) ∨ i = heap.length := by
    intro i
    rw [List.mem_append, hnd1.mem_erase_iff, F.nodup.mem_erase_iff, List.mem_singleton]
  have hnew := deref_mergeHeap_new heap l r hl1 hr1
  constructor
  · rw [List.nodup_append]
    refine ⟨hnd1.erase r, List.nodup_singleton _, ?_⟩
    intro a ha hb
    rw [List.mem_singleton] at hb
    rw [hnd1.mem_erase_iff, F.nodup.mem_erase_iff] at ha
    have := F.pq_lt a ha.2.2
    omega
  · intro i hi
    rw [length_mergeHeap]
    rcases (hmem i).1 hi with h | h
    · have := F.pq_lt i h.2.2
      omega
    · omega
  · intro i hi
    rw [length_mergeHeap] at hi
    rw [hmem]
    by_cases him : i = heap.length
    · subst him
      rw [hnew]
      simp
    · have hi2 : i < heap.length := by omega
      rw [mergeHeap_p heap l r i hl1 hr1 hi2 hlr]
      by_cases h : i = l ∨ i = r
      · rw [if_pos h]
        constructor
        · intro h2; exact Option.noConfusion h2
        · intro h2
          rcases h2 with h2 | h2
          · rcases h with h | h
            · exact absurd h h2.2.1
            · exact absurd h h2.1
          · exact absurd h2 him
      · rw [if_neg h, F.root_iff i hi2]
        constructor
        · intro h2
          left
          exact ⟨fun e => h (Or.inr e), fun e => h (Or.inl e), h2⟩
        · intro h2
          rcases h2 with h2 | h2
          · exact h2.2.2
          · exact absurd h2 him
  · intro i k hi hk
    rw [length_mergeHeap] at hi
    rw [length_mergeHeap]
    by_cases him : i = heap.length
    · subst him
      rw [hnew] at hk
      exact Option.noConfusion hk
    · have hi2 : i < heap.length := by omega
      rw [mergeHeap_p heap l r i hl1 hr1 hi2 hlr] at hk
      by_cases h : i = l ∨ i = r
      · rw [if_pos h] at hk
        have hk2 : k = heap.length := (Option.some.inj hk).symm
        subst hk2
        rw [hnew]
        refine ⟨hi2, by omega, ?_⟩
        rcases h with h | h
        · left; rw [h]
        · right; rw [h]
      · rw [if_neg h] at hk
        obtain ⟨h1, h2, h3⟩ := F.up i k hi2 hk
        refine ⟨h1, by omega, ?_⟩
        rw [mergeHeap_c0 heap l r k hl1 hr1 h2 hlr, mergeHeap_c1 heap l r k hl1 hr1 h2 hlr]
        exact h3
  · intro k hk
    rw [length_mergeHeap] at hk
    by_cases hkm : k = heap.length
    · subst hkm
      right
      refine ⟨l, r, by rw [hnew], by rw [hnew], hlr, hl1, hr1, ?_, ?_⟩
      · rw [mergeHeap_p heap l r l hl1 hr1 hl1 hlr, if_pos (Or.inl rfl)]
      · rw [mergeHeap_p heap l r r hl1 hr1 hr1 hlr, if_pos (Or.inr rfl)]
    · have hk2 : k < heap.length := by omega
      rw [mergeHeap_c0 heap l r k hl1 hr1 hk2 hlr, mergeHeap_c1 heap l r k hl1 hr1 hk2 hlr]
      rcases F.down k hk2 with h | ⟨a, b, h1, h2, h3, h4, h5, h6, h7⟩
      · left; exact h
      · right
        have E := F.merge_ext l r hl hr hlr
        exact ⟨a, b, h1, h2, h3, h4, h5, E.p a k (by omega) h6, E.p b k (by omega) h7⟩

theorem buildLoop_succ (comp : HCNode → HCNode → Bool) (fuel : Nat) (heap : List HCNode)
    (pq : List Nat) (l r : Nat) (h1 : 1 < pq.length) (hl : pqTop comp heap pq = some l)
    (hr : pqTop comp heap (pq.erase l) = some r) :
    buildLoop comp (fuel + 1) heap pq =
      buildLoop comp fuel (mergeHeap heap l r) ((pq.erase l).erase r ++ [heap.length]) := by
  rw [buildLoop]
  simp only [h1, if_true, hl, hr]
  rfl

theorem buildLoop_short (comp : HCNode → HCNode → Bool) (fuel : Nat) (heap : List HCNode)
    (pq : List Nat) (h1 : ¬ 1 < pq.length) : buildLoop comp fuel heap pq = (heap, pq) := by
  cases fuel with
  | zero => rfl
  | succ n => rw [buildLoop]; simp only [h1, if_false]

theorem buildLoop_spec (comp : HCNode → HCNode → Bool) :
    ∀ (fuel : Nat) (heap : List HCNode) (pq : List Nat), Forest heap pq → pq.length ≤ fuel →
      Forest (buildLoop comp fuel heap pq).1 (buildLoop comp fuel heap pq).2 ∧
      Ext heap (buildLoop comp fuel heap pq).1 ∧
      (buildLoop comp fuel heap pq).2.length ≤ 1 ∧
      (pq ≠ [] → (buildLoop comp fuel heap pq).2 ≠ []) := by
  intro fuel
  induction fuel with
  | zero =>
    intro heap pq F hlen
    have : pq = [] := List.length_eq_zero.1 (by omega)
    subst this
    exact ⟨F, Ext.refl _, by simp [buildLoop], fun h => absurd rfl h⟩
  | succ n ih =>
    intro heap pq F hlen
    by_cases h1 : 1 < pq.length
    · obtain ⟨l, hl⟩ := pqTop_isSome comp heap pq (by intro h; rw [h] at h1; simp at h1)
      have hlm := pqTop_mem comp heap pq l hl
      have hlen1 : (pq.erase l).length = pq.length - 1 := List.length_erase_of_mem hlm
      obtain ⟨r, hr⟩ := pqTop_isSome comp heap (pq.erase l)
        (by intro h; rw [h] at hlen1; simp at hlen1; omega)
      have hrm := pqTop_mem comp heap (pq.erase l) r hr
      have hrm2 := (F.nodup.mem_erase_iff.1 hrm)
      have hlen2 : ((pq.erase l).erase r).length = (pq.erase l).length - 1 :=
        List.length_erase_of_mem hrm
      rw [buildLoop_succ comp n heap pq l r h1 hl hr]
      have F2 := F.merge l r hlm hrm2.2 (Ne.symm hrm2.1)
      have E := F.merge_ext l r hlm hrm2.2 (Ne.symm hrm2.1)
      obtain ⟨a, b, c, d⟩ := ih (mergeHeap heap l r) ((pq.erase l).erase r ++ [heap.length]) F2
        (by simp only [List.length_append, List.length_singleton]; omega)
      exact ⟨a, E.trans b, c, fun _ => d (by simp)⟩
    · rw [buildLoop_short comp (n + 1) heap pq h1]
      exact ⟨F, Ext.refl _, by simpa using h1, fun h => h⟩

theorem getD_set_opt (leaves : List (Option Nat)) (i s : Nat) (v : Option Nat) :
    (leaves.set i v).getD s none = if i = s ∧ i < leaves.length then v else leaves.getD s none := by
  rw [List.getD_eq_getElem?_getD, List.getD_eq_getElem?_getD, List.getElem?_set]
  by_cases h1 : i = s
  · subst h1
    by_cases h2 : i < leaves.length
    · simp [h2]
    · have : leaves[i]? = none := List.getElem?_eq_none (by omega)
      simp [h2, this]
  · simp [h1]

theorem LeafInv.step_zero {pre : List Nat} {heap : List HCNode} {leaves : List (Option Nat)}
    {pq : List Nat} (I : LeafInv pre heap leaves pq) : LeafInv (pre ++ [0]) heap leaves pq := by
  have hget : ∀ s, s < pre.length → (pre ++ [0]).getD s 0 = pre.getD s 0 :=
    fun s hs => List.getD_append pre [0] 0 s hs
  have hlast : (pre ++ [0]).getD pre.length 0 = 0 := by
    rw [List.getD_eq_getElem?_getD, List.getElem?_concat_length]; rfl
  refine ⟨I.pq_eq, I.leaf, I.len, ?_, ?_, ?_⟩
  · intro s hs hne
    rw [List.length_append, List.length_singleton] at hs
    by_cases h : s < pre.length
    · rw [hget s h] at hne ⊢
      exact I.present s h hne
    · have : s = pre.length := by omega
      subst this
      exact absurd hlast hne
  · intro s hs
    apply I.absent
    intro h
    rw [← hget s h]
    exact hs (by rw [List.length_append]; omega)
  · intro j hj
    obtain ⟨s, h1, h2, h3⟩ := I.onto j hj
    exact ⟨s, by rw [List.length_append]; omega, by rw [hget s h1]; exact h2, h3⟩

theorem LeafInv.step_pos {pre : List Nat} {heap : List HCNode} {leaves : List (Option Nat)}
    {pq : List Nat} (I : LeafInv pre heap leaves pq) (f : Nat) (hf : f ≠ 0)
    (hlen : pre.length < 256) :
    LeafInv (pre ++ [f]) (heap ++ [HCNode.mk0 f (pre.length % 256)])
      (leaves.set pre.length (some heap.length)) (pq ++ [heap.length]) := by
  have hget : ∀ s, s < pre.length → (pre ++ [f]).getD s 0 = pre.getD s 0 :=
    fun s hs => List.getD_append pre [f] 0 s hs
  have hlast : (pre ++ [f]).getD pre.length 0 = f := by
    rw [List.getD_eq_getElem?_getD, List.getElem?_concat_length]; rfl
  have hll : pre.length < leaves.length := by rw [I.len]; exact hlen
  constructor
  · rw [I.pq_eq, List.length_append, List.length_singleton, List.range_succ]
  · intro j hj
    rw [List.length_append, List.length_singleton] at hj
    by_cases h : j < heap.length
    · rw [deref_append_lt _ _ _ h]
      exact I.leaf j h
    · have : j = heap.length := by omega
      subst this
      rw [deref_append_len]
      exact ⟨rfl, rfl, rfl⟩
  · rw [List.length_set, I.len]
  · intro s hs hne
    rw [List.length_append, List.length_singleton] at hs
    rw [getD_set_opt]
    by_cases h : s < pre.length
    · rw [if_neg (by intro h2; omega)]
      rw [hget s h] at hne ⊢
      obtain ⟨j, h1, h2, h3⟩ := I.present s h hne
      exact ⟨j, h1, by rw [List.length_append]; omega, by rw [deref_append_lt _ _ _ h2]; exact h3⟩
    · have : s = pre.length := by omega
      subst this
      rw [if_pos ⟨rfl, hll⟩, hlast]
      exact ⟨heap.length, rfl, by rw [List.length_append, List.length_singleton]; omega,
        deref_append_len _ _⟩
  · intro s hs
    rw [List.length_append, List.length_singleton] at hs
    rw [getD_set_opt]
    have hne : pre.length ≠ s := by
      intro h
      subst h
      have := hs (by omega)
      rw [hlast] at this
      exact hf this
    rw [if_neg (by intro h2; exact hne h2.1)]
    apply I.absent
    intro h
    rw [← hget s h]
    exact hs (by omega)
  · intro j hj
    rw [List.length_append, List.length_singleton] at hj
    by_cases h : j < heap.length
    · obtain ⟨s, h1, h2, h3⟩ := I.onto j h
      refine ⟨s, by rw [List.length_append]; omega, by rw [hget s h1]; exact h2, ?_⟩
      rw [getD_set_opt, if_neg (by intro h4; omega)]
      exact h3
    · have : j = heap.length := by omega
      subst this
      refine ⟨pre.length, by rw [List.length_append, List.length_singleton]; omega,
        by rw [hlast]; exact hf, ?_⟩
      rw [getD_set_opt, if_pos ⟨rfl, hll⟩]

theorem buildLeaves_inv : ∀ (fs pre : List Nat) (heap : List HCNode) (leaves : List (Option Nat))
    (pq : List Nat), LeafInv pre heap leaves pq → pre.length + fs.length ≤ 256 →
    LeafInv (pre ++ fs) (buildLeaves fs pre.length (heap, leaves, pq)).1
      (buildLeaves fs pre.length (heap, leaves, pq)).2.1
      (buildLeaves fs pre.length (heap, leaves, pq)).2.2 := by
  intro fs
  induction fs with
  | nil =>
    intro pre heap leaves pq I _
    rw [List.append_nil]
    exact I
  | cons f fs ih =>
    intro pre heap leaves pq I hlen
    rw [List.length_cons] at hlen
    have e : pre ++ f :: fs = (pre ++ [f]) ++ fs := by simp
    have e2 : (pre ++ [f]).length = pre.length + 1 := by simp
    rw [e]
    by_cases hf : f = 0
    · subst hf
      have h := ih (pre ++ [0]) heap leaves pq I.step_zero (by rw [e2]; omega)
      rw [e2] at h
      simpa [buildLeaves] using h
    · have h := ih (pre ++ [f]) _ _ _ (I.step_pos f hf (by omega)) (by rw [e2]; omega)
      rw [e2] at h
      simpa [buildLeaves, hf] using h

theorem LeafInv.init : LeafInv [] [] (List.replicate 256 none) [] := by
  refine ⟨rfl, ?_, List.length_replicate _ _, ?_, ?_, ?_⟩
  · intro j hj; exact absurd hj (Nat.not_lt_zero _)
  · intro s hs; exact absurd hs (Nat.not_lt_zero _)
  · intro s _
    rw [List.getD_eq_getElem?_getD, List.getElem?_replicate]
    split <;> rfl
  · intro j hj; exact absurd hj (Nat.not_lt_zero _)

theorem LeafInv.forest {pre : List Nat} {heap : List HCNode} {leaves : List (Option Nat)}
    {pq : List Nat} (I : LeafInv pre heap leaves pq) : Forest heap pq := by
  refine ⟨?_, ?_, ?_, ?_, ?_⟩
  · rw [I.pq_eq]; exact List.nodup_range _
  · intro i hi; rw [I.pq_eq] at hi; exact List.mem_range.1 hi
  · intro i hi
    rw [I.pq_eq]
    exact ⟨fun _ => List.mem_range.2 hi, fun _ => (I.leaf i hi).2.2⟩
  · intro i k hi hk
    rw [(I.leaf i hi).2.2] at hk
    exact Option.noConfusion hk
  · intro k hk
    left
    exact ⟨(I.leaf k hk).1, (I.leaf k hk).2.1⟩

theorem pqTop_singleton (comp : HCNode → HCNode → Bool) (heap : List HCNode) (x : Nat) :
    pqTop comp heap [x] = some x := rfl

theorem forest_placeholder : Forest [HCNode.mk0 0 0] [0] := by
  have h0 : deref [HCNode.mk0 0 0] 0 = HCNode.mk0 0 0 := rfl
  refine ⟨List.nodup_singleton _, ?_, ?_, ?_, ?_⟩
  · intro i hi
    rw [List.mem_singleton] at hi
    subst hi
    exact Nat.zero_lt_one
  · intro i hi
    have : i = 0 := by simpa using hi
    subst this
    rw [h0]
    exact ⟨fun _ => List.mem_singleton.2 rfl, fun _ => rfl⟩
  · intro i k hi hk
    have : i = 0 := by simpa using hi
    subst this
    rw [h0] at hk
    exact Option.noConfusion hk
  · intro k hk
    have : k = 0 := by simpa using hk
    subst this
    left
    rw [h0]
    exact ⟨rfl, rfl⟩

theorem build_leafInv (freqs : List Nat) (hlen : freqs.length = 256) :
    LeafInv freqs (buildState freqs).1 (buildState freqs).2.1 (buildState freqs).2.2 := by
  have h := buildLeaves_inv freqs [] [] (List.replicate 256 none) [] LeafInv.init
    (by rw [hlen]; exact le_refl _)
  exact h

theorem buildRun_spec (comp : HCNode → HCNode → Bool) (freqs : List Nat)
    (hlen : freqs.length = 256) :
    Forest (buildRun comp freqs).1 (buildRun comp freqs).2 ∧
    Ext (buildState freqs).1 (buildRun comp freqs).1 ∧
    (buildRun comp freqs).2.length ≤ 1 ∧
    ((buildState freqs).2.2 ≠ [] → (buildRun comp freqs).2 ≠ []) :=
  buildLoop_spec comp _ _ _ (build_leafInv freqs hlen).forest (le_refl _)

theorem forest_nil_heap {heap : List HCNode} (F : Forest heap []) : heap = [] := by
  have key : ∀ n i, i < heap.length → heap.length - i ≤ n → False := by
    intro n
    induction n with
    | zero => intro i hi hn0; omega
    | succ n ihn =>
      intro i hi hn1
      cases hq : (deref heap i).p with
      | none => exact absurd ((F.root_iff i hi).1 hq) (List.not_mem_nil _)
      | some k2 =>
        obtain ⟨a1, a2, _⟩ := F.up i k2 hi hq
        exact ihn k2 a2 (by omega)
  cases heap with
  | nil => rfl
  | cons x xs => exact (key _ 0 (by simp) (le_refl _)).elim

theorem build_cases (comp : HCNode → HCNode → Bool) (freqs : List Nat)
    (hlen : freqs.length = 256) :
    (∃ x, (buildRun comp freqs).2 = [x] ∧
      HCTree.new.build comp freqs =
        { heap := (buildRun comp freqs).1, root := some x, leaves := (buildState freqs).2.1 }) ∨
    ((buildRun comp freqs).2 = [] ∧ (buildRun comp freqs).1 = [] ∧ (buildState freqs).1 = [] ∧
      HCTree.new.build comp freqs =
        { heap := [HCNode.mk0 0 0], root := some 0, leaves := (buildState freqs).2.1 }) := by
  obtain ⟨F, E, hle, hne⟩ := buildRun_spec comp freqs hlen
  have hb : HCTree.new.build comp freqs =
      match pqTop comp (buildRun comp freqs).1 (buildRun comp freqs).2 with
      | some top =>
        { heap := (buildRun comp freqs).1, root := some top, leaves := (buildState freqs).2.1 }
      | none =>
        { heap := (buildRun comp freqs).1 ++ [HCNode.mk0 0 0],
          root := some (buildRun comp freqs).1.length, leaves := (buildState freqs).2.1 } := rfl
  cases hpq : (buildRun comp freqs).2 with
  | nil =>
    right
    rw [hpq] at F
    have hheap := forest_nil_heap F
    have hh0 : (buildState freqs).1 = [] := by
      have := E.len
      rw [hheap] at this
      exact List.length_eq_zero.1 (Nat.le_zero.1 this)
    refine ⟨rfl, hheap, hh0, ?_⟩
    rw [hb, hpq, hheap]
    rfl
  | cons x xs =>
    cases xs with
    | nil =>
      left
      refine ⟨x, rfl, ?_⟩
      rw [hb, hpq]
      rfl
    | cons y ys =>
      rw [hpq] at hle
      exact absurd hle (by simp)

theorem build_built (comp : HCNode → HCNode → Bool) (freqs : List Nat)
    (hlen : freqs.length = 256) : ∃ r, Built freqs (HCTree.new.build comp freqs) r := by
  have I := build_leafInv freqs hlen
  obtain ⟨F, E, hle, hne⟩ := buildRun_spec comp freqs hlen
  have habs : ∀ s, freqs.getD s 0 = 0 → (buildState freqs).2.1.getD s none = none :=
    fun s hs => I.absent s (fun _ => hs)
  rcases build_cases comp freqs hlen with ⟨x, hx, hb⟩ | ⟨_, _, hh0, hb⟩
  · rw [hb]
    rw [hx] at F
    refine ⟨x, rfl, F, ?_, habs⟩
    intro s hs hne2
    obtain ⟨j, h1, h2, h3⟩ := I.present s (by rw [hlen]; exact hs) hne2
    have hs256 : s % 256 = s := Nat.mod_eq_of_lt hs
    rw [hs256] at h3
    refine ⟨j, h1, lt_of_lt_of_le h2 E.len, ?_, ?_, ?_, ?_⟩
    · show (deref (buildRun comp freqs).1 j).c0 = none
      rw [E.c0 j h2, h3]; rfl
    · show (deref (buildRun comp freqs).1 j).c1 = none
      rw [E.c1 j h2, h3]; rfl
    · show (deref (buildRun comp freqs).1 j).symbol = s
      rw [E.symbol j h2, h3]; rfl
    · show (deref (buildRun comp freqs).1 j).count = _
      rw [E.count j h2, h3]; rfl
  · rw [hb]
    refine ⟨0, rfl, forest_placeholder, ?_, habs⟩
    intro s hs hne2
    obtain ⟨j, _, h2, _⟩ := I.present s (by rw [hlen]; exact hs) hne2
    rw [hh0] at h2
    exact absurd h2 (Nat.not_lt_zero _)

theorem walk_append (heap : List HCNode) : ∀ (a : List Nat) (r : Nat) (b : List Nat) (j : Nat),
    walk heap r a = some j → walk heap r (a ++ b) = walk heap j b := by
  intro a
  induction a with
  | nil =>
    intro r b j h
    simp only [walk, Option.some.injEq] at h
    subst h
    rfl
  | cons x xs ih =>
    intro r b j h
    simp only [walk, List.cons_append] at h ⊢
    cases hc : (if x = 0 then (deref heap r).c0 else (deref heap r).c1) with
    | none => rw [hc] at h; exact Option.noConfusion h
    | some c =>
      rw [hc] at h
      exact ih c b j h

theorem walk_prefix (heap : List HCNode) : ∀ (a : List Nat) (r : Nat) (b : List Nat) (k : Nat),
    walk heap r (a ++ b) = some k → ∃ j, walk heap r a = some j ∧ walk heap j b = some k := by
  intro a
  induction a with
  | nil => intro r b k h; exact ⟨r, rfl, h⟩
  | cons x xs ih =>
    intro r b k h
    simp only [walk, List.cons_append] at h ⊢
    cases hc : (if x = 0 then (deref heap r).c0 else (deref heap r).c1) with
    | none => rw [hc] at h; exact Option.noConfusion h
    | some c =>
      rw [hc] at h
      exact ih c b k h

theorem walk_leaf (heap : List HCNode) (j : Nat) (bits : List Nat) (k : Nat)
    (h0 : (deref heap j).c0 = none) (h1 : (deref heap j).c1 = none)
    (h : walk heap j bits = some k) : bits = [] := by
  cases bits with
  | nil => rfl
  | cons b bs =>
    simp only [walk] at h
    by_cases hb : b = 0
    · rw [if_pos hb, h0] at h; exact Option.noConfusion h
    · rw [if_neg hb, h1] at h; exact Option.noConfusion h

theorem walk_depth {heap : List HCNode} {pq : List Nat} (F : Forest heap pq) :
    ∀ (bits : List Nat) (r j : Nat), r < heap.length → walk heap r bits = some j →
      j + bits.length ≤ r := by
  intro bits
  induction bits with
  | nil =>
    intro r j _ h
    simp only [walk, Option.some.injEq] at h
    subst h
    simp
  | cons b bs ih =>
    intro r j hr h
    simp only [walk] at h
    cases hc : (if b = 0 then (deref heap r).c0 else (deref heap r).c1) with
    | none => rw [hc] at h; exact Option.noConfusion h
    | some c =>
      rw [hc] at h
      rcases F.down r hr with ⟨h0, h1⟩ | ⟨a, b2, h0, h1, _, ha, hb, _, _⟩
      · by_cases hb0 : b = 0
        · rw [if_pos hb0, h0] at hc; exact Option.noConfusion hc
        · rw [if_neg hb0, h1] at hc; exact Option.noConfusion hc
      · have hcl : c < r := by
          by_cases hb0 : b = 0
          · rw [if_pos hb0, h0] at hc
            rw [← Option.some.inj hc]; exact ha
          · rw [if_neg hb0, h1] at hc
            rw [← Option.some.inj hc]; exact hb
        have := ih c j (by omega) h
        rw [List.length_cons]
        omega

theorem encodeLoop_spec (t : HCTree) (r : Nat) (hroot : t.root = some r)
    (F : Forest t.heap [r]) :
    ∀ (n i : Nat) (acc : List Nat), i < t.heap.length → t.heap.length - i ≤ n →
      ∃ bits, encodeLoop t n (some i) acc = some (bits ++ acc) ∧
        walk t.heap r bits = some i ∧ (∀ b, b ∈ bits → b = 0 ∨ b = 1) ∧
        bits.length = depthUp t.heap n i := by
  intro n
  induction n with
  | zero => intro i acc hi hn; omega
  | succ n ih =>
    intro i acc hi hn
    by_cases hir : i = r
    · subst hir
      refine ⟨[], ?_, rfl, fun b hb => absurd hb (List.not_mem_nil _), ?_⟩
      · rw [encodeLoop, hroot]
        simp
      · have : (deref t.heap i).p = none := (F.root_iff i hi).2 (List.mem_singleton.2 rfl)
        simp [depthUp, this]
    · have hp : (deref t.heap i).p ≠ none := by
        intro h
        have := (F.root_iff i hi).1 h
        exact hir (List.mem_singleton.1 this)
      obtain ⟨k, hk⟩ := Option.ne_none_iff_exists'.1 hp
      obtain ⟨hik, hkl, hch⟩ := F.up i k hi hk
      have hne : ¬ (some i = t.root) := by
        rw [hroot]
        intro h
        exact hir (Option.some.inj h)
      rcases F.down k hkl with ⟨h0, h1⟩ | ⟨a, b, h0, h1, hab, _, _, _, _⟩
      · rcases hch with h | h
        · rw [h0] at h; exact Option.noConfusion h
        · rw [h1] at h; exact Option.noConfusion h
      · rcases hch with h | h
        · -- zero-child
          have hai : a = i := by rw [h0] at h; exact Option.some.inj h
          subst hai
          obtain ⟨bits, e1, e2, e3, e4⟩ := ih k (0 :: acc) hkl (by omega)
          refine ⟨bits ++ [0], ?_, ?_, ?_, ?_⟩
          · rw [encodeLoop, if_neg hne]
            simp only [hk, h0, h1, if_true]
            rw [if_neg (by intro h2; exact hab (Option.some.inj h2)), e1]
            simp
          · rw [walk_append t.heap bits r [0] k e2]
            simp [walk, h0]
          · intro x hx
            rw [List.mem_append, List.mem_singleton] at hx
            rcases hx with hx | hx
            · exact e3 x hx
            · left; exact hx
          · simp [depthUp, hk, e4]
        · -- one-child
          have hbi : b = i := by rw [h1] at h; exact Option.some.inj h
          subst hbi
          obtain ⟨bits, e1, e2, e3, e4⟩ := ih k (1 :: acc) hkl (by omega)
          refine ⟨bits ++ [1], ?_, ?_, ?_, ?_⟩
          · rw [encodeLoop, if_neg hne]
            simp only [hk, h0, h1, if_true]
            rw [if_neg (by intro h2; exact hab (Option.some.inj h2).symm), e1]
            simp
          · rw [walk_append t.heap bits r [1] k e2]
            simp [walk, h1]
          · intro x hx
            rw [List.mem_append, List.mem_singleton] at hx
            rcases hx with hx | hx
            · exact e3 x hx
            · right; exact hx
          · simp [depthUp, hk, e4]

/-- The code of a present symbol exists, leads from the root to the leaf of the
symbol, and consists of zeros and ones. -/
theorem code_spec {freqs : List Nat} {t : HCTree} {r : Nat} (B : Built freqs t r) (s : Nat)
    (hs : s < 256) (hf : freqs.getD s 0 ≠ 0) :
    ∃ bits j, t.code s = some bits ∧ t.leaves.getD s none = some j ∧ j < t.heap.length ∧
      walk t.heap r bits = some j ∧ (∀ b, b ∈ bits → b = 0 ∨ b = 1) ∧
      bits.length = depthUp t.heap t.heap.length j ∧
      (deref t.heap j).c0 = none ∧ (deref t.heap j).c1 = none ∧ (deref t.heap j).symbol = s ∧
      (deref t.heap j).count = freqs.getD s 0 := by
  obtain ⟨j, h1, h2, h3, h4, h5, h6⟩ := B.present s hs hf
  obtain ⟨bits, e1, e2, e3, e4⟩ :=
    encodeLoop_spec t r B.root B.forest t.heap.length j [] h2 (Nat.sub_le _ _)
  refine ⟨bits, j, ?_, h1, h2, e2, e3, e4, h3, h4, h5, h6⟩
  unfold HCTree.code
  rw [h1, e1, List.append_nil]

theorem getD_ne_zero_lt (freqs : List Nat) (s : Nat) (h : freqs.getD s 0 ≠ 0) :
    s < freqs.length := by
  by_contra hn
  apply h
  rw [List.getD_eq_getElem?_getD, List.getElem?_eq_none (by omega)]
  rfl

theorem code_not_prefix {freqs : List Nat} {t : HCTree} {r : Nat} (B : Built freqs t r)
    (a b : Nat) (ha : a < 256) (hb : b < 256) (hab : a ≠ b)
    (hfa : freqs.getD a 0 ≠ 0) (hfb : freqs.getD b 0 ≠ 0) (ca cb : List Nat)
    (hca : t.code a = some ca) (hcb : t.code b = some cb) : ¬ ca <+: cb := by
  obtain ⟨ba, ja, a1, _, _, a4, _, _, a7, a8, a9, _⟩ := code_spec B a ha hfa
  obtain ⟨bb, jb, b1, _, _, b4, _, _, _, _, b9, _⟩ := code_spec B b hb hfb
  rw [hca] at a1
  rw [hcb] at b1
  have ea : ba = ca := (Option.some.inj a1).symm
  have eb : bb = cb := (Option.some.inj b1).symm
  subst ea
  subst eb
  rintro ⟨ext, hext⟩
  rw [← hext] at b4
  obtain ⟨j, w1, w2⟩ := walk_prefix t.heap ba r ext jb b4
  rw [a4] at w1
  have hj : ja = j := Option.some.inj w1
  subst hj
  have hnil := walk_leaf t.heap ja ext jb a7 a8 w2
  subst hnil
  simp only [walk, Option.some.injEq] at w2
  subst w2
  exact hab (a9.symm.trans b9)

theorem bitsOfBytes_append (a b : List Nat) :
    bitsOfBytes (a ++ b) = bitsOfBytes a ++ bitsOfBytes b := by
  induction a with
  | nil => rfl
  | cons x a ih =>
    show bitsOfByte x ++ bitsOfBytes (a ++ b) = (bitsOfByte x ++ bitsOfBytes a) ++ bitsOfBytes b
    rw [ih, List.append_assoc]

theorem read_bit_spec (s : FancyInputStream) (b : Nat) (rest : List Nat)
    (h : s.bits = b :: rest) :
    (s.read_bit).1 = (b : Int) ∧ (s.read_bit).2.bits = rest ∧ (s.read_bit).2.good = s.good ∧
      (s.read_bit).2.file = s.file := by
  unfold FancyInputStream.bits at h
  cases hbuf : s.buffer with
  | cons x xs =>
    rw [hbuf] at h
    simp only [List.cons_append, List.cons.injEq] at h
    simp only [FancyInputStream.read_bit, hbuf, FancyInputStream.bits]
    exact ⟨by rw [h.1], h.2, trivial, trivial⟩
  | nil =>
    rw [hbuf, List.nil_append] at h
    by_cases hp : s.pos < s.file.length
    · rw [List.drop_eq_getElem_cons hp] at h
      simp only [bitsOfBytes, bitsOfByte, List.cons_append, List.cons.injEq] at h
      have hget : s.file[s.pos]? = some s.file[s.pos] := List.getElem?_eq_getElem hp
      simp only [FancyInputStream.read_bit, hbuf, hget, FancyInputStream.bits, bitsOfByte,
        List.headD_cons, List.tail_cons]
      refine ⟨by rw [h.1], ?_, trivial, trivial⟩
      rw [← h.2]
      simp
    · rw [List.drop_eq_nil_of_le (by omega)] at h
      simp [bitsOfBytes] at h

theorem decodeLoop_spec (t : HCTree) {pq : List Nat} (F : Forest t.heap pq) :
    ∀ (bits : List Nat) (n r j : Nat) (s : FancyInputStream) (rest : List Nat),
      r < t.heap.length → walk t.heap r bits = some j →
      (∀ b, b ∈ bits → b = 0 ∨ b = 1) →
      (deref t.heap j).c0 = none → (deref t.heap j).c1 = none →
      bits.length < n → s.bits = bits ++ rest →
      ∃ s2, decodeLoop t n r s = .ok ((deref t.heap j).symbol, s2) ∧ s2.bits = rest ∧
        s2.good = s.good ∧ s2.file = s.file := by
  intro bits
  induction bits with
  | nil =>
    intro n r j s rest _ hw _ h0 h1 hn hs
    simp only [walk, Option.some.injEq] at hw
    subst hw
    obtain ⟨m, rfl⟩ : ∃ m, n = m + 1 := ⟨n - 1, by simp at hn; omega⟩
    refine ⟨s, ?_, by simpa using hs, rfl, rfl⟩
    rw [decodeLoop]
    simp [h1]
  | cons b bs ih =>
    intro n r j s rest hr hw hb h0 h1 hn hs
    obtain ⟨m, rfl⟩ : ∃ m, n = m + 1 := ⟨n - 1, by simp at hn; omega⟩
    rw [List.cons_append] at hs
    obtain ⟨r1, r2, r3, r4⟩ := read_bit_spec s b (bs ++ rest) hs
    simp only [walk] at hw
    rcases F.down r hr with ⟨g0, g1⟩ | ⟨x, y, g0, g1, _, hx, hy, _, _⟩
    · by_cases hb0 : b = 0
      · rw [if_pos hb0, g0] at hw; exact Option.noConfusion hw
      · rw [if_neg hb0, g1] at hw; exact Option.noConfusion hw
    · have hcond : (deref t.heap r).c1 ≠ none ∧ (deref t.heap r).c0 ≠ none := by
        rw [g0, g1]; exact ⟨Option.some_ne_none _, Option.some_ne_none _⟩
      have hbs : ∀ c, c ∈ bs → c = 0 ∨ c = 1 := fun c hc => hb c (List.mem_cons_of_mem _ hc)
      have hlen : bs.length < m := by simp at hn; omega
      rw [decodeLoop, if_pos hcond, r1]
      rcases hb b (List.mem_cons_self _ _) with hb0 | hb1
      · subst hb0
        rw [if_pos rfl, g0] at hw
        obtain ⟨s2, e1, e2, e3, e4⟩ := ih m x j (s.read_bit).2 rest (by omega) hw hbs h0 h1 hlen r2
        refine ⟨s2, ?_, e2, e3.trans r3, e4.trans r4⟩
        rw [if_neg (by decide), if_pos (by rfl), g0]
        exact e1
      · subst hb1
        rw [if_neg (by decide), g1] at hw
        obtain ⟨s2, e1, e2, e3, e4⟩ := ih m y j (s.read_bit).2 rest (by omega) hw hbs h0 h1 hlen r2
        refine ⟨s2, ?_, e2, e3.trans r3, e4.trans r4⟩
        rw [if_pos (by rfl), g1]
        exact e1

/-- Decoding undoes encoding in a built tree. -/
theorem decode_code {freqs : List Nat} {t : HCTree} {r : Nat} (B : Built freqs t r) (s : Nat)
    (hs : s < 256) (hf : freqs.getD s 0 ≠ 0) (code : List Nat) (hc : t.code s = some code)
    (inp : FancyInputStream) (rest : List Nat) (hbits : inp.bits = code ++ rest) :
    ∃ inp2, t.decode inp = .ok (s, inp2) ∧ inp2.bits = rest ∧ inp2.good = inp.good ∧
      inp2.file = inp.file := by
  obtain ⟨bits, j, c1, _, _, c4, c5, _, c7, c8, c9, _⟩ := code_spec B s hs hf
  rw [hc] at c1
  have e : bits = code := (Option.some.inj c1).symm
  subst e
  have hr : r < t.heap.length := B.forest.pq_lt r (List.mem_singleton.2 rfl)
  have hd := walk_depth B.forest bits r j hr c4
  obtain ⟨s2, e1, e2, e3, e4⟩ := decodeLoop_spec t B.forest bits t.heap.length r j inp rest hr c4 c5
    c7 c8 (by omega) hbits
  refine ⟨s2, ?_, e2, e3, e4⟩
  unfold HCTree.decode
  rw [B.root]
  simp only
  rw [e1, c9]

/-! ## Writing bits -/

theorem bit8 (b7 b6 b5 b4 b3 b2 b1 b0 : Nat)
    (h7 : b7 = 0 ∨ b7 = 1) (h6 : b6 = 0 ∨ b6 = 1) (h5 : b5 = 0 ∨ b5 = 1) (h4 : b4 = 0 ∨ b4 = 1)
    (h3 : b3 = 0 ∨ b3 = 1) (h2 : b2 = 0 ∨ b2 = 1) (h1 : b1 = 0 ∨ b1 = 1) (h0 : b0 = 0 ∨ b0 = 1) :
    bitsOfByte (byteOfBits [b7, b6, b5, b4, b3, b2, b1, b0]) = [b7, b6, b5, b4, b3, b2, b1, b0] := by
  rcases h7 with rfl | rfl <;> rcases h6 with rfl | rfl <;> rcases h5 with rfl | rfl <;>
  rcases h4 with rfl | rfl <;> rcases h3 with rfl | rfl <;> rcases h2 with rfl | rfl <;>
  rcases h1 with rfl | rfl <;> rcases h0 with rfl | rfl <;> rfl

theorem bitsOfByte_byteOfBits (bits : List Nat) (hlen : bits.length = 8)
    (h01 : ∀ b, b ∈ bits → b = 0 ∨ b = 1) : bitsOfByte (byteOfBits bits) = bits := by
  match bits, hlen, h01 with
  | [b7, b6, b5, b4, b3, b2, b1, b0], _, h01 =>
    exact bit8 b7 b6 b5 b4 b3 b2 b1 b0 (h01 b7 (by simp)) (h01 b6 (by simp)) (h01 b5 (by simp))
      (h01 b4 (by simp)) (h01 b3 (by simp)) (h01 b2 (by simp)) (h01 b1 (by simp)) (h01 b0 (by simp))

theorem bitsOfBytes_length (bs : List Nat) : (bitsOfBytes bs).length = 8 * bs.length := by
  induction bs with
  | nil => rfl
  | cons b bs ih =>
    show (bitsOfByte b ++ bitsOfBytes bs).length = 8 * (bs.length + 1)
    rw [List.length_append, ih]
    simp [bitsOfByte]
    omega

theorem writeBits_spec : ∀ (bs : List Nat) (out : FancyOutputStream),
    out.buffer.length < 8 → (∀ b, b ∈ out.buffer → b = 0 ∨ b = 1) →
    (∀ b, b ∈ bs → b = 0 ∨ b = 1) →
    ∃ ext, (writeBits out bs).file = out.file ++ ext ∧
      bitsOfBytes ext ++ (writeBits out bs).buffer = out.buffer ++ bs ∧
      (writeBits out bs).buffer.length < 8 ∧
      (∀ b, b ∈ (writeBits out bs).buffer → b = 0 ∨ b = 1) := by
  intro bs
  induction bs with
  | nil =>
    intro out h8 h01 _
    exact ⟨[], by simp [writeBits], by simp [writeBits, bitsOfBytes], h8, h01⟩
  | cons b bs ih =>
    intro out h8 h01 hbs
    have hb := hbs b (List.mem_cons_self _ _)
    have hbs2 : ∀ c, c ∈ bs → c = 0 ∨ c = 1 := fun c hc => hbs c (List.mem_cons_of_mem _ hc)
    have hstep : writeBits out (b :: bs) = writeBits (out.write_bit b) bs := rfl
    rw [hstep]
    have h01b : ∀ c, c ∈ out.buffer ++ [b] → c = 0 ∨ c = 1 := by
      intro c hc
      rw [List.mem_append, List.mem_singleton] at hc
      rcases hc with hc | hc
      · exact h01 c hc
      · rw [hc]; exact hb
    by_cases hfull : out.buffer.length + 1 = 8
    · have hw : out.write_bit b =
          { file := out.file ++ [byteOfBits (out.buffer ++ [b])], buffer := [] } := by
        unfold FancyOutputStream.write_bit
        rw [if_pos hfull]
      obtain ⟨ext, e1, e2, e3, e4⟩ := ih (out.write_bit b) (by rw [hw]; simp)
        (by rw [hw]; intro c hc; exact absurd hc (List.not_mem_nil _)) hbs2
      refine ⟨byteOfBits (out.buffer ++ [b]) :: ext, ?_, ?_, e3, e4⟩
      · rw [e1, hw]; simp
      · show (bitsOfByte (byteOfBits (out.buffer ++ [b])) ++ bitsOfBytes ext) ++ _ = _
        rw [bitsOfByte_byteOfBits _ (by simp; omega) h01b, List.append_assoc, e2, hw]
        simp
    · have hw : out.write_bit b = { out with buffer := out.buffer ++ [b] } := by
        unfold FancyOutputStream.write_bit
        rw [if_neg hfull]
      obtain ⟨ext, e1, e2, e3, e4⟩ := ih (out.write_bit b)
        (by rw [hw]; simp; omega) (by rw [hw]; exact h01b) hbs2
      refine ⟨ext, ?_, ?_, e3, e4⟩
      · rw [e1, hw]
      · rw [e2, hw]; simp

theorem flush_spec (out : FancyOutputStream) (h8 : out.buffer.length < 8)
    (h01 : ∀ b, b ∈ out.buffer → b = 0 ∨ b = 1) :
    ∃ ext pad, out.flush.file = out.file ++ ext ∧ bitsOfBytes ext = out.buffer ++ pad ∧
      pad.length < 8 ∧ (∀ b, b ∈ pad → b = 0) := by
  by_cases hb : out.buffer = []
  · refine ⟨[], [], ?_, ?_, by simp, fun b hb => absurd hb (List.not_mem_nil _)⟩
    · unfold FancyOutputStream.flush
      rw [if_pos hb]; simp
    · rw [hb]; rfl
  · have hpos : 0 < out.buffer.length := List.length_pos.2 hb
    refine ⟨[byteOfBits (out.buffer ++ List.replicate (8 - out.buffer.length) 0)],
      List.replicate (8 - out.buffer.length) 0, ?_, ?_, ?_, ?_⟩
    · unfold FancyOutputStream.flush
      rw [if_neg hb]
    · show bitsOfByte _ ++ [] = _
      rw [List.append_nil, bitsOfByte_byteOfBits]
      · simp; omega
      · intro b hb2
        rw [List.mem_append] at hb2
        rcases hb2 with hb2 | hb2
        · exact h01 b hb2
        · left; exact (List.mem_replicate.1 hb2).2
    · simp; omega
    · intro b hb2; exact (List.mem_replicate.1 hb2).2

/-- Writing bits to a stream with an empty buffer and closing it: the bytes
added hold the bits and fewer than eight zero padding bits. -/
theorem writeBits_flush (out : FancyOutputStream) (bs : List Nat) (hbuf : out.buffer = [])
    (hbs : ∀ b, b ∈ bs → b = 0 ∨ b = 1) :
    ∃ ext pad, (writeBits out bs).flush.file = out.file ++ ext ∧ bitsOfBytes ext = bs ++ pad ∧
      pad.length < 8 ∧ (∀ b, b ∈ pad → b = 0) ∧ ext.length = (bs.length + 7) / 8 := by
  obtain ⟨ext1, a1, a2, a3, a4⟩ := writeBits_spec bs out (by rw [hbuf]; simp)
    (by rw [hbuf]; intro b hb; exact absurd hb (List.not_mem_nil _)) hbs
  obtain ⟨ext2, pad, b1, b2, b3, b4⟩ := flush_spec (writeBits out bs) a3 a4
  rw [hbuf, List.nil_append] at a2
  have hbits : bitsOfBytes (ext1 ++ ext2) = bs ++ pad := by
    rw [bitsOfBytes_append, b2, ← List.append_assoc, a2]
  refine ⟨ext1 ++ ext2, pad, by rw [b1, a1, List.append_assoc], hbits, b3, b4, ?_⟩
  have hl := congrArg List.length hbits
  rw [bitsOfBytes_length, List.length_append] at hl
  rw [List.length_append] at hl ⊢
  omega

theorem headerBytes_length (fs : List Nat) : (headerBytes fs).length = 2 * fs.length := by
  induction fs with
  | nil => rfl
  | cons f fs ih => simp only [headerBytes, List.length_cons, ih]; omega

theorem addHeader_spec : ∀ (fs : List Nat) (out : FancyOutputStream),
    addHeader fs out = { file := out.file ++ headerBytes fs, buffer := out.buffer } := by
  intro fs
  induction fs with
  | nil => intro out; simp [addHeader, headerBytes]
  | cons f fs ih =>
    intro out
    have h : addHeader (f :: fs) out = addHeader fs (out.write_ushort (f % 65536)) := rfl
    rw [h, ih]
    simp [FancyOutputStream.write_ushort, headerBytes]

theorem readHeader_spec : ∀ (fs done rest pre post : List Nat) (s : FancyInputStream) (tot : Nat),
    s.file = pre ++ headerBytes fs ++ post → s.pos = pre.length → rest.length = fs.length →
    readHeader fs.length done.length s (done ++ rest) tot =
      .ok (done ++ fs.map (fun f => f % 65536), tot + (fs.map (fun f => f % 65536)).sum,
        { s with pos := s.pos + 2 * fs.length }) := by
  intro fs
  induction fs with
  | nil =>
    intro done rest pre post s tot _ _ hrest
    have : rest = [] := List.length_eq_zero.1 hrest
    subst this
    simp [readHeader]
  | cons f fs ih =>
    intro done rest pre post s tot hfile hpos hrest
    cases rest with
    | nil => simp at hrest
    | cons x rest =>
      have hrest2 : rest.length = fs.length := by simpa using hrest
      have hfile2 : s.file =
          pre ++ (f % 65536 % 256 :: f % 65536 / 256 % 256 :: (headerBytes fs ++ post)) := by
        rw [hfile]; simp [headerBytes]
      have hlo : s.file[s.pos]? = some (f % 65536 % 256) := by
        rw [hfile2, hpos, List.getElem?_append_right (le_refl _), Nat.sub_self]
        rfl
      have hhi : s.file[s.pos + 1]? = some (f % 65536 / 256 % 256) := by
        have h1 : pre.length + 1 - pre.length = 1 := by omega
        rw [hfile2, hpos, List.getElem?_append_right (Nat.le_succ _)]
        show (f % 65536 % 256 :: f % 65536 / 256 % 256 ::
          (headerBytes fs ++ post))[pre.length + 1 - pre.length]? = _
        rw [h1]
        simp
      have hread : s.read_ushort = some (f % 65536, { s with pos := s.pos + 2 }) := by
        unfold FancyInputStream.read_ushort
        rw [hlo, hhi]
        simp only [Option.some.injEq, Prod.mk.injEq, and_true]
        omega
      have hset : (done ++ x :: rest).set done.length (f % 65536) =
          (done ++ [f % 65536]) ++ rest := by
        simp
      have hih := ih (done ++ [f % 65536]) rest (pre ++ [f % 65536 % 256, f % 65536 / 256 % 256])
        post { s with pos := s.pos + 2 } (tot + f % 65536)
        (by simp [hfile, headerBytes]) (by simp [hpos]) hrest2
      have hl : (done ++ [f % 65536]).length = done.length + 1 := by simp
      rw [hl] at hih
      show readHeader (fs.length + 1) done.length s (done ++ x :: rest) tot = _
      rw [readHeader, hread]
      simp only
      rw [hset, hih]
      have e1 : tot + f % 65536 + (fs.map (fun f => f % 65536)).sum =
          tot + ((f :: fs).map (fun f => f % 65536)).sum := by
        simp only [List.map_cons, List.sum_cons]; omega
      have e2 : s.pos + 2 + 2 * fs.length = s.pos + 2 * (f :: fs).length := by
        simp only [List.length_cons]; omega
      have e3 : done ++ [f % 65536] ++ fs.map (fun f => f % 65536) =
          done ++ (f :: fs).map (fun f => f % 65536) := by simp
      rw [e1, e3]
      simp only [e2]

/-! ## The compress pipeline -/

theorem sum_set_succ : ∀ (fr : List Nat) (i : Nat), i < fr.length →
    (fr.set i (fr.getD i 0 + 1)).sum = fr.sum + 1 := by
  intro fr
  induction fr with
  | nil => intro i hi; simp at hi
  | cons x xs ih =>
    intro i hi
    cases i with
    | zero => simp; omega
    | succ j =>
      have := ih j (by simpa using hi)
      simp only [List.set_cons_succ, List.sum_cons, List.getD_cons_succ] at this ⊢
      omega

theorem countLoop_spec : ∀ (n : Nat) (s : FancyInputStream) (fr : List Nat),
    s.good = true → s.pos + n = s.file.length → (∀ b, b ∈ s.file → b < 256) →
    fr.length = 256 →
    ∃ fr2 s2, countLoop n s fr = .ok (fr2, s2) ∧ s2.file = s.file ∧ fr2.length = 256 ∧
      fr2.sum = fr.sum + n ∧ ∀ b, fr2.getD b 0 = fr.getD b 0 + (s.file.drop s.pos).count b := by
  intro n
  induction n with
  | zero =>
    intro s fr _ hpos _ hlen
    refine ⟨fr, s, rfl, rfl, hlen, rfl, ?_⟩
    intro b
    rw [List.drop_eq_nil_of_le (by omega)]
    simp
  | succ n ih =>
    intro s fr hgood hpos hbytes hlen
    have hp : s.pos < s.file.length := by omega
    have hget : s.file[s.pos]? = some s.file[s.pos] := List.getElem?_eq_getElem hp
    have hch : s.file[s.pos] < 256 := hbytes _ (List.getElem_mem _)
    have hread : s.read_char = some (s.file[s.pos], { s with pos := s.pos + 1 }) := by
      unfold FancyInputStream.read_char
      rw [hget]
    obtain ⟨fr2, s2, e1, e2, e3, e4, e5⟩ := ih { s with pos := s.pos + 1 }
      (fr.set s.file[s.pos] (fr.getD s.file[s.pos] 0 + 1)) hgood
      (by show s.pos + 1 + n = s.file.length; omega) hbytes (by rw [List.length_set]; exact hlen)
    refine ⟨fr2, s2, ?_, e2, e3, ?_, ?_⟩
    · rw [countLoop, if_pos hgood, hread]
      exact e1
    · rw [e4, sum_set_succ fr _ (by rw [hlen]; exact hch)]
      omega
    · intro b
      rw [e5 b]
      show (fr.set _ _).getD b 0 + (s.file.drop (s.pos + 1)).count b = _
      rw [List.drop_eq_getElem_cons hp, List.count_cons]
      rw [List.getD_eq_getElem?_getD, List.getElem?_set, List.getD_eq_getElem?_getD]
      by_cases hb : s.file[s.pos] = b
      · subst hb
        simp [hlen, hch, List.getD_eq_getElem?_getD]
        omega
      · simp [hb]

theorem freqTable_length (S : List Nat) : (freqTable S).length = 256 := by
  simp [freqTable]

theorem freqTable_getD (S : List Nat) (hS : ∀ b, b ∈ S → b < 256) (b : Nat) :
    (freqTable S).getD b 0 = S.count b := by
  unfold freqTable
  rw [List.getD_eq_getElem?_getD, List.getElem?_map]
  by_cases hb : b < 256
  · rw [List.getElem?_range hb]
    rfl
  · rw [List.getElem?_eq_none (by simp; omega)]
    have : b ∉ S := fun h => hb (hS b h)
    simp [List.count_eq_zero_of_not_mem this]

theorem countOccurances_spec (S : List Nat) (hS : ∀ b, b ∈ S → b < 256) :
    countOccurances (FancyInputStream.create S) = .ok (freqTable S, FancyInputStream.create S) ∧
      (freqTable S).sum = S.length := by
  obtain ⟨fr2, s2, e1, e2, e3, e4, e5⟩ := countLoop_spec S.length (FancyInputStream.create S)
    (List.replicate 256 0) rfl (by simp [FancyInputStream.create]) hS (List.length_replicate _ _)
  have hfr : fr2 = freqTable S := by
    apply List.ext_getElem?
    intro b
    have h1 := e5 b
    have h2 := freqTable_getD S hS b
    have h0 : (List.replicate 256 0).getD b 0 = 0 := by
      rw [List.getD_eq_getElem?_getD, List.getElem?_replicate]
      split <;> rfl
    rw [h0] at h1
    simp only [FancyInputStream.create, List.drop_zero, zero_add] at h1
    rw [← h2] at h1
    rw [List.getD_eq_getElem?_getD, List.getD_eq_getElem?_getD] at h1
    by_cases hb : b < 256
    · have a1 : b < fr2.length := by rw [e3]; exact hb
      have a2 : b < (freqTable S).length := by rw [freqTable_length]; exact hb
      rw [List.getElem?_eq_getElem a1, List.getElem?_eq_getElem a2] at h1 ⊢
      simpa using h1
    · rw [List.getElem?_eq_none (by rw [e3]; omega),
        List.getElem?_eq_none (by rw [freqTable_length]; omega)]
  subst hfr
  constructor
  · unfold countOccurances
    have : (FancyInputStream.create S).filesize = S.length := rfl
    rw [this, e1]
    simp only [FancyInputStream.reset, FancyInputStream.create]
    rw [e2]
    rfl
  · rw [e4]
    have : (List.replicate 256 0).sum = 0 := by
      apply List.sum_eq_zero
      intro x hx
      exact (List.mem_replicate.1 hx).2
    rw [this]
    simp

theorem writeBits_append (out : FancyOutputStream) (a b : List Nat) :
    writeBits out (a ++ b) = writeBits (writeBits out a) b := by
  unfold writeBits
  rw [List.foldl_append]

theorem encode_eq (t : HCTree) (s : Nat) (code : List Nat) (out : FancyOutputStream)
    (h : t.code s = some code) : t.encode s out = some (writeBits out code) := by
  unfold HCTree.encode
  rw [h]
  rfl

theorem encodeLoopFile_spec (t : HCTree) : ∀ (n : Nat) (inp : FancyInputStream)
    (out : FancyOutputStream), inp.good = true → inp.pos + n = inp.file.length →
    (∀ s, s ∈ inp.file.drop inp.pos → ∃ c, t.code s = some c) →
    encodeLoopFile t n inp out = .ok (writeBits out (encodeAll t (inp.file.drop inp.pos))) := by
  intro n
  induction n with
  | zero =>
    intro inp out _ hpos _
    rw [List.drop_eq_nil_of_le (by omega)]
    rfl
  | succ n ih =>
    intro inp out hgood hpos hcode
    have hp : inp.pos < inp.file.length := by omega
    have hget : inp.file[inp.pos]? = some inp.file[inp.pos] := List.getElem?_eq_getElem hp
    have hread : inp.read_char = some (inp.file[inp.pos], { inp with pos := inp.pos + 1 }) := by
      unfold FancyInputStream.read_char
      rw [hget]
    have hdrop := List.drop_eq_getElem_cons hp
    obtain ⟨c, hc⟩ := hcode inp.file[inp.pos] (by rw [hdrop]; exact List.mem_cons_self _ _)
    have hrec := ih { inp with pos := inp.pos + 1 } (writeBits out c) hgood
      (by show inp.pos + 1 + n = inp.file.length; omega)
      (by
        intro s hs
        apply hcode
        rw [hdrop]
        exact List.mem_cons_of_mem _ hs)
    rw [encodeLoopFile, if_pos hgood, hread]
    simp only
    rw [encode_eq t _ c out hc]
    simp only
    rw [hrec, hdrop]
    show _ = Except.ok (writeBits out ((t.code inp.file[inp.pos]).getD [] ++ encodeAll t _))
    rw [hc, writeBits_append]
    rfl

theorem encodeAll_bits {freqs : List Nat} {t : HCTree} {r : Nat} (B : Built freqs t r) :
    ∀ S : List Nat, (∀ s, s ∈ S → s < 256 ∧ freqs.getD s 0 ≠ 0) →
      ∀ b, b ∈ encodeAll t S → b = 0 ∨ b = 1 := by
  intro S
  induction S with
  | nil => intro _ b hb; exact absurd hb (List.not_mem_nil _)
  | cons s S ih =>
    intro hS b hb
    have hs := hS s (List.mem_cons_self _ _)
    obtain ⟨bits, j, c1, _, _, _, c5, _⟩ := code_spec B s hs.1 hs.2
    simp only [encodeAll, c1, Option.getD_some, List.mem_append] at hb
    rcases hb with hb | hb
    · exact c5 b hb
    · exact ih (fun x hx => hS x (List.mem_cons_of_mem _ hx)) b hb

theorem decodeFile_spec {freqs : List Nat} {t : HCTree} {r : Nat} (B : Built freqs t r) :
    ∀ (S : List Nat) (inp : FancyInputStream) (out : FancyOutputStream) (rest : List Nat),
      (∀ s, s ∈ S → s < 256 ∧ freqs.getD s 0 ≠ 0) → inp.good = true →
      inp.bits = encodeAll t S ++ rest →
      decodeFile t S.length inp out = .ok { file := out.file ++ S, buffer := out.buffer } := by
  intro S
  induction S with
  | nil =>
    intro inp out rest _ _ _
    simp [decodeFile]
  | cons s S ih =>
    intro inp out rest hS hgood hbits
    have hs := hS s (List.mem_cons_self _ _)
    obtain ⟨bits, j, c1, _⟩ := code_spec B s hs.1 hs.2
    have hb2 : inp.bits = bits ++ (encodeAll t S ++ rest) := by
      rw [hbits]
      simp only [encodeAll, c1, Option.getD_some, List.append_assoc]
    obtain ⟨inp2, d1, d2, d3, _⟩ := decode_code B s hs.1 hs.2 bits c1 inp _ hb2
    have hrec := ih inp2 (out.write_uchar s) rest
      (fun x hx => hS x (List.mem_cons_of_mem _ hx)) (by rw [d3]; exact hgood) d2
    rw [List.length_cons, decodeFile, if_pos hgood, d1]
    simp only
    rw [hrec]
    simp [FancyOutputStream.write_uchar, Nat.mod_eq_of_lt hs.1]

/-! ## The pipelines -/

theorem freqTable_present (S : List Nat) (hS : ∀ b, b ∈ S → b < 256) (s : Nat) (hs : s ∈ S) :
    s < 256 ∧ (freqTable S).getD s 0 ≠ 0 := by
  refine ⟨hS s hs, ?_⟩
  rw [freqTable_getD S hS s]
  exact Nat.pos_iff_ne_zero.1 (List.count_pos_iff.2 hs)

/-- The output of `compress` on a non-empty input: the header of the frequency
table, then the codes of the bytes in order, padded with zeros to a byte. -/
theorem compress_spec (comp : HCNode → HCNode → Bool) (S : List Nat) (hne : S ≠ [])
    (hS : ∀ b, b ∈ S → b < 256) :
    ∃ ext pad, compress comp S = .ok (headerBytes (freqTable S) ++ ext) ∧
      bitsOfBytes ext = encodeAll (HCTree.new.build comp (freqTable S)) S ++ pad ∧
      pad.length < 8 ∧ (∀ b, b ∈ pad → b = 0) ∧
      ext.length = ((encodeAll (HCTree.new.build comp (freqTable S)) S).length + 7) / 8 := by
  obtain ⟨r, B⟩ := build_built comp (freqTable S) (freqTable_length S)
  have hcount := (countOccurances_spec S hS).1
  have hbits := encodeAll_bits B S (freqTable_present S hS)
  obtain ⟨ext, pad, w1, w2, w3, w4, w5⟩ := writeBits_flush
    (addHeader (freqTable S) FancyOutputStream.create)
    (encodeAll (HCTree.new.build comp (freqTable S)) S) (by rw [addHeader_spec]; rfl) hbits
  refine ⟨ext, pad, ?_, w2, w3, w4, w5⟩
  have hfs : ¬ (FancyInputStream.create S).filesize = 0 := by
    show ¬ S.length = 0
    intro h
    exact hne (List.length_eq_zero.1 h)
  have henc : encodeFile (FancyInputStream.create S)
      (addHeader (freqTable S) FancyOutputStream.create) (HCTree.new.build comp (freqTable S)) =
      .ok (writeBits (addHeader (freqTable S) FancyOutputStream.create)
        (encodeAll (HCTree.new.build comp (freqTable S)) S)) := by
    unfold encodeFile
    have := encodeLoopFile_spec (HCTree.new.build comp (freqTable S)) S.length
      (FancyInputStream.create S) (addHeader (freqTable S) FancyOutputStream.create) rfl
      (by simp [FancyInputStream.create])
      (by
        intro s hs
        have hs2 : s ∈ S := by simpa [FancyInputStream.create] using hs
        obtain ⟨h1, h2⟩ := freqTable_present S hS s hs2
        obtain ⟨bits, j, c1, _⟩ := code_spec B s h1 h2
        exact ⟨bits, c1⟩)
    simpa [FancyInputStream.create, FancyInputStream.filesize] using this
  unfold compress
  simp only [hfs, if_false, hcount, henc, w1]
  rw [addHeader_spec]
  rfl

/-- The run of `decompress` on a file that starts with the header of a table:
the tree is built from the counts modulo 65536, whose sum is the number of
symbols to decode. -/
theorem decompress_spec (comp : HCNode → HCNode → Bool) (fr payload : List Nat)
    (hlen : fr.length = 256) :
    decompress comp (headerBytes fr ++ payload) =
      match decodeFile (HCTree.new.build comp (fr.map (fun f => f % 65536)))
        (fr.map (fun f => f % 65536)).sum
        { file := headerBytes fr ++ payload, pos := 512, buffer := [], good := true }
        FancyOutputStream.create with
      | .error e => .error e
      | .ok outFile => .ok outFile.flush.file := by
  have hfs : ¬ (FancyInputStream.create (headerBytes fr ++ payload)).filesize = 0 := by
    show ¬ (headerBytes fr ++ payload).length = 0
    rw [List.length_append, headerBytes_length, hlen]
    omega
  have hread := readHeader_spec fr [] (List.replicate 256 0) [] payload
    (FancyInputStream.create (headerBytes fr ++ payload)) 0 rfl rfl
    (by rw [List.length_replicate, hlen])
  rw [hlen] at hread
  unfold decompress
  simp only [hfs, if_false]
  have e : readHeader 256 0 (FancyInputStream.create (headerBytes fr ++ payload))
      (List.replicate 256 0) 0 = readHeader 256 ([] : List Nat).length
      (FancyInputStream.create (headerBytes fr ++ payload)) ([] ++ List.replicate 256 0) 0 := rfl
  rw [e, hread]
  simp only [List.nil_append, zero_add]
  rfl

theorem map_mod_eq (fr : List Nat) (h : ∀ f, f ∈ fr → f ≤ 65535) :
    fr.map (fun f => f % 65536) = fr := by
  induction fr with
  | nil => rfl
  | cons x xs ih =>
    have hx := h x (List.mem_cons_self _ _)
    rw [List.map_cons, ih (fun f hf => h f (List.mem_cons_of_mem _ hf)),
      Nat.mod_eq_of_lt (by omega)]

theorem freqTable_le (S : List Nat) (h : ∀ b, S.count b ≤ 65535) :
    ∀ f, f ∈ freqTable S → f ≤ 65535 := by
  intro f hf
  unfold freqTable at hf
  rw [List.mem_map] at hf
  obtain ⟨b, _, hb⟩ := hf
  rw [← hb]
  exact h b

theorem roundtrip_of_small (comp : HCNode → HCNode → Bool) (S : List Nat)
    (hS : ∀ b, b ∈ S → b < 256) (hc : ∀ b, S.count b ≤ 65535) :
    ∃ c, compress comp S = .ok c ∧ decompress comp c = .ok S := by
  by_cases hne : S = []
  · subst hne
    exact ⟨[], rfl, rfl⟩
  · obtain ⟨ext, pad, c1, c2, _, _, _⟩ := compress_spec comp S hne hS
    refine ⟨_, c1, ?_⟩
    obtain ⟨r, B⟩ := build_built comp (freqTable S) (freqTable_length S)
    rw [decompress_spec comp (freqTable S) ext (freqTable_length S),
      map_mod_eq _ (freqTable_le S hc), (countOccurances_spec S hS).2]
    have hbits : (FancyInputStream.mk (headerBytes (freqTable S) ++ ext) 512 [] true).bits =
        encodeAll (HCTree.new.build comp (freqTable S)) S ++ pad := by
      unfold FancyInputStream.bits
      have h512 : 512 = (headerBytes (freqTable S)).length := by
        rw [headerBytes_length, freqTable_length]
      simp only [List.nil_append]
      rw [h512, List.drop_left, c2]
    rw [decodeFile_spec B S _ FancyOutputStream.create pad (freqTable_present S hS) rfl hbits]
    simp [FancyOutputStream.create, FancyOutputStream.flush]

theorem encodeAll_eq_flatMap (t : HCTree) (S : List Nat) :
    encodeAll t S = S.flatMap (fun s => (t.code s).getD []) := by
  induction S with
  | nil => rfl
  | cons s S ih => rw [List.flatMap_cons, ← ih]; rfl

theorem table_mod_zero (b : Nat) :
    ∀ x, x ∈ (freqTable (List.replicate 65536 b)).map (fun f => f % 65536) → x = 0 := by
  intro x hx
  rw [List.mem_map] at hx
  obtain ⟨f, hf, hfx⟩ := hx
  unfold freqTable at hf
  rw [List.mem_map] at hf
  obtain ⟨s, _, hs⟩ := hf
  rw [← hfx, ← hs, List.count_replicate]
  split <;> rfl

theorem decompress_overflow (comp : HCNode → HCNode → Bool) (b : Nat) (payload : List Nat) :
    decompress comp (headerBytes (freqTable (List.replicate 65536 b)) ++ payload) = .ok [] := by
  rw [decompress_spec comp _ payload (freqTable_length _),
    List.sum_eq_zero (table_mod_zero b)]
  rfl

theorem headerBytes_field : ∀ (fs : List Nat) (i : Nat), i < fs.length →
    (headerBytes fs).getD (2 * i) 0 + 256 * (headerBytes fs).getD (2 * i + 1) 0 =
      fs.getD i 0 % 65536 := by
  intro fs
  induction fs with
  | nil => intro i hi; exact absurd hi (Nat.not_lt_zero _)
  | cons f fs ih =>
    intro i hi
    cases i with
    | zero =>
      show f % 65536 % 256 + 256 * (f % 65536 / 256 % 256) = f % 65536
      omega
    | succ j =>
      have e1 : 2 * (j + 1) = 2 * j + 1 + 1 := by omega
      rw [e1]
      simp only [headerBytes, List.getD_cons_succ]
      exact ih j (by simpa using hi)

theorem take_header (fr ext : List Nat) (hlen : fr.length = 256) :
    (headerBytes fr ++ ext).take 512 = headerBytes fr := by
  have h512 : 512 = (headerBytes fr).length := by rw [headerBytes_length, hlen]
  rw [h512, List.take_left]

theorem drop_header (fr ext : List Nat) (hlen : fr.length = 256) :
    (headerBytes fr ++ ext).drop 512 = ext := by
  have h512 : 512 = (headerBytes fr).length := by rw [headerBytes_length, hlen]
  rw [h512, List.drop_left]

theorem readHeader_block (fr : List Nat) (hlen : fr.length = 256) (payload : List Nat) :
    readHeader 256 0 (FancyInputStream.create (headerBytes fr ++ payload))
      (List.replicate 256 0) 0 =
      .ok (fr.map (fun f => f % 65536), (fr.map (fun f => f % 65536)).sum,
        { file := headerBytes fr ++ payload, pos := 512, buffer := [], good := true }) := by
  have hread := readHeader_spec fr [] (List.replicate 256 0) [] payload
    (FancyInputStream.create (headerBytes fr ++ payload)) 0 rfl rfl
    (by rw [List.length_replicate, hlen])
  rw [hlen] at hread
  have e : readHeader 256 0 (FancyInputStream.create (headerBytes fr ++ payload))
      (List.replicate 256 0) 0 = readHeader 256 ([] : List Nat).length
      (FancyInputStream.create (headerBytes fr ++ payload)) ([] ++ List.replicate 256 0) 0 := rfl
  rw [e, hread]
  simp only [List.nil_append, zero_add]
  rfl

theorem replicate_bytes (N b : Nat) (hb : b < 256) : ∀ x, x ∈ List.replicate N b → x < 256 := by
  intro x hx
  rw [(List.mem_replicate.1 hx).2]
  exact hb

theorem replicate_ne_nil (N b : Nat) (hN : 1 ≤ N) : List.replicate N b ≠ [] := by
  intro h
  have := congrArg List.length h
  rw [List.length_replicate] at this
  simp at this
  omega

/-! ## The claims -/

/-- C1 (amended): for every byte sequence `S` in which no byte value occurs
more than 65535 times, the empty sequence included, `compress` finishes with
an output `c` and `decompress` on `c` finishes with exactly `S`. -/
theorem roundtrip_identity (comp : HCNode → HCNode → Bool) (S : List Nat)
    (hS : ∀ b, b ∈ S → b < 256) (hc : ∀ b, S.count b ≤ 65535) :
    ∃ c, compress comp S = .ok c ∧ decompress comp c = .ok S :=
  roundtrip_of_small comp S hS hc

/-- Witness of C1: the round trip of the bytes 97, 98, 97. -/
theorem roundtrip_identity_witness :
    (∀ b, b ∈ [97, 98, 97] → b < 256) ∧ (∀ b, [97, 98, 97].count b ≤ 65535) ∧
    ∃ c, compress HCNodePtrComp [97, 98, 97] = .ok c ∧
      decompress HCNodePtrComp c = .ok [97, 98, 97] :=
  ⟨by decide, fun b => le_trans (List.count_le_length b _) (by decide),
    roundtrip_identity HCNodePtrComp [97, 98, 97] (by decide)
      (fun b => le_trans (List.count_le_length b _) (by decide))⟩

/-- C1 as stated fails: 65536 copies of the byte 0 are compressed to a file
that decompresses to the empty sequence. -/
theorem roundtrip_identity_fails :
    ∃ c, compress HCNodePtrComp (List.replicate 65536 0) = .ok c ∧
      decompress HCNodePtrComp c = .ok [] ∧
      decompress HCNodePtrComp c ≠ .ok (List.replicate 65536 0) := by
  obtain ⟨ext, pad, c1, _⟩ := compress_spec HCNodePtrComp (List.replicate 65536 0)
    (replicate_ne_nil _ _ (by decide)) (replicate_bytes _ 0 (by decide))
  have hd := decompress_overflow HCNodePtrComp 0 ext
  refine ⟨_, c1, hd, ?_⟩
  rw [hd]
  intro h
  have := congrArg List.length (Except.ok.inj h)
  rw [List.length_replicate] at this
  exact absurd this (by decide)

/-- C2: in the tree that `build` makes from a 256-entry frequency table, the
codes that `encode` emits for two distinct symbols of non-zero frequency exist
and neither is a prefix of the other. -/
theorem codes_prefix_free (comp : HCNode → HCNode → Bool) (freqs : List Nat)
    (hlen : freqs.length = 256) (a b : Nat) (hab : a ≠ b)
    (ha : freqs.getD a 0 ≠ 0) (hb : freqs.getD b 0 ≠ 0) :
    ∃ ca cb, (HCTree.new.build comp freqs).code a = some ca ∧
      (HCTree.new.build comp freqs).code b = some cb ∧ ¬ ca <+: cb ∧ ¬ cb <+: ca := by
  obtain ⟨r, B⟩ := build_built comp freqs hlen
  have ha2 : a < 256 := hlen ▸ getD_ne_zero_lt freqs a ha
  have hb2 : b < 256 := hlen ▸ getD_ne_zero_lt freqs b hb
  obtain ⟨ca, _, a1, _⟩ := code_spec B a ha2 ha
  obtain ⟨cb, _, b1, _⟩ := code_spec B b hb2 hb
  exact ⟨ca, cb, a1, b1, code_not_prefix B a b ha2 hb2 hab ha hb ca cb a1 b1,
    code_not_prefix B b a hb2 ha2 (Ne.symm hab) hb ha cb ca b1 a1⟩

/-- Witness of C2: the table of the input 97, 98 and its two symbols. -/
theorem codes_prefix_free_witness :
    (freqTable [97, 98]).length = 256 ∧ (freqTable [97, 98]).getD 97 0 ≠ 0 ∧
    (freqTable [97, 98]).getD 98 0 ≠ 0 ∧
    ∃ ca cb, (HCTree.new.build HCNodePtrComp (freqTable [97, 98])).code 97 = some ca ∧
      (HCTree.new.build HCNodePtrComp (freqTable [97, 98])).code 98 = some cb ∧
      ¬ ca <+: cb ∧ ¬ cb <+: ca :=
  ⟨freqTable_length _, (freqTable_present [97, 98] (by decide) 97 (by decide)).2,
    (freqTable_present [97, 98] (by decide) 98 (by decide)).2,
    codes_prefix_free HCNodePtrComp (freqTable [97, 98]) (freqTable_length _) 97 98 (by decide)
      (freqTable_present [97, 98] (by decide) 97 (by decide)).2
      (freqTable_present [97, 98] (by decide) 98 (by decide)).2⟩

/-- C4: in the tree that `build` makes from a 256-entry frequency table, every
symbol `s` of non-zero frequency has a code, and `decode` on a bit source that
delivers this code followed by any bits `rest` returns `s` and leaves exactly
`rest` unread. -/
theorem decode_undoes_encode (comp : HCNode → HCNode → Bool) (freqs : List Nat)
    (hlen : freqs.length = 256) (s : Nat) (hs : freqs.getD s 0 ≠ 0) :
    ∃ code, (HCTree.new.build comp freqs).code s = some code ∧
      ∀ (inp : FancyInputStream) (rest : List Nat), inp.bits = code ++ rest →
        ∃ inp2, (HCTree.new.build comp freqs).decode inp = .ok (s, inp2) ∧ inp2.bits = rest := by
  obtain ⟨r, B⟩ := build_built comp freqs hlen
  have hs2 : s < 256 := hlen ▸ getD_ne_zero_lt freqs s hs
  obtain ⟨code, _, c1, _⟩ := code_spec B s hs2 hs
  refine ⟨code, c1, ?_⟩
  intro inp rest hbits
  obtain ⟨inp2, d1, d2, _⟩ := decode_code B s hs2 hs code c1 inp rest hbits
  exact ⟨inp2, d1, d2⟩

/-- Witness of C4: the table of the input 97, 98 and the symbol 98. -/
theorem decode_undoes_encode_witness :
    (freqTable [97, 98]).length = 256 ∧ (freqTable [97, 98]).getD 98 0 ≠ 0 ∧
    ∃ code, (HCTree.new.build HCNodePtrComp (freqTable [97, 98])).code 98 = some code ∧
      ∀ (inp : FancyInputStream) (rest : List Nat), inp.bits = code ++ rest →
        ∃ inp2, (HCTree.new.build HCNodePtrComp (freqTable [97, 98])).decode inp =
          .ok (98, inp2) ∧ inp2.bits = rest :=
  ⟨freqTable_length _, (freqTable_present [97, 98] (by decide) 98 (by decide)).2,
    decode_undoes_encode HCNodePtrComp (freqTable [97, 98]) (freqTable_length _) 98
      (freqTable_present [97, 98] (by decide) 98 (by decide)).2⟩

/-- C5 (amended): for every non-empty byte sequence `S` in which no byte value
occurs more than 65535 times, the first 512 bytes of the output of `compress`,
read by the header loop of `decompress`, give the frequency table of `S` and a
`total_chars` equal to the length of `S`, which is the sum of the table. -/
theorem header_size_invariant (comp : HCNode → HCNode → Bool) (S : List Nat) (hne : S ≠ [])
    (hS : ∀ b, b ∈ S → b < 256) (hc : ∀ b, S.count b ≤ 65535) :
    ∃ c inp, compress comp S = .ok c ∧
      readHeader 256 0 (FancyInputStream.create (c.take 512)) (List.replicate 256 0) 0 =
        .ok (freqTable S, S.length, inp) ∧
      (freqTable S).sum = S.length := by
  obtain ⟨ext, pad, c1, _⟩ := compress_spec comp S hne hS
  have hsum := (countOccurances_spec S hS).2
  refine ⟨headerBytes (freqTable S) ++ ext,
    { file := headerBytes (freqTable S), pos := 512, buffer := [], good := true }, c1, ?_, hsum⟩
  rw [take_header _ _ (freqTable_length S)]
  have h := readHeader_block (freqTable S) (freqTable_length S) []
  rw [List.append_nil, map_mod_eq _ (freqTable_le S hc), hsum] at h
  exact h

/-- Witness of C5: the input 97, 98, 97. -/
theorem header_size_invariant_witness :
    [97, 98, 97] ≠ [] ∧ (∀ b, b ∈ [97, 98, 97] → b < 256) ∧
    (∀ b, [97, 98, 97].count b ≤ 65535) ∧
    ∃ c inp, compress HCNodePtrComp [97, 98, 97] = .ok c ∧
      readHeader 256 0 (FancyInputStream.create (c.take 512)) (List.replicate 256 0) 0 =
        .ok (freqTable [97, 98, 97], [97, 98, 97].length, inp) ∧
      (freqTable [97, 98, 97]).sum = [97, 98, 97].length :=
  ⟨by decide, by decide, fun b => le_trans (List.count_le_length b _) (by decide),
    header_size_invariant HCNodePtrComp [97, 98, 97] (by decide) (by decide)
      (fun b => le_trans (List.count_le_length b _) (by decide))⟩

/-- C5 as stated fails: for 65536 copies of the byte 1 the header read back
gives `total_chars = 0`, not the length of the input. -/
theorem header_size_invariant_fails :
    ∃ c fr inp, compress HCNodePtrComp (List.replicate 65536 1) = .ok c ∧
      readHeader 256 0 (FancyInputStream.create (c.take 512)) (List.replicate 256 0) 0 =
        .ok (fr, 0, inp) ∧
      0 ≠ (List.replicate 65536 1).length := by
  obtain ⟨ext, pad, c1, _⟩ := compress_spec HCNodePtrComp (List.replicate 65536 1)
    (replicate_ne_nil _ _ (by decide)) (replicate_bytes _ 1 (by decide))
  refine ⟨headerBytes (freqTable (List.replicate 65536 1)) ++ ext,
    (freqTable (List.replicate 65536 1)).map (fun f => f % 65536),
    { file := headerBytes (freqTable (List.replicate 65536 1)), pos := 512, buffer := [],
      good := true }, c1, ?_, ?_⟩
  · rw [take_header _ _ (freqTable_length _)]
    have h := readHeader_block (freqTable (List.replicate 65536 1)) (freqTable_length _) []
    rw [List.append_nil, List.sum_eq_zero (table_mod_zero 1)] at h
    exact h
  · rw [List.length_replicate]
    decide

/-- C7: on the empty input `compress` finishes with an empty output, and so
does `decompress`, whatever the comparator: no tree is involved. -/
theorem empty_input (comp : HCNode → HCNode → Bool) :
    compress comp [] = .ok [] ∧ decompress comp [] = .ok [] :=
  ⟨rfl, rfl⟩

/-- C8: for a 256-entry table with all counts in 0..65535, `addHeader` writes
512 bytes that hold the counts as 16-bit fields in symbol order, and the header
loop of `decompress` on a file starting with that block gives the same table,
`total_chars` equal to the sum of the counts, and a stream positioned after
the block. -/
theorem header_codec_roundtrip (freqs : List Nat) (hlen : freqs.length = 256)
    (hc : ∀ f, f ∈ freqs → f ≤ 65535) :
    (addHeader freqs FancyOutputStream.create).file.length = 512 ∧
    (addHeader freqs FancyOutputStream.create).buffer = [] ∧
    (∀ i, i < 256 →
      (addHeader freqs FancyOutputStream.create).file.getD (2 * i) 0 +
        256 * (addHeader freqs FancyOutputStream.create).file.getD (2 * i + 1) 0 =
        freqs.getD i 0) ∧
    ∀ payload : List Nat,
      readHeader 256 0
        (FancyInputStream.create ((addHeader freqs FancyOutputStream.create).file ++ payload))
        (List.replicate 256 0) 0 =
        .ok (freqs, freqs.sum,
          { file := (addHeader freqs FancyOutputStream.create).file ++ payload, pos := 512,
            buffer := [], good := true }) := by
  have hfile : (addHeader freqs FancyOutputStream.create).file = headerBytes freqs := by
    rw [addHeader_spec]
    rfl
  rw [hfile]
  refine ⟨by rw [headerBytes_length, hlen], by rw [addHeader_spec]; rfl, ?_, ?_⟩
  · intro i hi
    rw [headerBytes_field freqs i (by rw [hlen]; exact hi)]
    apply Nat.mod_eq_of_lt
    by_cases h0 : freqs.getD i 0 = 0
    · rw [h0]; decide
    · have hmem : freqs.getD i 0 ∈ freqs := by
        rw [List.getD_eq_getElem?_getD, List.getElem?_eq_getElem (by rw [hlen]; exact hi)]
        exact List.getElem_mem _
      have := hc _ hmem
      omega
  · intro payload
    have h := readHeader_block freqs hlen payload
    rw [map_mod_eq freqs hc] at h
    exact h

/-- Witness of C8: the table of the input 97, 98, 97. -/
theorem header_codec_roundtrip_witness :
    (freqTable [97, 98, 97]).length = 256 ∧ (∀ f, f ∈ freqTable [97, 98, 97] → f ≤ 65535) ∧
    (addHeader (freqTable [97, 98, 97]) FancyOutputStream.create).file.length = 512 :=
  ⟨freqTable_length _,
    freqTable_le _ (fun b => le_trans (List.count_le_length b _) (by decide)),
    (header_codec_roundtrip (freqTable [97, 98, 97]) (freqTable_length _)
      (freqTable_le _ (fun b => le_trans (List.count_le_length b _) (by decide)))).1⟩

theorem kraft_prefix_free : ∀ (D : Nat) (P : Finset Nat) (c : Nat → List Bool),
    PrefixFree P c → (∀ s, s ∈ P → (c s).length ≤ D) →
    P.sum (fun s => 2 ^ (D - (c s).length)) ≤ 2 ^ D := by
  intro D
  induction D with
  | zero =>
    intro P c hpf hlen
    have hnil : ∀ s, s ∈ P → c s = [] := fun s hs =>
      List.length_eq_zero.1 (Nat.le_zero.1 (hlen s hs))
    have hcard : P.card ≤ 1 := by
      rw [Finset.card_le_one]
      intro a ha b hb
      by_contra hab
      apply hpf a ha b hb hab
      rw [hnil a ha]
      exact List.nil_prefix
    calc P.sum (fun s => 2 ^ (0 - (c s).length)) = P.sum (fun _ => 1) := by
          apply Finset.sum_congr rfl
          intro s _
          simp
      _ = P.card := by simp
      _ ≤ 2 ^ 0 := by simpa using hcard
  | succ D ih =>
    intro P c hpf hlen
    by_cases hex : ∃ s0, s0 ∈ P ∧ c s0 = []
    · obtain ⟨s0, hs0, hc0⟩ := hex
      have hsub : P ⊆ {s0} := by
        intro b hb
        rw [Finset.mem_singleton]
        by_contra hne
        apply hpf s0 hs0 b hb (Ne.symm hne)
        rw [hc0]
        exact List.nil_prefix
      calc P.sum (fun s => 2 ^ (D + 1 - (c s).length))
          ≤ ({s0} : Finset Nat).sum (fun s => 2 ^ (D + 1 - (c s).length)) :=
            Finset.sum_le_sum_of_subset hsub
        _ = 2 ^ (D + 1) := by rw [Finset.sum_singleton, hc0]; rfl
    · have hne : ∀ s, s ∈ P → ∃ h t, c s = h :: t := by
        intro s hs
        cases hcs : c s with
        | nil => exact absurd ⟨s, hs, hcs⟩ hex
        | cons h t => exact ⟨h, t, rfl⟩
      have hterm : ∀ s, s ∈ P →
          2 ^ (D + 1 - (c s).length) = 2 ^ (D - ((c s).tail).length) := by
        intro s hs
        obtain ⟨h, t, e⟩ := hne s hs
        rw [e]
        simp
      have hpart : ∀ (v : Bool),
          (P.filter (fun s => (c s).head? = some v)).sum
            (fun s => 2 ^ (D - ((c s).tail).length)) ≤ 2 ^ D := by
        intro v
        apply ih _ (fun s => (c s).tail)
        · intro a ha b hb hab hpre
          rw [Finset.mem_filter] at ha hb
          obtain ⟨h1, t1, e1⟩ := hne a ha.1
          obtain ⟨h2, t2, e2⟩ := hne b hb.1
          have ha2 := ha.2
          have hb2 := hb.2
          have hpre2 : (c a).tail <+: (c b).tail := hpre
          rw [e1] at ha2 hpre2
          rw [e2] at hb2 hpre2
          simp only [List.head?_cons, Option.some.injEq] at ha2 hb2
          simp only [List.tail_cons] at hpre2
          apply hpf a ha.1 b hb.1 hab
          rw [e1, e2, List.cons_prefix_cons]
          exact ⟨ha2.trans hb2.symm, hpre2⟩
        · intro s hs
          rw [Finset.mem_filter] at hs
          obtain ⟨h, t, e⟩ := hne s hs.1
          have := hlen s hs.1
          rw [e] at this
          show ((c s).tail).length ≤ D
          rw [e]
          simp only [List.tail_cons]
          simp only [List.length_cons] at this
          omega
      have hsplit := Finset.sum_filter_add_sum_filter_not P
        (fun s => (c s).head? = some false) (fun s => 2 ^ (D - ((c s).tail).length))
      have hnot : P.filter (fun s => ¬ (c s).head? = some false) =
          P.filter (fun s => (c s).head? = some true) := by
        apply Finset.filter_congr
        intro s hs
        obtain ⟨h, t, e⟩ := hne s hs
        rw [e]
        cases h <;> simp
      rw [hnot] at hsplit
      calc P.sum (fun s => 2 ^ (D + 1 - (c s).length))
          = P.sum (fun s => 2 ^ (D - ((c s).tail).length)) := Finset.sum_congr rfl hterm
        _ = _ := hsplit.symm
        _ ≤ 2 ^ D + 2 ^ D := Nat.add_le_add (hpart false) (hpart true)
        _ = 2 ^ (D + 1) := by rw [pow_succ]; omega

theorem swap_mem (Q : Finset Nat) (x y r : Nat) (hx : x ∈ Q) (hy : y ∈ Q) (hr : r ∈ Q) :
    Equiv.swap x y r ∈ Q := by
  rw [Equiv.swap_apply_def]
  split
  · exact hy
  · split
    · exact hx
    · exact hr

theorem swap_kraft (Q : Finset Nat) (len : Nat → Nat) (x y : Nat) (hx : x ∈ Q) (hy : y ∈ Q)
    (hK : Kraft Q len) : Kraft Q (fun r => len (Equiv.swap x y r)) := by
  obtain ⟨D, h1, h2⟩ := hK
  refine ⟨D, fun r hr => h1 _ (swap_mem Q x y r hx hy hr), ?_⟩
  have := Equiv.Perm.sum_comp (Equiv.swap x y) Q (fun r => 2 ^ (D - len r)) (by
    intro r hr
    simp only [Set.mem_setOf_eq] at hr
    by_contra hnot
    apply hr
    have hrx : r ≠ x := fun e => hnot (by rw [e]; exact hx)
    have hry : r ≠ y := fun e => hnot (by rw [e]; exact hy)
    exact Equiv.swap_apply_of_ne_of_ne hrx hry)
  rw [this]
  exact h2

theorem swap_cost (Q : Finset Nat) (w len : Nat → Nat) (x y : Nat) (hx : x ∈ Q) (hy : y ∈ Q)
    (hw : w x ≤ w y) (hl : len x ≤ len y) :
    Q.sum (fun r => w r * len (Equiv.swap x y r)) ≤ Q.sum (fun r => w r * len r) := by
  by_cases hxy : x = y
  · subst hxy
    simp
  · have hy2 : y ∈ Q.erase x := Finset.mem_erase.2 ⟨Ne.symm hxy, hy⟩
    rw [← Finset.add_sum_erase Q _ hx, ← Finset.add_sum_erase (Q.erase x) _ hy2,
      ← Finset.add_sum_erase Q (fun r => w r * len r) hx,
      ← Finset.add_sum_erase (Q.erase x) (fun r => w r * len r) hy2]
    have hrest : ((Q.erase x).erase y).sum (fun r => w r * len (Equiv.swap x y r)) =
        ((Q.erase x).erase y).sum (fun r => w r * len r) := by
      apply Finset.sum_congr rfl
      intro r hr
      rw [Finset.mem_erase, Finset.mem_erase] at hr
      rw [Equiv.swap_apply_of_ne_of_ne hr.2.1 hr.1]
    rw [hrest]
    simp only [Equiv.swap_apply_left, Equiv.swap_apply_right]
    have key : w x * len y + w y * len x ≤ w x * len x + w y * len y := by
      obtain ⟨d, hd⟩ := Nat.exists_eq_add_of_le hw
      obtain ⟨e, he⟩ := Nat.exists_eq_add_of_le hl
      rw [hd, he]
      nlinarith [Nat.zero_le (d * e)]
    omega

theorem normalise (Q : Finset Nat) (w len : Nat → Nat) (a b : Nat) (ha : a ∈ Q) (hb : b ∈ Q)
    (hab : a ≠ b) (hwa : ∀ r, r ∈ Q → w a ≤ w r) (hwb : ∀ r, r ∈ Q → r ≠ a → w b ≤ w r)
    (hK : Kraft Q len) :
    ∃ len2, Kraft Q len2 ∧ Q.sum (fun r => w r * len2 r) ≤ Q.sum (fun r => w r * len r) ∧
      (∀ r, r ∈ Q → len2 r ≤ len2 a) ∧ (∀ r, r ∈ Q → r ≠ a → len2 r ≤ len2 b) := by
  obtain ⟨x, hx, hxmax⟩ := Finset.exists_max_image Q len ⟨a, ha⟩
  have M1 : ∀ r, r ∈ Q → len (Equiv.swap a x r) ≤ len (Equiv.swap a x a) := by
    intro r hr
    rw [Equiv.swap_apply_left]
    exact hxmax _ (swap_mem Q a x r ha hx hr)
  obtain ⟨len1, hlen1⟩ : ∃ l1 : Nat → Nat, l1 = fun r => len (Equiv.swap a x r) := ⟨_, rfl⟩
  have K1 : Kraft Q len1 := by
    rw [hlen1]
    exact swap_kraft Q len a x ha hx hK
  have C1 : Q.sum (fun r => w r * len1 r) ≤ Q.sum (fun r => w r * len r) := by
    rw [hlen1]
    exact swap_cost Q w len a x ha hx (hwa x hx) (hxmax a ha)
  have M1' : ∀ r, r ∈ Q → len1 r ≤ len1 a := by
    intro r hr
    rw [hlen1]
    exact M1 r hr
  have hb2 : b ∈ Q.erase a := Finset.mem_erase.2 ⟨Ne.symm hab, hb⟩
  obtain ⟨y, hy, hymax⟩ := Finset.exists_max_image (Q.erase a) len1 ⟨b, hb2⟩
  have hy2 := Finset.mem_erase.1 hy
  have K2 := swap_kraft Q len1 b y hb hy2.2 K1
  have C2 := swap_cost Q w len1 b y hb hy2.2 (hwb y hy2.2 hy2.1) (hymax b hb2)
  have hfixa : Equiv.swap b y a = a := Equiv.swap_apply_of_ne_of_ne hab hy2.1.symm
  refine ⟨fun r => len1 (Equiv.swap b y r), K2, le_trans C2 C1, ?_, ?_⟩
  · intro r hr
    show len1 (Equiv.swap b y r) ≤ len1 (Equiv.swap b y a)
    rw [hfixa]
    exact M1' _ (swap_mem Q b y r hb hy2.2 hr)
  · intro r hr hra
    show len1 (Equiv.swap b y r) ≤ len1 (Equiv.swap b y b)
    rw [Equiv.swap_apply_left]
    apply hymax
    rw [Finset.mem_erase]
    refine ⟨?_, swap_mem Q b y r hb hy2.2 hr⟩
    intro h
    apply hra
    have := congrArg (Equiv.swap b y) h
    rw [Equiv.swap_apply_self, hfixa] at this
    exact this

theorem dvd_step (u x z : Nat) (hx : u ∣ x) (hz : u ∣ z) (hlt : x < z) :
    x + u ≤ z := by
  obtain ⟨k1, rfl⟩ := hx
  obtain ⟨k2, rfl⟩ := hz
  have : k1 < k2 := lt_of_mul_lt_mul_left hlt (Nat.zero_le u)
  calc u * k1 + u = u * (k1 + 1) := by ring
    _ ≤ u * k2 := Nat.mul_le_mul_left u this

theorem exchange (Q : Finset Nat) (w len : Nat → Nat) (a b m : Nat) (ha : a ∈ Q) (hb : b ∈ Q)
    (hab : a ≠ b) (hm : m ∉ Q) (hwm : w m = w a + w b) (hwa : ∀ r, r ∈ Q → w a ≤ w r)
    (hwb : ∀ r, r ∈ Q → r ≠ a → w b ≤ w r) (hK : Kraft Q len) :
    ∃ len2, Kraft (insert m ((Q.erase a).erase b)) len2 ∧
      (insert m ((Q.erase a).erase b)).sum (fun r => w r * len2 r) + (w a + w b) ≤
        Q.sum (fun r => w r * len r) := by
  obtain ⟨l2, ⟨D, hD, hsum⟩, hcost, hmaxa, hmaxb⟩ := normalise Q w len a b ha hb hab hwa hwb hK
  have hb2 : b ∈ Q.erase a := Finset.mem_erase.2 ⟨Ne.symm hab, hb⟩
  have hmR : m ∉ (Q.erase a).erase b := by
    intro h
    exact hm (Finset.mem_of_mem_erase (Finset.mem_of_mem_erase h))
  have hR : ∀ r, r ∈ (Q.erase a).erase b → r ∈ Q ∧ r ≠ a ∧ r ≠ b ∧ r ≠ m := by
    intro r hr
    rw [Finset.mem_erase, Finset.mem_erase] at hr
    exact ⟨hr.2.2, hr.2.1, hr.1, fun e => hm (e ▸ hr.2.2)⟩
  -- the Kraft sum and the cost, split into `a`, `b` and the rest
  have hsplitK : Q.sum (fun r => 2 ^ (D - l2 r)) =
      2 ^ (D - l2 a) + (2 ^ (D - l2 b) + ((Q.erase a).erase b).sum (fun r => 2 ^ (D - l2 r))) := by
    rw [← Finset.add_sum_erase Q _ ha, ← Finset.add_sum_erase (Q.erase a) _ hb2]
  have hsplitC : Q.sum (fun r => w r * l2 r) =
      w a * l2 a + (w b * l2 b + ((Q.erase a).erase b).sum (fun r => w r * l2 r)) := by
    rw [← Finset.add_sum_erase Q _ ha, ← Finset.add_sum_erase (Q.erase a) _ hb2]
  rw [hsplitK] at hsum
  have hba : l2 b ≤ l2 a := hmaxa b hb
  have hbD : l2 b ≤ D := hD b hb
  have hdvd : 2 ^ (D - l2 b) ∣ ((Q.erase a).erase b).sum (fun r => 2 ^ (D - l2 r)) := by
    apply Finset.dvd_sum
    intro r hr
    obtain ⟨h1, h2, _, _⟩ := hR r hr
    apply Nat.pow_dvd_pow
    have := hmaxb r h1 h2
    omega
  have hdvdD : 2 ^ (D - l2 b) ∣ 2 ^ D := Nat.pow_dvd_pow 2 (Nat.sub_le _ _)
  have hpos : 0 < 2 ^ (D - l2 a) := pow_pos (by decide) _
  have hupos : 0 < 2 ^ (D - l2 b) := pow_pos (by decide) _
  have hb1 : 1 ≤ l2 b := by
    by_contra h0
    have h00 : l2 b = 0 := by omega
    rw [h00, Nat.sub_zero] at hsum
    omega
  have hstep := dvd_step (2 ^ (D - l2 b))
    (((Q.erase a).erase b).sum (fun r => 2 ^ (D - l2 r)) + 2 ^ (D - l2 b)) (2 ^ D)
    (Dvd.dvd.add hdvd (dvd_refl _)) hdvdD (by omega)
  have hdouble : 2 ^ (D - (l2 b - 1)) = 2 ^ (D - l2 b) + 2 ^ (D - l2 b) := by
    have : D - (l2 b - 1) = (D - l2 b) + 1 := by omega
    rw [this, pow_succ]
    omega
  refine ⟨Function.update l2 m (l2 b - 1), ⟨D, ?_, ?_⟩, ?_⟩
  · intro r hr
    rw [Finset.mem_insert] at hr
    rcases hr with hr | hr
    · rw [hr, Function.update_same]
      omega
    · obtain ⟨h1, _, _, h4⟩ := hR r hr
      rw [Function.update_noteq h4]
      exact hD r h1
  · rw [Finset.sum_insert hmR, Function.update_same, hdouble]
    have : ((Q.erase a).erase b).sum (fun r => 2 ^ (D - Function.update l2 m (l2 b - 1) r)) =
        ((Q.erase a).erase b).sum (fun r => 2 ^ (D - l2 r)) := by
      apply Finset.sum_congr rfl
      intro r hr
      rw [Function.update_noteq (hR r hr).2.2.2]
    rw [this]
    omega
  · rw [Finset.sum_insert hmR, Function.update_same]
    have : ((Q.erase a).erase b).sum (fun r => w r * Function.update l2 m (l2 b - 1) r) =
        ((Q.erase a).erase b).sum (fun r => w r * l2 r) := by
      apply Finset.sum_congr rfl
      intro r hr
      rw [Function.update_noteq (hR r hr).2.2.2]
    rw [this]
    rw [hsplitC] at hcost
    have e1 : w m * (l2 b - 1) + (w a + w b) = (w a + w b) * l2 b := by
      rw [hwm]
      obtain ⟨k, hk⟩ := Nat.exists_eq_add_of_le hb1
      rw [hk]
      simp only [Nat.add_sub_cancel_left]
      ring
    have e2 : (w a + w b) * l2 b ≤ w a * l2 a + w b * l2 b := by
      rw [Nat.add_mul]
      exact Nat.add_le_add_right (Nat.mul_le_mul_left _ hba) _
    omega

/-! ## The merge loop is greedy -/

theorem pqTop_foldl_min (comp : HCNode → HCNode → Bool) (heap : List HCNode)
    (h1 : ∀ x y : HCNode, comp x y = true → y.count ≤ x.count)
    (h2 : ∀ x y : HCNode, y.count < x.count → comp x y = true) (xs : List Nat) :
    ∀ x : Nat,
      (deref heap (xs.foldl
        (fun best y => if comp (deref heap best) (deref heap y) then y else best) x)).count ≤
        (deref heap x).count ∧
      ∀ z, z ∈ xs → (deref heap (xs.foldl
        (fun best y => if comp (deref heap best) (deref heap y) then y else best) x)).count ≤
        (deref heap z).count := by
  induction xs with
  | nil => intro x; exact ⟨le_refl _, fun z hz => absurd hz (List.not_mem_nil _)⟩
  | cons y ys ih =>
    intro x
    rw [List.foldl_cons]
    obtain ⟨a1, a2⟩ := ih (if comp (deref heap x) (deref heap y) then y else x)
    have hstep : (deref heap (if comp (deref heap x) (deref heap y) then y else x)).count ≤
        (deref heap x).count ∧
        (deref heap (if comp (deref heap x) (deref heap y) then y else x)).count ≤
        (deref heap y).count := by
      by_cases hc : comp (deref heap x) (deref heap y) = true
      · rw [if_pos hc]
        exact ⟨h1 _ _ hc, le_refl _⟩
      · rw [if_neg hc]
        refine ⟨le_refl _, ?_⟩
        by_contra hlt
        exact hc (h2 _ _ (by omega))
    refine ⟨le_trans a1 hstep.1, ?_⟩
    intro z hz
    rw [List.mem_cons] at hz
    rcases hz with hz | hz
    · rw [hz]; exact le_trans a1 hstep.2
    · exact a2 z hz

theorem pqTop_min (comp : HCNode → HCNode → Bool) (heap : List HCNode)
    (h1 : ∀ x y : HCNode, comp x y = true → y.count ≤ x.count)
    (h2 : ∀ x y : HCNode, y.count < x.count → comp x y = true) (pq : List Nat) (t : Nat)
    (ht : pqTop comp heap pq = some t) :
    ∀ z, z ∈ pq → (deref heap t).count ≤ (deref heap z).count := by
  cases pq with
  | nil => simp [pqTop] at ht
  | cons x xs =>
    simp only [pqTop, Option.some.injEq] at ht
    rw [← ht]
    obtain ⟨a1, a2⟩ := pqTop_foldl_min comp heap h1 h2 xs x
    intro z hz
    rw [List.mem_cons] at hz
    rcases hz with hz | hz
    · rw [hz]; exact a1
    · exact a2 z hz

theorem depthUp_stable {heap : List HCNode} {pq : List Nat} (F : Forest heap pq) :
    ∀ (n n2 i : Nat), i < heap.length → heap.length - i ≤ n → heap.length - i ≤ n2 →
      depthUp heap n i = depthUp heap n2 i := by
  intro n
  induction n with
  | zero => intro n2 i hi hn _; omega
  | succ n ih =>
    intro n2 i hi hn hn2
    cases n2 with
    | zero => omega
    | succ m =>
      simp only [depthUp]
      cases hp : (deref heap i).p with
      | none => rfl
      | some k =>
        obtain ⟨a1, a2, _⟩ := F.up i k hi hp
        simp only
        rw [ih m k a2 (by omega) (by omega)]

theorem depthUp_root (heap : List HCNode) (n i : Nat) (h : (deref heap i).p = none) :
    depthUp heap n i = 0 := by
  cases n with
  | zero => rfl
  | succ m => simp [depthUp, h]

theorem depthUp_child {heap : List HCNode} {pq : List Nat} (F : Forest heap pq) (i k : Nat)
    (hi : i < heap.length) (hp : (deref heap i).p = some k) :
    depthUp heap heap.length i = depthUp heap heap.length k + 1 := by
  obtain ⟨a1, a2, _⟩ := F.up i k hi hp
  obtain ⟨m, hm⟩ : ∃ m, heap.length = m + 1 := ⟨heap.length - 1, by omega⟩
  rw [hm]
  have e : depthUp heap (m + 1) i = depthUp heap m k + 1 := by
    rw [depthUp, hp]
  rw [e, depthUp_stable F m (m + 1) k a2 (by omega) (by omega)]

theorem toFinset_erase_nodup (l : List Nat) (a : Nat) (h : l.Nodup) :
    (l.erase a).toFinset = l.toFinset.erase a := by
  ext x
  rw [List.mem_toFinset, Finset.mem_erase, List.mem_toFinset, h.mem_erase_iff]

theorem toFinset_merge (pq : List Nat) (l r m : Nat) (h : pq.Nodup) :
    ((pq.erase l).erase r ++ [m]).toFinset = insert m ((pq.toFinset.erase l).erase r) := by
  rw [List.toFinset_append, toFinset_erase_nodup _ r (h.erase l), toFinset_erase_nodup _ l h]
  ext x
  simp only [Finset.mem_union, List.toFinset_cons, List.toFinset_nil, Finset.mem_insert,
    Finset.mem_singleton]
  constructor
  · rintro (h1 | h1 | h1)
    · right; exact h1
    · left; exact h1
    · exact absurd h1 (Finset.not_mem_empty _)
  · rintro (h1 | h1)
    · right; left; exact h1
    · left; exact h1

theorem greedy_le (comp : HCNode → HCNode → Bool)
    (h1 : ∀ x y : HCNode, comp x y = true → y.count ≤ x.count)
    (h2 : ∀ x y : HCNode, y.count < x.count → comp x y = true) :
    ∀ (fuel : Nat) (heap : List HCNode) (pq : List Nat), Forest heap pq → pq.length ≤ fuel →
      pq ≠ [] → ∀ len : Nat → Nat, Kraft pq.toFinset len →
      pq.toFinset.sum (fun r => (deref (buildLoop comp fuel heap pq).1 r).count *
        depthUp (buildLoop comp fuel heap pq).1 (buildLoop comp fuel heap pq).1.length r) ≤
      pq.toFinset.sum (fun r => (deref (buildLoop comp fuel heap pq).1 r).count * len r) := by
  intro fuel
  induction fuel with
  | zero =>
    intro heap pq _ hlen hne
    exact absurd (List.length_eq_zero.1 (Nat.le_zero.1 hlen)) hne
  | succ n ih =>
    intro heap pq F hlen hne len hK
    by_cases hlt : 1 < pq.length
    · obtain ⟨l, hl⟩ := pqTop_isSome comp heap pq hne
      have hlm := pqTop_mem comp heap pq l hl
      have hlen1 : (pq.erase l).length = pq.length - 1 := List.length_erase_of_mem hlm
      obtain ⟨r, hr⟩ := pqTop_isSome comp heap (pq.erase l)
        (by intro h; rw [h] at hlen1; simp at hlen1; omega)
      have hrm := pqTop_mem comp heap (pq.erase l) r hr
      have hrm2 := (F.nodup.mem_erase_iff.1 hrm)
      have hlr : l ≠ r := Ne.symm hrm2.1
      have hlen2 : ((pq.erase l).erase r).length = (pq.erase l).length - 1 :=
        List.length_erase_of_mem hrm
      have hl1 := F.pq_lt l hlm
      have hr1 := F.pq_lt r hrm2.2
      have F1 := F.merge l r hlm hrm2.2 hlr
      have E01 := F.merge_ext l r hlm hrm2.2 hlr
      have hlen3 : ((pq.erase l).erase r ++ [heap.length]).length ≤ n := by
        simp only [List.length_append, List.length_singleton]; omega
      obtain ⟨FF, E1F, _, _⟩ := buildLoop_spec comp n (mergeHeap heap l r)
        ((pq.erase l).erase r ++ [heap.length]) F1 hlen3
      have hIH := ih (mergeHeap heap l r) ((pq.erase l).erase r ++ [heap.length]) F1 hlen3
        (by simp)
      rw [buildLoop_succ comp n heap pq l r hlt hl hr]
      generalize (buildLoop comp n (mergeHeap heap l r)
        ((pq.erase l).erase r ++ [heap.length])).1 = H at FF E1F hIH ⊢
      generalize (buildLoop comp n (mergeHeap heap l r)
        ((pq.erase l).erase r ++ [heap.length])).2 = pqH at FF
      have E0F := E01.trans E1F
      have hm1 : heap.length < (mergeHeap heap l r).length := by
        rw [length_mergeHeap]; omega
      have hmH : heap.length < H.length := lt_of_lt_of_le hm1 E1F.len
      have hwm : (deref H heap.length).count = (deref H l).count + (deref H r).count := by
        rw [E1F.count _ hm1, deref_mergeHeap_new heap l r hl1 hr1, E0F.count l hl1,
          E0F.count r hr1]
      have hwa : ∀ x, x ∈ pq.toFinset → (deref H l).count ≤ (deref H x).count := by
        intro x hx
        rw [List.mem_toFinset] at hx
        rw [E0F.count l hl1, E0F.count x (F.pq_lt x hx)]
        exact pqTop_min comp heap h1 h2 pq l hl x hx
      have hwb : ∀ x, x ∈ pq.toFinset → x ≠ l → (deref H r).count ≤ (deref H x).count := by
        intro x hx hxl
        rw [List.mem_toFinset] at hx
        rw [E0F.count r hr1, E0F.count x (F.pq_lt x hx)]
        exact pqTop_min comp heap h1 h2 (pq.erase l) r hr x (F.nodup.mem_erase_iff.2 ⟨hxl, hx⟩)
      have hmQ : heap.length ∉ pq.toFinset := by
        rw [List.mem_toFinset]
        intro h
        have := F.pq_lt _ h
        omega
      obtain ⟨len2, K2, hcost⟩ := exchange pq.toFinset (fun x => (deref H x).count) len l r
        heap.length (List.mem_toFinset.2 hlm) (List.mem_toFinset.2 hrm2.2) hlr hmQ hwm hwa hwb hK
      have hQ1 := toFinset_merge pq l r heap.length F.nodup
      rw [hQ1] at hIH
      have hih := hIH len2 K2
      -- the depths of `l` and `r` are one more than the depth of the new node
      have hpl : (deref H l).p = some heap.length :=
        E1F.p l heap.length (by rw [length_mergeHeap]; omega)
          (by rw [mergeHeap_p heap l r l hl1 hr1 hl1 hlr, if_pos (Or.inl rfl)])
      have hpr : (deref H r).p = some heap.length :=
        E1F.p r heap.length (by rw [length_mergeHeap]; omega)
          (by rw [mergeHeap_p heap l r r hl1 hr1 hr1 hlr, if_pos (Or.inr rfl)])
      have hdl := depthUp_child FF l heap.length (lt_of_lt_of_le hl1 E0F.len) hpl
      have hdr := depthUp_child FF r heap.length (lt_of_lt_of_le hr1 E0F.len) hpr
      have hr2 : r ∈ pq.toFinset.erase l :=
        Finset.mem_erase.2 ⟨hrm2.1, List.mem_toFinset.2 hrm2.2⟩
      have hmR : heap.length ∉ (pq.toFinset.erase l).erase r := by
        intro h
        exact hmQ (Finset.mem_of_mem_erase (Finset.mem_of_mem_erase h))
      rw [Finset.sum_insert hmR, Finset.sum_insert hmR] at hih
      rw [Finset.sum_insert hmR] at hcost
      rw [← Finset.add_sum_erase pq.toFinset _ (List.mem_toFinset.2 hlm),
        ← Finset.add_sum_erase (pq.toFinset.erase l) _ hr2, hdl, hdr]
      have hrhs : pq.toFinset.sum (fun x => (deref H x).count * len x) =
          pq.toFinset.sum (fun x => (fun x => (deref H x).count) x * len x) := rfl
      rw [hrhs]
      simp only [hwm] at hih hcost
      simp only [Nat.mul_add, Nat.add_mul, Nat.mul_one] at hih hcost ⊢
      omega
    · rw [buildLoop_short comp (n + 1) heap pq hlt]
      have hzero : ∀ r, r ∈ pq.toFinset →
          (deref heap r).count * depthUp heap heap.length r = 0 := by
        intro r hr
        rw [List.mem_toFinset] at hr
        rw [depthUp_root heap _ r ((F.root_iff r (F.pq_lt r hr)).2 hr), Nat.mul_zero]
      rw [Finset.sum_eq_zero hzero]
      exact Nat.zero_le _

/-! ## From the queue back to the symbols -/

theorem leaf_of_symbol (freqs : List Nat) (hlen : freqs.length = 256) (s : Nat) (hs : s < 256)
    (hf : freqs.getD s 0 ≠ 0) :
    ∃ j, (buildState freqs).2.1.getD s none = some j ∧ j < (buildState freqs).1.length ∧
      (deref (buildState freqs).1 j).symbol = s ∧
      (deref (buildState freqs).1 j).count = freqs.getD s 0 := by
  obtain ⟨j, a1, a2, a3⟩ := (build_leafInv freqs hlen).present s (by rw [hlen]; exact hs) hf
  rw [Nat.mod_eq_of_lt hs] at a3
  exact ⟨j, a1, a2, by rw [a3]; rfl, by rw [a3]; rfl⟩

theorem symbol_of_leaf (freqs : List Nat) (hlen : freqs.length = 256) (r : Nat)
    (hr : r < (buildState freqs).1.length) :
    ∃ s, s < 256 ∧ freqs.getD s 0 ≠ 0 ∧ (buildState freqs).2.1.getD s none = some r ∧
      (deref (buildState freqs).1 r).symbol = s ∧
      (deref (buildState freqs).1 r).count = freqs.getD s 0 := by
  obtain ⟨s, a1, a2, a3⟩ := (build_leafInv freqs hlen).onto r hr
  rw [hlen] at a1
  obtain ⟨j, b1, _, b3, b4⟩ := leaf_of_symbol freqs hlen s a1 a2
  rw [a3] at b1
  have : r = j := Option.some.inj b1
  subst this
  exact ⟨s, a1, a2, a3, b3, b4⟩

theorem sum_leaves (freqs : List Nat) (hlen : freqs.length = 256) (g : Nat → Nat → Nat) :
    (presentSymbols freqs).sum
      (fun s => g s (((buildState freqs).2.1.getD s none).getD 0)) =
    (buildState freqs).2.2.toFinset.sum
      (fun r => g ((deref (buildState freqs).1 r).symbol) r) := by
  have hpq := (build_leafInv freqs hlen).pq_eq
  apply Finset.sum_nbij' (fun s => ((buildState freqs).2.1.getD s none).getD 0)
    (fun r => (deref (buildState freqs).1 r).symbol)
  · intro s hs
    simp only [presentSymbols, Finset.mem_filter, Finset.mem_range] at hs
    obtain ⟨j, a1, a2, _⟩ := leaf_of_symbol freqs hlen s hs.1 hs.2
    rw [a1, hpq, List.mem_toFinset, List.mem_range]
    exact a2
  · intro r hr
    rw [hpq, List.mem_toFinset, List.mem_range] at hr
    obtain ⟨s, a1, a2, _, a4, _⟩ := symbol_of_leaf freqs hlen r hr
    simp only [presentSymbols, Finset.mem_filter, Finset.mem_range]
    rw [a4]
    exact ⟨a1, a2⟩
  · intro s hs
    simp only [presentSymbols, Finset.mem_filter, Finset.mem_range] at hs
    obtain ⟨j, a1, _, a3, _⟩ := leaf_of_symbol freqs hlen s hs.1 hs.2
    simp only [a1, Option.getD_some]
    exact a3
  · intro r hr
    rw [hpq, List.mem_toFinset, List.mem_range] at hr
    obtain ⟨s, _, _, a3, a4, _⟩ := symbol_of_leaf freqs hlen r hr
    simp only [a4, a3, Option.getD_some]
  · intro s hs
    simp only [presentSymbols, Finset.mem_filter, Finset.mem_range] at hs
    obtain ⟨j, a1, _, a3, _⟩ := leaf_of_symbol freqs hlen s hs.1 hs.2
    simp only [a1, Option.getD_some, a3]

theorem sum_present (freqs : List Nat) (g : Nat → Nat) :
    (Finset.range 256).sum (fun s => freqs.getD s 0 * g s) =
      (presentSymbols freqs).sum (fun s => freqs.getD s 0 * g s) := by
  unfold presentSymbols
  rw [Finset.sum_filter]
  apply Finset.sum_congr rfl
  intro s _
  by_cases h : freqs.getD s 0 = 0
  · rw [if_neg (by rw [not_not]; exact h), h, Nat.zero_mul]
  · rw [if_pos h]

theorem optimal_of_greedy (comp : HCNode → HCNode → Bool)
    (h1 : ∀ x y : HCNode, comp x y = true → y.count ≤ x.count)
    (h2 : ∀ x y : HCNode, y.count < x.count → comp x y = true)
    (freqs : List Nat) (hlen : freqs.length = 256) (c : Nat → List Bool)
    (hpf : PrefixFree (presentSymbols freqs) c) :
    (Finset.range 256).sum (fun s => freqs.getD s 0 *
      (((HCTree.new.build comp freqs).code s).getD []).length) ≤
    (Finset.range 256).sum (fun s => freqs.getD s 0 * (c s).length) := by
  rw [sum_present, sum_present]
  have I := build_leafInv freqs hlen
  obtain ⟨x, B⟩ := build_built comp freqs hlen
  rcases build_cases comp freqs hlen with ⟨x2, hx2, hbuild⟩ | ⟨_, _, hh0, _⟩
  · -- at least one symbol is present
    have hheap : (HCTree.new.build comp freqs).heap = (buildRun comp freqs).1 := by rw [hbuild]
    have hleaves : (HCTree.new.build comp freqs).leaves = (buildState freqs).2.1 := by
      rw [hbuild]
    obtain ⟨_, E, _, _⟩ := buildRun_spec comp freqs hlen
    have hne : (buildState freqs).2.2 ≠ [] := by
      intro h
      have : buildRun comp freqs = ((buildState freqs).1, []) := by
        unfold buildRun
        rw [h]
        rfl
      rw [this] at hx2
      exact absurd hx2 (by simp)
    -- Kraft's inequality for the competitor, on the queue
    have hK : Kraft (buildState freqs).2.2.toFinset
        (fun r => (c ((deref (buildState freqs).1 r).symbol)).length) := by
      refine ⟨(Finset.range 256).sup (fun s => (c s).length), ?_, ?_⟩
      · intro r hr
        rw [I.pq_eq, List.mem_toFinset, List.mem_range] at hr
        obtain ⟨s, a1, _, _, a4, _⟩ := symbol_of_leaf freqs hlen r hr
        show (c (deref (buildState freqs).1 r).symbol).length ≤ _
        rw [a4]
        exact Finset.le_sup (f := fun s => (c s).length) (Finset.mem_range.2 a1)
      · rw [← sum_leaves freqs hlen
          (fun s _ => 2 ^ ((Finset.range 256).sup (fun s => (c s).length) - (c s).length))]
        apply kraft_prefix_free _ _ c hpf
        intro s hs
        simp only [presentSymbols, Finset.mem_filter] at hs
        exact Finset.le_sup (f := fun s => (c s).length) hs.1
    have hG := greedy_le comp h1 h2 (buildState freqs).2.2.length (buildState freqs).1
      (buildState freqs).2.2 I.forest (le_refl _) hne _ hK
    have hrun : buildLoop comp (buildState freqs).2.2.length (buildState freqs).1
        (buildState freqs).2.2 = buildRun comp freqs := rfl
    rw [hrun] at hG
    rw [← sum_leaves freqs hlen (fun _ r => (deref (buildRun comp freqs).1 r).count *
        depthUp (buildRun comp freqs).1 (buildRun comp freqs).1.length r),
      ← sum_leaves freqs hlen (fun s r => (deref (buildRun comp freqs).1 r).count *
        (c s).length)] at hG
    have hterm : ∀ s, s ∈ presentSymbols freqs →
        (deref (buildRun comp freqs).1 (((buildState freqs).2.1.getD s none).getD 0)).count =
          freqs.getD s 0 ∧
        depthUp (buildRun comp freqs).1 (buildRun comp freqs).1.length
          (((buildState freqs).2.1.getD s none).getD 0) =
          (((HCTree.new.build comp freqs).code s).getD []).length := by
      intro s hs
      simp only [presentSymbols, Finset.mem_filter, Finset.mem_range] at hs
      obtain ⟨j, a1, a2, _, a4⟩ := leaf_of_symbol freqs hlen s hs.1 hs.2
      obtain ⟨bits, j2, c1, c2, _, _, _, c6, _⟩ := code_spec B s hs.1 hs.2
      rw [hleaves, a1] at c2
      have hj : j = j2 := Option.some.inj c2
      subst hj
      rw [hheap] at c6
      simp only [a1, Option.getD_some, c1]
      exact ⟨by rw [E.count j a2, a4], c6.symm⟩
    calc (presentSymbols freqs).sum (fun s => freqs.getD s 0 *
          (((HCTree.new.build comp freqs).code s).getD []).length)
        = (presentSymbols freqs).sum (fun s =>
            (deref (buildRun comp freqs).1 (((buildState freqs).2.1.getD s none).getD 0)).count *
            depthUp (buildRun comp freqs).1 (buildRun comp freqs).1.length
              (((buildState freqs).2.1.getD s none).getD 0)) := by
          apply Finset.sum_congr rfl
          intro s hs
          rw [(hterm s hs).1, (hterm s hs).2]
      _ ≤ (presentSymbols freqs).sum (fun s =>
            (deref (buildRun comp freqs).1 (((buildState freqs).2.1.getD s none).getD 0)).count *
            (c s).length) := hG
      _ = (presentSymbols freqs).sum (fun s => freqs.getD s 0 * (c s).length) := by
          apply Finset.sum_congr rfl
          intro s hs
          rw [(hterm s hs).1]
  · -- no symbol is present
    have hempty : presentSymbols freqs = ∅ := by
      apply Finset.eq_empty_of_forall_not_mem
      intro s hs
      simp only [presentSymbols, Finset.mem_filter, Finset.mem_range] at hs
      obtain ⟨j, _, a2, _⟩ := leaf_of_symbol freqs hlen s hs.1 hs.2
      rw [hh0] at a2
      exact absurd a2 (Nat.not_lt_zero _)
    rw [hempty]
    simp

theorem comp_by_weight_1 : ∀ x y : HCNode, HCNodePtrComp x y = true → y.count ≤ x.count := by
  intro x y h
  simp only [HCNodePtrComp, decide_eq_true_eq] at h
  omega

theorem comp_by_weight_2 : ∀ x y : HCNode, y.count < x.count → HCNodePtrComp x y = true := by
  intro x y h
  simp only [HCNodePtrComp, decide_eq_true_eq]
  exact h

theorem present_two (s : Nat) (h : (freqTable [97, 98]).getD s 0 ≠ 0) : s = 97 ∨ s = 98 := by
  have hS : ∀ b, b ∈ [97, 98] → b < 256 := by decide
  rw [freqTable_getD _ hS s] at h
  have := List.count_pos_iff.1 (Nat.pos_of_ne_zero h)
  simpa using this

/-- C3: when the comparator of the queue orders by weight, the total weighted
code length of the tree that `build` makes from a 256-entry frequency table is
at most that of every binary code `c` in which no code word of a symbol of
non-zero frequency is a prefix of that of another such symbol. -/
theorem huffman_optimal (comp : HCNode → HCNode → Bool)
    (h1 : ∀ x y : HCNode, comp x y = true → y.count ≤ x.count)
    (h2 : ∀ x y : HCNode, y.count < x.count → comp x y = true)
    (freqs : List Nat) (hlen : freqs.length = 256) (c : Nat → List Bool)
    (hpf : ∀ a b, a ≠ b → freqs.getD a 0 ≠ 0 → freqs.getD b 0 ≠ 0 → ¬ c a <+: c b) :
    (Finset.range 256).sum (fun s => freqs.getD s 0 *
      (((HCTree.new.build comp freqs).code s).getD []).length) ≤
    (Finset.range 256).sum (fun s => freqs.getD s 0 * (c s).length) := by
  apply optimal_of_greedy comp h1 h2 freqs hlen c
  intro a ha b hb hab
  simp only [presentSymbols, Finset.mem_filter] at ha hb
  exact hpf a b hab ha.2 hb.2

/-- Witness of C3: the table of the input 97, 98 against the code that gives
one bit to each of the two symbols. -/
theorem huffman_optimal_witness :
    (freqTable [97, 98]).length = 256 ∧
    (∀ a b, a ≠ b → (freqTable [97, 98]).getD a 0 ≠ 0 → (freqTable [97, 98]).getD b 0 ≠ 0 →
      ¬ (if a = 97 then [false] else [true]) <+: (if b = 97 then [false] else [true])) ∧
    (Finset.range 256).sum (fun s => (freqTable [97, 98]).getD s 0 *
      (((HCTree.new.build HCNodePtrComp (freqTable [97, 98])).code s).getD []).length) ≤
    (Finset.range 256).sum (fun s => (freqTable [97, 98]).getD s 0 *
      (if s = 97 then [false] else [true]).length) :=
  have hpf : ∀ a b, a ≠ b → (freqTable [97, 98]).getD a 0 ≠ 0 →
      (freqTable [97, 98]).getD b 0 ≠ 0 →
      ¬ (if a = 97 then [false] else [true]) <+: (if b = 97 then [false] else [true]) := by
    intro a b hab ha hb
    rcases present_two a ha with rfl | rfl <;> rcases present_two b hb with rfl | rfl
    · exact absurd rfl hab
    · decide
    · decide
    · exact absurd rfl hab
  ⟨freqTable_length _, hpf,
    huffman_optimal HCNodePtrComp comp_by_weight_1 comp_by_weight_2 (freqTable [97, 98])
      (freqTable_length _) (fun s => if s = 97 then [false] else [true]) hpf⟩

/-- The table that `decompress` reads back from the output of `compress` is the
counted table when no byte value occurs more than 65535 times. -/
theorem readBack_eq_counted (comp : HCNode → HCNode → Bool) (S : List Nat) (hne : S ≠ [])
    (hS : ∀ b, b ∈ S → b < 256) (hc : ∀ b, S.count b ≤ 65535) :
    ∃ c tot inp, compress comp S = .ok c ∧
      readHeader 256 0 (FancyInputStream.create c) (List.replicate 256 0) 0 =
        .ok (freqTable S, tot, inp) := by
  obtain ⟨ext, pad, c1, _⟩ := compress_spec comp S hne hS
  have h := readHeader_block (freqTable S) (freqTable_length S) ext
  rw [map_mod_eq _ (freqTable_le S hc)] at h
  exact ⟨_, _, _, c1, h⟩

/-! ## Two runs of `build` -/

theorem deref_shift (pre H : List HCNode) (k : Nat) :
    deref (pre ++ H.map (shiftNode pre.length)) (k + pre.length) =
      shiftNode pre.length (deref H k) := by
  unfold deref
  rw [List.getD_eq_getElem?_getD, List.getD_eq_getElem?_getD,
    List.getElem?_append_right (Nat.le_add_left _ _), Nat.add_sub_cancel, List.getElem?_map]
  cases H[k]? with
  | none => rfl
  | some x => rfl

theorem comp_shift (comp : HCNode → HCNode → Bool)
    (hcomp : ∀ x y, comp x y = comp (HCNode.mk0 x.count x.symbol) (HCNode.mk0 y.count y.symbol))
    (n0 : Nat) (x y : HCNode) : comp (shiftNode n0 x) (shiftNode n0 y) = comp x y := by
  rw [hcomp (shiftNode n0 x) (shiftNode n0 y), hcomp x y]
  rfl

theorem pqTop_shift (comp : HCNode → HCNode → Bool)
    (hcomp : ∀ x y, comp x y = comp (HCNode.mk0 x.count x.symbol) (HCNode.mk0 y.count y.symbol))
    (pre H : List HCNode) (pq : List Nat) :
    pqTop comp (pre ++ H.map (shiftNode pre.length)) (pq.map (fun k => k + pre.length)) =
      (pqTop comp H pq).map (fun k => k + pre.length) := by
  have key : ∀ (xs : List Nat) (best : Nat),
      (xs.map (fun k => k + pre.length)).foldl
        (fun best y => if comp (deref (pre ++ H.map (shiftNode pre.length)) best)
          (deref (pre ++ H.map (shiftNode pre.length)) y) then y else best) (best + pre.length) =
      xs.foldl (fun best y => if comp (deref H best) (deref H y) then y else best) best +
        pre.length := by
    intro xs
    induction xs with
    | nil => intro best; rfl
    | cons y ys ih =>
      intro best
      rw [List.map_cons, List.foldl_cons, List.foldl_cons, deref_shift, deref_shift,
        comp_shift comp hcomp]
      by_cases h : comp (deref H best) (deref H y) = true
      · rw [if_pos h, if_pos h]; exact ih y
      · rw [if_neg h, if_neg h]; exact ih best
  cases pq with
  | nil => rfl
  | cons x xs =>
    rw [List.map_cons]
    simp only [pqTop, Option.map_some']
    rw [key xs x]

theorem setParent_shift (pre H : List HCNode) (k m : Nat) :
    setParent (pre ++ H.map (shiftNode pre.length)) (k + pre.length) (m + pre.length) =
      pre ++ (setParent H k m).map (shiftNode pre.length) := by
  unfold setParent
  rw [deref_shift, List.set_append, if_neg (by omega), Nat.add_sub_cancel, List.map_set]
  rfl

theorem mergeHeap_shift (pre H : List HCNode) (l r : Nat) :
    mergeHeap (pre ++ H.map (shiftNode pre.length)) (l + pre.length) (r + pre.length) =
      pre ++ (mergeHeap H l r).map (shiftNode pre.length) := by
  unfold mergeHeap
  have e : (pre ++ H.map (shiftNode pre.length)).length = H.length + pre.length := by
    rw [List.length_append, List.length_map, Nat.add_comm]
  rw [e, deref_shift, deref_shift, List.append_assoc]
  have e2 : H.map (shiftNode pre.length) ++
      [HCNode.mk ((shiftNode pre.length (deref H l)).count +
          (shiftNode pre.length (deref H r)).count) 0
        (some (l + pre.length)) (some (r + pre.length)) none] =
      (H ++ [HCNode.mk ((deref H l).count + (deref H r).count) 0
        (some l) (some r) none]).map (shiftNode pre.length) := by
    rw [List.map_append]; rfl
  rw [e2, setParent_shift, setParent_shift]

theorem buildLoop_shift (comp : HCNode → HCNode → Bool)
    (hcomp : ∀ x y, comp x y = comp (HCNode.mk0 x.count x.symbol) (HCNode.mk0 y.count y.symbol))
    (pre : List HCNode) :
    ∀ (fuel : Nat) (H : List HCNode) (pq : List Nat),
      buildLoop comp fuel (pre ++ H.map (shiftNode pre.length))
          (pq.map (fun k => k + pre.length)) =
        (pre ++ (buildLoop comp fuel H pq).1.map (shiftNode pre.length),
          (buildLoop comp fuel H pq).2.map (fun k => k + pre.length)) := by
  have inj : Function.Injective (fun k => k + pre.length) := fun a b h => Nat.add_right_cancel h
  intro fuel
  induction fuel with
  | zero => intro H pq; rfl
  | succ n ih =>
    intro H pq
    by_cases h1 : 1 < pq.length
    · have h1b : 1 < (pq.map (fun k => k + pre.length)).length := by
        rw [List.length_map]; exact h1
      have tl := pqTop_shift comp hcomp pre H pq
      cases hl : pqTop comp H pq with
      | none =>
        rw [hl] at tl
        have e1 : buildLoop comp (n + 1) H pq = (H, pq) := by
          rw [buildLoop]; simp only [h1, if_true, hl]
        have e2 : buildLoop comp (n + 1) (pre ++ H.map (shiftNode pre.length))
            (pq.map (fun k => k + pre.length)) =
            (pre ++ H.map (shiftNode pre.length), pq.map (fun k => k + pre.length)) := by
          rw [buildLoop]; simp only [h1b, if_true, tl, Option.map_none']
        rw [e1, e2]
      | some l =>
        rw [hl] at tl
        have er : (pq.map (fun k => k + pre.length)).erase (l + pre.length) =
            (pq.erase l).map (fun k => k + pre.length) := (List.map_erase inj pq).symm
        have tr := pqTop_shift comp hcomp pre H (pq.erase l)
        rw [← er] at tr
        cases hr : pqTop comp H (pq.erase l) with
        | none =>
          rw [hr] at tr
          have e1 : buildLoop comp (n + 1) H pq = (H, pq) := by
            rw [buildLoop]; simp only [h1, if_true, hl, hr]
          have e2 : buildLoop comp (n + 1) (pre ++ H.map (shiftNode pre.length))
              (pq.map (fun k => k + pre.length)) =
              (pre ++ H.map (shiftNode pre.length), pq.map (fun k => k + pre.length)) := by
            rw [buildLoop]; simp only [h1b, if_true, tl, tr, Option.map_none', Option.map_some']
          rw [e1, e2]
        | some r =>
          rw [hr] at tr
          rw [buildLoop_succ comp n H pq l r h1 hl hr,
            buildLoop_succ comp n _ _ (l + pre.length) (r + pre.length) h1b tl tr,
            mergeHeap_shift, er]
          have er2 : ((pq.erase l).map (fun k => k + pre.length)).erase (r + pre.length) =
              ((pq.erase l).erase r).map (fun k => k + pre.length) :=
            (List.map_erase inj (pq.erase l)).symm
          have e3 : ((pq.erase l).erase r).map (fun k => k + pre.length) ++
              [(pre ++ H.map (shiftNode pre.length)).length] =
              ((pq.erase l).erase r ++ [H.length]).map (fun k => k + pre.length) := by
            rw [List.map_append, List.length_append, List.length_map, Nat.add_comm]
            rfl
          rw [er2, e3]
          exact ih _ _
    · have h1b : ¬ 1 < (pq.map (fun k => k + pre.length)).length := by
        rw [List.length_map]; exact h1
      rw [buildLoop_short comp _ H pq h1, buildLoop_short comp _ _ _ h1b]

theorem buildLeaves_shift (pre : List HCNode) :
    ∀ (fs : List Nat) (i : Nat) (H : List HCNode) (L L2 : List (Option Nat)) (pq : List Nat),
      LeavesShift pre.length L L2 →
      (buildLeaves fs i (pre ++ H.map (shiftNode pre.length), L2,
          pq.map (fun k => k + pre.length))).1 =
        pre ++ (buildLeaves fs i (H, L, pq)).1.map (shiftNode pre.length) ∧
      LeavesShift pre.length (buildLeaves fs i (H, L, pq)).2.1
        (buildLeaves fs i (pre ++ H.map (shiftNode pre.length), L2,
          pq.map (fun k => k + pre.length))).2.1 ∧
      (buildLeaves fs i (pre ++ H.map (shiftNode pre.length), L2,
          pq.map (fun k => k + pre.length))).2.2 =
        (buildLeaves fs i (H, L, pq)).2.2.map (fun k => k + pre.length) := by
  intro fs
  induction fs with
  | nil => intro i H L L2 pq hL; exact ⟨rfl, hL, rfl⟩
  | cons f fs ih =>
    intro i H L L2 pq hL
    by_cases hf : f ≠ 0
    · have e : (pre ++ H.map (shiftNode pre.length)).length = H.length + pre.length := by
        rw [List.length_append, List.length_map, Nat.add_comm]
      have e1 : pre ++ H.map (shiftNode pre.length) ++ [HCNode.mk0 f (i % 256)] =
          pre ++ (H ++ [HCNode.mk0 f (i % 256)]).map (shiftNode pre.length) := by
        rw [List.map_append, List.append_assoc]; rfl
      have e2 : pq.map (fun k => k + pre.length) ++ [H.length + pre.length] =
          (pq ++ [H.length]).map (fun k => k + pre.length) := by
        rw [List.map_append]; rfl
      have hL2 : LeavesShift pre.length (L.set i (some H.length))
          (L2.set i (some (H.length + pre.length))) := by
        refine ⟨by rw [List.length_set, List.length_set]; exact hL.1, ?_⟩
        intro s k hk
        rw [List.getD_eq_getElem?_getD, List.getElem?_set] at hk
        rw [List.getD_eq_getElem?_getD, List.getElem?_set]
        by_cases his : i = s
        · rw [if_pos his] at hk
          rw [if_pos his]
          by_cases hi : i < L.length
          · rw [if_pos hi] at hk
            rw [if_pos (hL.1 ▸ hi)]
            have hk2 : H.length = k := Option.some.inj hk
            rw [← hk2]; rfl
          · rw [if_neg hi] at hk
            exact Option.noConfusion hk
        · rw [if_neg his] at hk
          rw [if_neg his, ← List.getD_eq_getElem?_getD]
          exact hL.2 s k (by rw [List.getD_eq_getElem?_getD]; exact hk)
      have step1 : buildLeaves (f :: fs) i (H, L, pq) =
          buildLeaves fs (i + 1) (H ++ [HCNode.mk0 f (i % 256)], L.set i (some H.length),
            pq ++ [H.length]) := by
        rw [buildLeaves, if_pos hf]
      have step2 : buildLeaves (f :: fs) i (pre ++ H.map (shiftNode pre.length), L2,
            pq.map (fun k => k + pre.length)) =
          buildLeaves fs (i + 1) (pre ++ (H ++ [HCNode.mk0 f (i % 256)]).map
            (shiftNode pre.length), L2.set i (some (H.length + pre.length)),
            (pq ++ [H.length]).map (fun k => k + pre.length)) := by
        rw [buildLeaves, if_pos hf, e, e1, e2]
      rw [step1, step2]
      exact ih (i + 1) _ _ _ _ hL2
    · have step1 : buildLeaves (f :: fs) i (H, L, pq) = buildLeaves fs (i + 1) (H, L, pq) := by
        rw [buildLeaves, if_neg hf]
      have step2 : buildLeaves (f :: fs) i (pre ++ H.map (shiftNode pre.length), L2,
            pq.map (fun k => k + pre.length)) =
          buildLeaves fs (i + 1) (pre ++ H.map (shiftNode pre.length), L2,
            pq.map (fun k => k + pre.length)) := by
        rw [buildLeaves, if_neg hf]
      rw [step1, step2]
      exact ih (i + 1) _ _ _ _ hL

/-- The tree that `build` makes in a tree object `t` whose earlier nodes fill
`t.heap`: the nodes of the tree made from `HCTree()`, moved by `t.heap.length`
addresses. -/
theorem build_shift (comp : HCNode → HCNode → Bool)
    (hcomp : ∀ x y, comp x y = comp (HCNode.mk0 x.count x.symbol) (HCNode.mk0 y.count y.symbol))
    (t : HCTree) (ht : t.leaves.length = 256) (freqs : List Nat) :
    (t.build comp freqs).heap =
      t.heap ++ (HCTree.new.build comp freqs).heap.map (shiftNode t.heap.length) ∧
    (t.build comp freqs).root =
      (HCTree.new.build comp freqs).root.map (fun k => k + t.heap.length) ∧
    LeavesShift t.heap.length (HCTree.new.build comp freqs).leaves
      (t.build comp freqs).leaves := by
  have h0 : LeavesShift t.heap.length (List.replicate 256 none) t.leaves := by
    refine ⟨by rw [List.length_replicate, ht], ?_⟩
    intro s k hk
    rw [List.getD_eq_getElem?_getD, List.getElem?_replicate] at hk
    by_cases hs : s < 256
    · rw [if_pos hs] at hk; exact Option.noConfusion hk
    · rw [if_neg hs] at hk; exact Option.noConfusion hk
  obtain ⟨a1, a2, a3⟩ := buildLeaves_shift t.heap freqs 0 [] _ _ [] h0
  rw [List.map_nil, List.append_nil, List.map_nil] at a1 a2 a3
  have b := buildLoop_shift comp hcomp t.heap (buildState freqs).2.2.length
    (buildState freqs).1 (buildState freqs).2.2
  have c := pqTop_shift comp hcomp t.heap (buildRun comp freqs).1 (buildRun comp freqs).2
  have hb : HCTree.new.build comp freqs =
      match pqTop comp (buildRun comp freqs).1 (buildRun comp freqs).2 with
      | some top =>
        { heap := (buildRun comp freqs).1, root := some top, leaves := (buildState freqs).2.1 }
      | none =>
        { heap := (buildRun comp freqs).1 ++ [HCNode.mk0 0 0],
          root := some (buildRun comp freqs).1.length, leaves := (buildState freqs).2.1 } := rfl
  have hl : (buildLeaves freqs 0 (t.heap, t.leaves, [])).2.2.length =
      (buildState freqs).2.2.length := by
    rw [a3, List.length_map]; rfl
  have ht2 : t.build comp freqs =
      match pqTop comp (t.heap ++ (buildRun comp freqs).1.map (shiftNode t.heap.length))
          ((buildRun comp freqs).2.map (fun k => k + t.heap.length)) with
      | some top =>
        { heap := t.heap ++ (buildRun comp freqs).1.map (shiftNode t.heap.length),
          root := some top, leaves := (buildLeaves freqs 0 (t.heap, t.leaves, [])).2.1 }
      | none =>
        { heap := t.heap ++ (buildRun comp freqs).1.map (shiftNode t.heap.length) ++
            [HCNode.mk0 0 0],
          root := some (t.heap ++ (buildRun comp freqs).1.map (shiftNode t.heap.length)).length,
          leaves := (buildLeaves freqs 0 (t.heap, t.leaves, [])).2.1 } := by
    have u : t.build comp freqs =
        match pqTop comp
          (buildLoop comp (buildLeaves freqs 0 (t.heap, t.leaves, [])).2.2.length
            (buildLeaves freqs 0 (t.heap, t.leaves, [])).1
            (buildLeaves freqs 0 (t.heap, t.leaves, [])).2.2).1
          (buildLoop comp (buildLeaves freqs 0 (t.heap, t.leaves, [])).2.2.length
            (buildLeaves freqs 0 (t.heap, t.leaves, [])).1
            (buildLeaves freqs 0 (t.heap, t.leaves, [])).2.2).2 with
        | some top =>
          { heap := (buildLoop comp (buildLeaves freqs 0 (t.heap, t.leaves, [])).2.2.length
              (buildLeaves freqs 0 (t.heap, t.leaves, [])).1
              (buildLeaves freqs 0 (t.heap, t.leaves, [])).2.2).1,
            root := some top, leaves := (buildLeaves freqs 0 (t.heap, t.leaves, [])).2.1 }
        | none =>
          { heap := (buildLoop comp (buildLeaves freqs 0 (t.heap, t.leaves, [])).2.2.length
              (buildLeaves freqs 0 (t.heap, t.leaves, [])).1
              (buildLeaves freqs 0 (t.heap, t.leaves, [])).2.2).1 ++ [HCNode.mk0 0 0],
            root := some (buildLoop comp (buildLeaves freqs 0 (t.heap, t.leaves, [])).2.2.length
              (buildLeaves freqs 0 (t.heap, t.leaves, [])).1
              (buildLeaves freqs 0 (t.heap, t.leaves, [])).2.2).1.length,
            leaves := (buildLeaves freqs 0 (t.heap, t.leaves, [])).2.1 } := rfl
    rw [u, hl, a1, a3]
    have b2 : buildLoop comp (buildState freqs).2.2.length
        (t.heap ++ List.map (shiftNode t.heap.length) (buildLeaves freqs 0
          ([], List.replicate 256 none, [])).1)
        (List.map (fun k => k + t.heap.length) (buildLeaves freqs 0
          ([], List.replicate 256 none, [])).2.2) =
        (t.heap ++ (buildRun comp freqs).1.map (shiftNode t.heap.length),
          (buildRun comp freqs).2.map (fun k => k + t.heap.length)) := b
    rw [b2]
  rw [ht2, hb, c]
  cases hp : pqTop comp (buildRun comp freqs).1 (buildRun comp freqs).2 with
  | some top => exact ⟨rfl, rfl, a2⟩
  | none =>
    refine ⟨?_, ?_, a2⟩
    · show t.heap ++ (buildRun comp freqs).1.map (shiftNode t.heap.length) ++ [HCNode.mk0 0 0] =
        t.heap ++ ((buildRun comp freqs).1 ++ [HCNode.mk0 0 0]).map (shiftNode t.heap.length)
      rw [List.map_append, List.append_assoc]; rfl
    · show some (t.heap ++ (buildRun comp freqs).1.map (shiftNode t.heap.length)).length =
        some ((buildRun comp freqs).1.length + t.heap.length)
      rw [List.length_append, List.length_map, Nat.add_comm]

theorem buildLeaves_length :
    ∀ (fs : List Nat) (i : Nat) (H : List HCNode) (L : List (Option Nat)) (pq : List Nat),
      (buildLeaves fs i (H, L, pq)).2.1.length = L.length := by
  intro fs
  induction fs with
  | nil => intro i H L pq; rfl
  | cons f fs ih =>
    intro i H L pq
    by_cases hf : f ≠ 0
    · rw [buildLeaves, if_pos hf, ih, List.length_set]
    · rw [buildLeaves, if_neg hf, ih]

/-- The function `build` keeps the size of the `leaves` vector. -/
theorem build_leaves_length (comp : HCNode → HCNode → Bool) (t : HCTree) (freqs : List Nat) :
    (t.build comp freqs).leaves.length = t.leaves.length := by
  have u : (t.build comp freqs).leaves = (buildLeaves freqs 0 (t.heap, t.leaves, [])).2.1 := by
    unfold HCTree.build
    simp only
    split <;> rfl
  rw [u, buildLeaves_length]

theorem encodeLoop_shift (t t2 : HCTree) (pre : List HCNode)
    (hheap : t2.heap = pre ++ t.heap.map (shiftNode pre.length))
    (hroot : t2.root = t.root.map (fun k => k + pre.length)) :
    ∀ (fuel : Nat) (curr : Option Nat) (enc r : List Nat),
      encodeLoop t fuel curr enc = some r →
      ∀ fuel2, fuel ≤ fuel2 →
        encodeLoop t2 fuel2 (curr.map (fun k => k + pre.length)) enc = some r := by
  have inj : Function.Injective (fun k => k + pre.length) := fun a b h => Nat.add_right_cancel h
  have hinj : ∀ a b : Option Nat, a.map (fun k => k + pre.length) =
      b.map (fun k => k + pre.length) ↔ a = b :=
    fun a b => (Option.map_injective inj).eq_iff
  have atroot : ∀ (curr : Option Nat) (enc : List Nat) (fuel2 : Nat), curr = t.root →
      encodeLoop t2 fuel2 (curr.map (fun k => k + pre.length)) enc = some enc := by
    intro curr enc fuel2 hc
    have hc2 : curr.map (fun k => k + pre.length) = t2.root := by rw [hroot, hc]
    cases fuel2 with
    | zero => rw [encodeLoop, if_pos hc2]
    | succ m =>
      cases curr with
      | none => rw [Option.map_none'] at hc2 ⊢; rw [encodeLoop, if_pos hc2]
      | some c => rw [Option.map_some'] at hc2 ⊢; rw [encodeLoop, if_pos hc2]
  intro fuel
  induction fuel with
  | zero =>
    intro curr enc r h fuel2 _
    rw [encodeLoop] at h
    by_cases hc : curr = t.root
    · rw [if_pos hc] at h
      rw [atroot curr enc fuel2 hc]; exact h
    · rw [if_neg hc] at h; exact Option.noConfusion h
  | succ n ih =>
    intro curr enc r h fuel2 hle
    by_cases hc : curr = t.root
    · have h2 : encodeLoop t (n + 1) curr enc = some enc := by
        cases curr with
        | none => rw [encodeLoop, if_pos hc]
        | some c => rw [encodeLoop, if_pos hc]
      rw [h2] at h
      rw [atroot curr enc fuel2 hc]; exact h
    · have hc2 : ¬ curr.map (fun k => k + pre.length) = t2.root := by
        rw [hroot]; exact fun e => hc ((hinj _ _).1 e)
      cases fuel2 with
      | zero => omega
      | succ m =>
        cases curr with
        | none =>
          rw [encodeLoop, if_neg hc] at h
          exact Option.noConfusion h
        | some c =>
          rw [encodeLoop, if_neg hc] at h
          simp only at h
          cases hp : (deref t.heap c).p with
          | none => rw [hp] at h; exact Option.noConfusion h
          | some par =>
            rw [hp] at h
            simp only at h
            have d1 : deref t2.heap (c + pre.length) = shiftNode pre.length (deref t.heap c) := by
              rw [hheap]; exact deref_shift pre t.heap c
            have d2 : deref t2.heap (par + pre.length) =
                shiftNode pre.length (deref t.heap par) := by
              rw [hheap]; exact deref_shift pre t.heap par
            have hp2 : (deref t2.heap (c + pre.length)).p = some (par + pre.length) := by
              rw [d1]; show (deref t.heap c).p.map _ = _; rw [hp]; rfl
            have q0 : (some (c + pre.length) = (deref t2.heap (par + pre.length)).c0) ↔
                (some c = (deref t.heap par).c0) := by
              rw [d2]
              exact hinj (some c) (deref t.heap par).c0
            have q1 : (some (c + pre.length) = (deref t2.heap (par + pre.length)).c1) ↔
                (some c = (deref t.heap par).c1) := by
              rw [d2]
              exact hinj (some c) (deref t.heap par).c1
            rw [Option.map_some'] at hc2 ⊢
            rw [encodeLoop, if_neg hc2]
            simp only [hp2]
            have h3 := ih (some par) _ r h m (by omega)
            rw [Option.map_some'] at h3
            simp only [q0, q1]
            exact h3

/-- The code of a present symbol in the tree built in any tree object is its
code in the tree built from `HCTree()`. -/
theorem code_shift (comp : HCNode → HCNode → Bool)
    (hcomp : ∀ x y, comp x y = comp (HCNode.mk0 x.count x.symbol) (HCNode.mk0 y.count y.symbol))
    (t : HCTree) (ht : t.leaves.length = 256) (freqs : List Nat) (hlen : freqs.length = 256)
    (s : Nat) (hs : freqs.getD s 0 ≠ 0) :
    ∃ code, (HCTree.new.build comp freqs).code s = some code ∧
      (t.build comp freqs).code s = some code := by
  obtain ⟨r, B⟩ := build_built comp freqs hlen
  have hs2 : s < 256 := hlen ▸ getD_ne_zero_lt freqs s hs
  obtain ⟨bits, j, hcode, hleaf, _⟩ := code_spec B s hs2 hs
  obtain ⟨hheap, hroot, hleaves⟩ := build_shift comp hcomp t ht freqs
  refine ⟨bits, hcode, ?_⟩
  have h1 : encodeLoop (HCTree.new.build comp freqs) (HCTree.new.build comp freqs).heap.length
      (some j) [] = some bits := by
    have h := hcode
    unfold HCTree.code at h
    rw [hleaf] at h
    exact h
  have h2 := encodeLoop_shift _ _ t.heap hheap hroot _ (some j) [] bits h1
    (t.build comp freqs).heap.length
    (by rw [hheap, List.length_append, List.length_map]; exact Nat.le_add_left _ _)
  unfold HCTree.code
  rw [hleaves.2 s j hleaf]
  exact h2

/-- C13: when the comparator of the queue looks at the weight and the symbol of
the two nodes only, `build` invoked on the same 256-entry frequency table in
two tree objects, whatever nodes they hold already (so that the nodes of the
two runs get different addresses), makes trees in which `encode` yields the
same code for every symbol of non-zero frequency, and this code exists.  The
tree of `compress` and the tree of `decompress` are two such objects. -/
theorem build_deterministic (comp : HCNode → HCNode → Bool)
    (hcomp : ∀ x y, comp x y = comp (HCNode.mk0 x.count x.symbol) (HCNode.mk0 y.count y.symbol))
    (t1 t2 : HCTree) (h1 : t1.leaves.length = 256) (h2 : t2.leaves.length = 256)
    (freqs : List Nat) (hlen : freqs.length = 256) (s : Nat) (hs : freqs.getD s 0 ≠ 0) :
    ∃ code, (t1.build comp freqs).code s = some code ∧
      (t2.build comp freqs).code s = some code := by
  obtain ⟨c1, a1, b1⟩ := code_shift comp hcomp t1 h1 freqs hlen s hs
  obtain ⟨c2, a2, b2⟩ := code_shift comp hcomp t2 h2 freqs hlen s hs
  have e : c1 = c2 := Option.some.inj (a1.symm.trans a2)
  exact ⟨c1, b1, e ▸ b2⟩

/-- Witness of C13: `build` on the table of the input 97, 98, 97 in a new tree
object, and once more in the tree object that the first call has filled. -/
theorem build_deterministic_witness :
    (∀ x y, HCNodePtrComp x y =
      HCNodePtrComp (HCNode.mk0 x.count x.symbol) (HCNode.mk0 y.count y.symbol)) ∧
    HCTree.new.leaves.length = 256 ∧
    (HCTree.new.build HCNodePtrComp (freqTable [97, 98, 97])).leaves.length = 256 ∧
    (freqTable [97, 98, 97]).length = 256 ∧ (freqTable [97, 98, 97]).getD 97 0 ≠ 0 ∧
    ∃ code, (HCTree.new.build HCNodePtrComp (freqTable [97, 98, 97])).code 97 = some code ∧
      ((HCTree.new.build HCNodePtrComp (freqTable [97, 98, 97])).build HCNodePtrComp
        (freqTable [97, 98, 97])).code 97 = some code :=
  ⟨fun _ _ => rfl, List.length_replicate _ _,
    (build_leaves_length _ _ _).trans (List.length_replicate _ _),
    freqTable_length _, (freqTable_present [97, 98, 97] (by decide) 97 (by decide)).2,
    build_deterministic HCNodePtrComp (fun _ _ => rfl) HCTree.new
      (HCTree.new.build HCNodePtrComp (freqTable [97, 98, 97])) (List.length_replicate _ _)
      ((build_leaves_length _ _ _).trans (List.length_replicate _ _))
      (freqTable [97, 98, 97]) (freqTable_length _) 97
      (freqTable_present [97, 98, 97] (by decide) 97 (by decide)).2⟩


/-- C19: for every non-empty byte sequence `S` in which no byte value occurs
more than 65535 times, the output of `compress` is the header followed by a
payload that holds the codes of the bytes of `S` and then padding bits, and
every two files made of that header and of payloads that hold these code bits
followed by any other bits decompress to `S`, one decoded byte for each of the
`total_chars` rounds of the decode loop: the bits after the last code have no
effect. -/
theorem padding_not_interpreted (comp : HCNode → HCNode → Bool) (S : List Nat) (hne : S ≠ [])
    (hS : ∀ b, b ∈ S → b < 256) (hc : ∀ b, S.count b ≤ 65535) :
    (∃ ext pad, compress comp S = .ok (headerBytes (freqTable S) ++ ext) ∧
      bitsOfBytes ext =
        S.flatMap (fun s => ((HCTree.new.build comp (freqTable S)).code s).getD []) ++ pad) ∧
    ∀ ext1 ext2 pad1 pad2 : List Nat,
      bitsOfBytes ext1 =
        S.flatMap (fun s => ((HCTree.new.build comp (freqTable S)).code s).getD []) ++ pad1 →
      bitsOfBytes ext2 =
        S.flatMap (fun s => ((HCTree.new.build comp (freqTable S)).code s).getD []) ++ pad2 →
      decompress comp (headerBytes (freqTable S) ++ ext1) = .ok S ∧
      decompress comp (headerBytes (freqTable S) ++ ext2) = .ok S := by
  obtain ⟨r, B⟩ := build_built comp (freqTable S) (freqTable_length S)
  have key : ∀ ext pad : List Nat,
      bitsOfBytes ext =
        S.flatMap (fun s => ((HCTree.new.build comp (freqTable S)).code s).getD []) ++ pad →
      decompress comp (headerBytes (freqTable S) ++ ext) = .ok S := by
    intro ext pad hbits
    rw [← encodeAll_eq_flatMap] at hbits
    rw [decompress_spec comp (freqTable S) ext (freqTable_length S),
      map_mod_eq _ (freqTable_le S hc), (countOccurances_spec S hS).2]
    have hb : (FancyInputStream.mk (headerBytes (freqTable S) ++ ext) 512 [] true).bits =
        encodeAll (HCTree.new.build comp (freqTable S)) S ++ pad := by
      unfold FancyInputStream.bits
      simp only [List.nil_append]
      rw [drop_header _ _ (freqTable_length S), hbits]
    rw [decodeFile_spec B S _ FancyOutputStream.create pad (freqTable_present S hS) rfl hb]
    simp [FancyOutputStream.create, FancyOutputStream.flush]
  constructor
  · obtain ⟨ext, pad, c1, c2, _⟩ := compress_spec comp S hne hS
    rw [encodeAll_eq_flatMap] at c2
    exact ⟨ext, pad, c1, c2⟩
  · intro ext1 ext2 pad1 pad2 h1 h2
    exact ⟨key ext1 pad1 h1, key ext2 pad2 h2⟩

/-- Witness of C19: the input 97, 98, 97. -/
theorem padding_not_interpreted_witness :
    [97, 98, 97] ≠ [] ∧ (∀ b, b ∈ [97, 98, 97] → b < 256) ∧
    (∀ b, [97, 98, 97].count b ≤ 65535) ∧
    ∃ ext pad, compress HCNodePtrComp [97, 98, 97] =
        .ok (headerBytes (freqTable [97, 98, 97]) ++ ext) ∧
      bitsOfBytes ext = [97, 98, 97].flatMap (fun s =>
        ((HCTree.new.build HCNodePtrComp (freqTable [97, 98, 97])).code s).getD []) ++ pad :=
  ⟨by decide, by decide, fun b => le_trans (List.count_le_length b _) (by decide),
    (padding_not_interpreted HCNodePtrComp [97, 98, 97] (by decide) (by decide)
      (fun b => le_trans (List.count_le_length b _) (by decide))).1⟩

/-! ## Invariants of the merge loop -/

theorem buildLoop_induct (comp : HCNode → HCNode → Bool) (P : List HCNode → List Nat → Prop)
    (hstep : ∀ heap pq l r, Forest heap pq → P heap pq → l ∈ pq → r ∈ pq → l ≠ r →
      P (mergeHeap heap l r) ((pq.erase l).erase r ++ [heap.length])) :
    ∀ (fuel : Nat) (heap : List HCNode) (pq : List Nat), Forest heap pq → P heap pq →
      P (buildLoop comp fuel heap pq).1 (buildLoop comp fuel heap pq).2 := by
  intro fuel
  induction fuel with
  | zero => intro heap pq _ hP; exact hP
  | succ n ih =>
    intro heap pq F hP
    by_cases h1 : 1 < pq.length
    · obtain ⟨l, hl⟩ := pqTop_isSome comp heap pq (by intro h; rw [h] at h1; simp at h1)
      have hlm := pqTop_mem comp heap pq l hl
      have hlen1 : (pq.erase l).length = pq.length - 1 := List.length_erase_of_mem hlm
      obtain ⟨r, hr⟩ := pqTop_isSome comp heap (pq.erase l)
        (by intro h; rw [h] at hlen1; simp at hlen1; omega)
      have hrm := pqTop_mem comp heap (pq.erase l) r hr
      have hrm2 := (F.nodup.mem_erase_iff.1 hrm)
      rw [buildLoop_succ comp n heap pq l r h1 hl hr]
      exact ih _ _ (F.merge l r hlm hrm2.2 (Ne.symm hrm2.1))
        (hstep heap pq l r F hP hlm hrm2.2 (Ne.symm hrm2.1))
    · rw [buildLoop_short comp (n + 1) heap pq h1]
      exact hP

theorem internalFrom_step (n0 : Nat) (heap : List HCNode) (pq : List Nat) (l r : Nat)
    (F : Forest heap pq) (hP : InternalFrom n0 heap) (hl : l ∈ pq)
    (hr : r ∈ pq) (hlr : l ≠ r) : InternalFrom n0 (mergeHeap heap l r) := by
  intro k hk hk2
  rw [length_mergeHeap] at hk2
  have hl1 := F.pq_lt l hl
  have hr1 := F.pq_lt r hr
  by_cases hkm : k = heap.length
  · subst hkm
    rw [deref_mergeHeap_new heap l r hl1 hr1]
    exact Option.some_ne_none _
  · rw [mergeHeap_c0 heap l r k hl1 hr1 (by omega) hlr]
    exact hP k hk (by omega)

theorem weighted_step (total : Nat) (heap : List HCNode) (pq : List Nat) (l r : Nat)
    (F : Forest heap pq) (hP : Weighted total heap pq) (hl : l ∈ pq) (hr : r ∈ pq)
    (hlr : l ≠ r) :
    Weighted total (mergeHeap heap l r) ((pq.erase l).erase r ++ [heap.length]) := by
  have hl1 := F.pq_lt l hl
  have hr1 := F.pq_lt r hr
  have hnew := deref_mergeHeap_new heap l r hl1 hr1
  constructor
  · intro k a b hk h0 h1
    rw [length_mergeHeap] at hk
    by_cases hkm : k = heap.length
    · subst hkm
      rw [hnew] at h0 h1 ⊢
      have ha : l = a := Option.some.inj h0
      have hb : r = b := Option.some.inj h1
      subst ha
      subst hb
      rw [mergeHeap_count heap l r l hl1 hr1 hl1 hlr, mergeHeap_count heap l r r hl1 hr1 hr1 hlr]
    · have hk2 : k < heap.length := by omega
      rw [mergeHeap_c0 heap l r k hl1 hr1 hk2 hlr] at h0
      rw [mergeHeap_c1 heap l r k hl1 hr1 hk2 hlr] at h1
      rcases F.down k hk2 with ⟨g0, _⟩ | ⟨a2, b2, g0, g1, _, ha, hb, _, _⟩
      · rw [g0] at h0; exact Option.noConfusion h0
      · rw [g0] at h0
        rw [g1] at h1
        have ea : a2 = a := Option.some.inj h0
        have eb : b2 = b := Option.some.inj h1
        subst ea
        subst eb
        rw [mergeHeap_count heap l r k hl1 hr1 hk2 hlr,
          mergeHeap_count heap l r a2 hl1 hr1 (by omega) hlr,
          mergeHeap_count heap l r b2 hl1 hr1 (by omega) hlr]
        exact hP.1 k a2 b2 hk2 g0 g1
  · rw [toFinset_merge pq l r heap.length F.nodup]
    have hmQ : heap.length ∉ pq.toFinset := by
      rw [List.mem_toFinset]
      intro h
      have := F.pq_lt _ h
      omega
    have hmR : heap.length ∉ (pq.toFinset.erase l).erase r := by
      intro h
      exact hmQ (Finset.mem_of_mem_erase (Finset.mem_of_mem_erase h))
    have hr2 : r ∈ pq.toFinset.erase l :=
      Finset.mem_erase.2 ⟨Ne.symm hlr, List.mem_toFinset.2 hr⟩
    rw [Finset.sum_insert hmR, hnew]
    have hrest : ((pq.toFinset.erase l).erase r).sum
        (fun x => (deref (mergeHeap heap l r) x).count) =
        ((pq.toFinset.erase l).erase r).sum (fun x => (deref heap x).count) := by
      apply Finset.sum_congr rfl
      intro x hx
      have hx2 : x ∈ pq := List.mem_toFinset.1
        (Finset.mem_of_mem_erase (Finset.mem_of_mem_erase hx))
      exact mergeHeap_count heap l r x hl1 hr1 (F.pq_lt x hx2) hlr
    rw [hrest, ← hP.2, ← Finset.add_sum_erase pq.toFinset _ (List.mem_toFinset.2 hl),
      ← Finset.add_sum_erase (pq.toFinset.erase l) _ hr2]
    simp only
    omega

theorem sum_eq_sum_range (l : List Nat) :
    l.sum = (Finset.range l.length).sum (fun i => l.getD i 0) := by
  induction l with
  | nil => rfl
  | cons x xs ih =>
    rw [List.sum_cons, List.length_cons, Finset.sum_range_succ', ih]
    simp only [List.getD_cons_succ, List.getD_cons_zero]
    omega

theorem weighted_init (freqs : List Nat) (hlen : freqs.length = 256) :
    Weighted freqs.sum (buildState freqs).1 (buildState freqs).2.2 := by
  have I := build_leafInv freqs hlen
  constructor
  · intro k a b hk h0 _
    rw [(I.leaf k hk).1] at h0
    exact Option.noConfusion h0
  · have h := sum_leaves freqs hlen (fun _ r => (deref (buildState freqs).1 r).count)
    rw [← h, sum_eq_sum_range, hlen]
    have h2 := sum_present freqs (fun _ => 1)
    simp only [Nat.mul_one] at h2
    rw [h2]
    apply Finset.sum_congr rfl
    intro s hs
    simp only [presentSymbols, Finset.mem_filter, Finset.mem_range] at hs
    obtain ⟨j, a1, _, _, a4⟩ := leaf_of_symbol freqs hlen s hs.1 hs.2
    simp only [a1, Option.getD_some]
    exact a4

theorem buildRun_internal (comp : HCNode → HCNode → Bool) (freqs : List Nat)
    (hlen : freqs.length = 256) :
    InternalFrom (buildState freqs).1.length (buildRun comp freqs).1 := by
  have I := build_leafInv freqs hlen
  exact buildLoop_induct comp (fun heap _ => InternalFrom (buildState freqs).1.length heap)
    (fun heap pq l r F hP hl hr hlr => internalFrom_step _ heap pq l r F hP hl hr hlr)
    _ _ _ I.forest (fun k hk hk2 => absurd hk2 (by omega))

theorem buildRun_weighted (comp : HCNode → HCNode → Bool) (freqs : List Nat)
    (hlen : freqs.length = 256) :
    Weighted freqs.sum (buildRun comp freqs).1 (buildRun comp freqs).2 := by
  have I := build_leafInv freqs hlen
  exact buildLoop_induct comp (fun heap pq => Weighted freqs.sum heap pq)
    (fun heap pq l r F hP hl hr hlr => weighted_step _ heap pq l r F hP hl hr hlr)
    _ _ _ I.forest (weighted_init freqs hlen)

theorem walk_to_node {freqs : List Nat} {t : HCTree} {r : Nat} (B : Built freqs t r) (k : Nat)
    (hk : k < t.heap.length) : ∃ bits, walk t.heap r bits = some k := by
  obtain ⟨bits, _, e2, _⟩ :=
    encodeLoop_spec t r B.root B.forest t.heap.length k [] hk (Nat.sub_le _ _)
  exact ⟨bits, e2⟩

/-- C12: after `build` on a 256-entry frequency table, `leaves[i]` is non-null
exactly when `freqs[i]` is non-zero, and then it points to a childless node of
the tree, reached from the root, whose symbol is `i` and whose weight is
`freqs[i]`; when some count is non-zero, every childless node of the tree is
the entry of `leaves` for a symbol of non-zero frequency, so that each such
symbol has exactly one leaf and no other symbol has one. -/
theorem leaf_table_postcondition (comp : HCNode → HCNode → Bool) (freqs : List Nat)
    (hlen : freqs.length = 256) :
    ∃ r, (HCTree.new.build comp freqs).root = some r ∧
      (∀ i, i < 256 →
        ((HCTree.new.build comp freqs).leaves.getD i none ≠ none ↔ freqs.getD i 0 ≠ 0)) ∧
      (∀ i j, i < 256 → (HCTree.new.build comp freqs).leaves.getD i none = some j →
        j < (HCTree.new.build comp freqs).heap.length ∧
        (deref (HCTree.new.build comp freqs).heap j).c0 = none ∧
        (deref (HCTree.new.build comp freqs).heap j).c1 = none ∧
        (deref (HCTree.new.build comp freqs).heap j).symbol = i ∧
        (deref (HCTree.new.build comp freqs).heap j).count = freqs.getD i 0 ∧
        ∃ bits, walk (HCTree.new.build comp freqs).heap r bits = some j) ∧
      ((∃ i, freqs.getD i 0 ≠ 0) →
        ∀ j, j < (HCTree.new.build comp freqs).heap.length →
          (deref (HCTree.new.build comp freqs).heap j).c0 = none →
          (deref (HCTree.new.build comp freqs).heap j).c1 = none →
          ∃ i, i < 256 ∧ freqs.getD i 0 ≠ 0 ∧
            (HCTree.new.build comp freqs).leaves.getD i none = some j) := by
  obtain ⟨r, B⟩ := build_built comp freqs hlen
  refine ⟨r, B.root, ?_, ?_, ?_⟩
  · intro i hi
    constructor
    · intro h hz
      exact h (B.absent i hz)
    · intro h
      obtain ⟨j, hj, _⟩ := B.present i hi h
      rw [hj]
      exact Option.some_ne_none _
  · intro i j hi hj
    have hf : freqs.getD i 0 ≠ 0 := by
      intro hz
      rw [B.absent i hz] at hj
      exact Option.noConfusion hj
    obtain ⟨j2, a1, a2, a3, a4, a5, a6⟩ := B.present i hi hf
    rw [hj] at a1
    have e : j = j2 := Option.some.inj a1
    subst e
    exact ⟨a2, a3, a4, a5, a6, walk_to_node B j a2⟩
  · rintro ⟨i0, hi0⟩ j hj h0 _
    have hi0lt : i0 < 256 := hlen ▸ getD_ne_zero_lt freqs i0 hi0
    rcases build_cases comp freqs hlen with ⟨x, _, hbuild⟩ | ⟨_, _, hh0, _⟩
    · have hheap : (HCTree.new.build comp freqs).heap = (buildRun comp freqs).1 := by
        rw [hbuild]
      have hleaves : (HCTree.new.build comp freqs).leaves = (buildState freqs).2.1 := by
        rw [hbuild]
      rw [hheap] at hj h0
      have hj0 : j < (buildState freqs).1.length := by
        by_contra hge
        exact buildRun_internal comp freqs hlen j (by omega) hj h0
      obtain ⟨s, s1, s2, s3, _⟩ := symbol_of_leaf freqs hlen j hj0
      exact ⟨s, s1, s2, by rw [hleaves]; exact s3⟩
    · obtain ⟨j2, _, a2, _⟩ := leaf_of_symbol freqs hlen i0 hi0lt hi0
      rw [hh0] at a2
      exact absurd a2 (Nat.not_lt_zero _)

/-- Witness of C12: the table of the input 97, 98. -/
theorem leaf_table_postcondition_witness :
    (freqTable [97, 98]).length = 256 ∧
    ∃ r, (HCTree.new.build HCNodePtrComp (freqTable [97, 98])).root = some r ∧
      ∀ i, i < 256 →
        ((HCTree.new.build HCNodePtrComp (freqTable [97, 98])).leaves.getD i none ≠ none ↔
          (freqTable [97, 98]).getD i 0 ≠ 0) :=
  ⟨freqTable_length _,
    Exists.elim (leaf_table_postcondition HCNodePtrComp (freqTable [97, 98]) (freqTable_length _))
      (fun r h => ⟨r, h.1, h.2.1⟩)⟩

/-- C16: in the tree that `build` makes from a 256-entry frequency table every
allocated node is reached from the root and has either no child or two
distinct children, the weight of a node with children is the sum of the
weights of its two children, and the weight of the root is the sum of all
frequencies. -/
theorem tree_shape_invariant (comp : HCNode → HCNode → Bool) (freqs : List Nat)
    (hlen : freqs.length = 256) :
    ∃ r, (HCTree.new.build comp freqs).root = some r ∧
      r < (HCTree.new.build comp freqs).heap.length ∧
      (∀ k, k < (HCTree.new.build comp freqs).heap.length →
        (∃ bits, walk (HCTree.new.build comp freqs).heap r bits = some k) ∧
        (((deref (HCTree.new.build comp freqs).heap k).c0 = none ∧
            (deref (HCTree.new.build comp freqs).heap k).c1 = none) ∨
          ∃ a b, (deref (HCTree.new.build comp freqs).heap k).c0 = some a ∧
            (deref (HCTree.new.build comp freqs).heap k).c1 = some b ∧ a ≠ b ∧
            (deref (HCTree.new.build comp freqs).heap k).count =
              (deref (HCTree.new.build comp freqs).heap a).count +
              (deref (HCTree.new.build comp freqs).heap b).count)) ∧
      (deref (HCTree.new.build comp freqs).heap r).count = freqs.sum := by
  obtain ⟨r, B⟩ := build_built comp freqs hlen
  have hr : r < (HCTree.new.build comp freqs).heap.length :=
    B.forest.pq_lt r (List.mem_singleton.2 rfl)
  have W := buildRun_weighted comp freqs hlen
  rcases build_cases comp freqs hlen with ⟨x, hx, hbuild⟩ | ⟨hpq, hheap0, _, hbuild⟩
  · have hheap : (HCTree.new.build comp freqs).heap = (buildRun comp freqs).1 := by
      rw [hbuild]
    have hroot : (HCTree.new.build comp freqs).root = some x := by rw [hbuild]
    have hrx : r = x := by
      have := B.root
      rw [hroot] at this
      exact (Option.some.inj this).symm
    refine ⟨r, B.root, hr, ?_, ?_⟩
    · intro k hk
      refine ⟨walk_to_node B k hk, ?_⟩
      rcases B.forest.down k hk with h | ⟨a, b, g0, g1, hab, _, _, _, _⟩
      · left; exact h
      · right
        refine ⟨a, b, g0, g1, hab, ?_⟩
        rw [hheap] at hk g0 g1 ⊢
        exact W.1 k a b hk g0 g1
    · have h2 := W.2
      rw [hx] at h2
      rw [hheap, hrx]
      simpa using h2
  · have h2 := W.2
    rw [hpq] at h2
    have hsum : freqs.sum = 0 := by simpa using h2.symm
    have hroot : (HCTree.new.build comp freqs).root = some 0 := by rw [hbuild]
    have hr0 : r = 0 := by
      have := B.root
      rw [hroot] at this
      exact (Option.some.inj this).symm
    refine ⟨r, B.root, hr, ?_, ?_⟩
    · intro k hk
      refine ⟨walk_to_node B k hk, ?_⟩
      rcases B.forest.down k hk with h | ⟨a, b, g0, _⟩
      · left; exact h
      · exfalso
        rw [hbuild] at hk g0
        have hk0 : k = 0 := by simpa using hk
        subst hk0
        exact Option.noConfusion g0
    · rw [hsum, hr0, hbuild]
      rfl

/-- Witness of C16: the table of the input 97, 98. -/
theorem tree_shape_invariant_witness :
    (freqTable [97, 98]).length = 256 ∧
    ∃ r, (HCTree.new.build HCNodePtrComp (freqTable [97, 98])).root = some r ∧
      (deref (HCTree.new.build HCNodePtrComp (freqTable [97, 98])).heap r).count =
        (freqTable [97, 98]).sum :=
  ⟨freqTable_length _,
    Exists.elim (tree_shape_invariant HCNodePtrComp (freqTable [97, 98]) (freqTable_length _))
      (fun r h => ⟨r, h.1, h.2.2.2⟩)⟩

/-! ## decode on an exhausted source -/

theorem bitsOfBytes_eq_nil (l : List Nat) (h : bitsOfBytes l = []) : l = [] := by
  cases l with
  | nil => rfl
  | cons x xs =>
    have := congrArg List.length h
    simp [bitsOfBytes, bitsOfByte] at this

theorem read_bit_exhausted (s : FancyInputStream) (h : s.bits = []) : (s.read_bit).1 = -1 := by
  unfold FancyInputStream.bits at h
  have hbuf : s.buffer = [] := (List.append_eq_nil.1 h).1
  have hdrop : s.file.drop s.pos = [] := bitsOfBytes_eq_nil _ (List.append_eq_nil.1 h).2
  have hget : s.file[s.pos]? = none := by
    apply List.getElem?_eq_none
    by_contra hlt
    have := List.drop_eq_getElem_cons (by omega : s.pos < s.file.length)
    rw [hdrop] at this
    exact List.noConfusion this
  simp only [FancyInputStream.read_bit, hbuf, hget]

theorem decodeLoop_exhausted (t : HCTree) {pq : List Nat} (F : Forest t.heap pq) :
    ∀ (bits : List Nat) (n r k : Nat) (s : FancyInputStream),
      r < t.heap.length → walk t.heap r bits = some k →
      (∀ b, b ∈ bits → b = 0 ∨ b = 1) → (deref t.heap k).c0 ≠ none →
      bits.length < n → s.bits = bits →
      decodeLoop t n r s = .error .diverges := by
  intro bits
  induction bits with
  | nil =>
    intro n r k s hr hw _ hk hn hs
    simp only [walk, Option.some.injEq] at hw
    subst hw
    obtain ⟨m, rfl⟩ : ∃ m, n = m + 1 := ⟨n - 1, by simp at hn; omega⟩
    have hcond : (deref t.heap r).c1 ≠ none ∧ (deref t.heap r).c0 ≠ none := by
      rcases F.down r hr with ⟨g0, _⟩ | ⟨x, y, g0, g1, _⟩
      · exact absurd g0 hk
      · rw [g0, g1]; exact ⟨Option.some_ne_none _, Option.some_ne_none _⟩
    rw [decodeLoop, if_pos hcond, read_bit_exhausted s hs]
    rfl
  | cons b bs ih =>
    intro n r k s hr hw hb hk hn hs
    obtain ⟨m, rfl⟩ : ∃ m, n = m + 1 := ⟨n - 1, by simp at hn; omega⟩
    obtain ⟨r1, r2, _, _⟩ := read_bit_spec s b bs hs
    simp only [walk] at hw
    rcases F.down r hr with ⟨g0, g1⟩ | ⟨x, y, g0, g1, _, hx, hy, _, _⟩
    · by_cases hb0 : b = 0
      · rw [if_pos hb0, g0] at hw; exact Option.noConfusion hw
      · rw [if_neg hb0, g1] at hw; exact Option.noConfusion hw
    · have hcond : (deref t.heap r).c1 ≠ none ∧ (deref t.heap r).c0 ≠ none := by
        rw [g0, g1]; exact ⟨Option.some_ne_none _, Option.some_ne_none _⟩
      have hbs : ∀ c, c ∈ bs → c = 0 ∨ c = 1 := fun c hc => hb c (List.mem_cons_of_mem _ hc)
      have hlen : bs.length < m := by simp at hn; omega
      rw [decodeLoop, if_pos hcond, r1]
      rcases hb b (List.mem_cons_self _ _) with hb0 | hb1
      · subst hb0
        rw [if_pos rfl, g0] at hw
        rw [if_neg (by decide), if_pos (by rfl), g0]
        exact ih m x k (s.read_bit).2 (by omega) hw hbs hk hlen r2
      · subst hb1
        rw [if_neg (by decide), g1] at hw
        rw [if_pos (by rfl), g1]
        exact ih m y k (s.read_bit).2 (by omega) hw hbs hk hlen r2

/-- The root of a tree with two symbols present has children. -/
theorem root_internal {freqs : List Nat} {t : HCTree} {r : Nat} (B : Built freqs t r)
    (a b : Nat) (ha : a < 256) (hb : b < 256) (hab : a ≠ b)
    (hfa : freqs.getD a 0 ≠ 0) (hfb : freqs.getD b 0 ≠ 0) : (deref t.heap r).c0 ≠ none := by
  intro h0
  have hr : r < t.heap.length := B.forest.pq_lt r (List.mem_singleton.2 rfl)
  have h1 : (deref t.heap r).c1 = none := by
    rcases B.forest.down r hr with ⟨_, g1⟩ | ⟨x, y, g0, _⟩
    · exact g1
    · rw [h0] at g0; exact Option.noConfusion g0
  obtain ⟨ba, ja, _, _, _, a4, _, _, _, _, a9, _⟩ := code_spec B a ha hfa
  obtain ⟨bb, jb, _, _, _, b4, _, _, _, _, b9, _⟩ := code_spec B b hb hfb
  have ea := walk_leaf t.heap r ba ja h0 h1 a4
  have eb := walk_leaf t.heap r bb jb h0 h1 b4
  subst ea
  subst eb
  simp only [walk, Option.some.injEq] at a4 b4
  rw [← a4] at a9
  rw [← b4] at b9
  exact hab (a9.symm.trans b9)

/-- With two symbols present, `decode` on a source that delivers only a proper
part of a path from the root never returns. -/
theorem decode_exhausted {freqs : List Nat} {t : HCTree} {r : Nat} (B : Built freqs t r)
    (a b : Nat) (ha : a < 256) (hb : b < 256) (hab : a ≠ b)
    (hfa : freqs.getD a 0 ≠ 0) (hfb : freqs.getD b 0 ≠ 0) (inp : FancyInputStream)
    (hbits : inp.bits = []) : t.decode inp = .error .diverges := by
  have hr : r < t.heap.length := B.forest.pq_lt r (List.mem_singleton.2 rfl)
  unfold HCTree.decode
  rw [B.root]
  exact decodeLoop_exhausted t B.forest [] t.heap.length r r inp hr rfl
    (fun b hb => absurd hb (List.not_mem_nil _)) (root_internal B a b ha hb hab hfa hfb)
    (by show 0 < t.heap.length; omega) hbits

/-- C18 fails on the code: in the tree built from the table of the input
97, 98, which has two leaves, `decode` on a source without bits gets the end
of data from `read_bit` and its loop repeats for ever, so `decode` does not
terminate. -/
theorem decode_on_exhausted_source :
    (HCTree.new.build HCNodePtrComp (freqTable [97, 98])).decode (FancyInputStream.create []) =
      .error .diverges :=
  Exists.elim (build_built HCNodePtrComp (freqTable [97, 98]) (freqTable_length _))
    (fun _ B => decode_exhausted B 97 98 (by decide) (by decide) (by decide)
      (freqTable_present [97, 98] (by decide) 97 (by decide)).2
      (freqTable_present [97, 98] (by decide) 98 (by decide)).2 (FancyInputStream.create []) rfl)

theorem exhausted_file_eq : List.replicate 194 0 ++ [1, 0, 1, 0] ++ List.replicate 314 0 =
    headerBytes (freqTable [97, 98]) ++ [] := by
  decide!

/-- C10 fails on the code: a file of 512 bytes whose header gives the count 1
to the bytes 97 and 98, with no payload.  `decode` is called on the exhausted
source, `read_bit` returns neither 0 nor 1, and the loop of `decode` never
reaches a leaf: the run neither reports a failure nor finishes. -/
theorem exhausted_payload_diverges :
    decompress HCNodePtrComp (List.replicate 194 0 ++ [1, 0, 1, 0] ++ List.replicate 314 0) =
      .error .diverges := by
  have hS : ∀ b, b ∈ [97, 98] → b < 256 := by decide
  obtain ⟨r, B⟩ := build_built HCNodePtrComp (freqTable [97, 98]) (freqTable_length _)
  rw [exhausted_file_eq, decompress_spec HCNodePtrComp (freqTable [97, 98]) []
    (freqTable_length _),
    map_mod_eq _ (freqTable_le [97, 98] (fun b => le_trans (List.count_le_length b _) (by decide))),
    (countOccurances_spec [97, 98] hS).2]
  have hbits : (FancyInputStream.mk (headerBytes (freqTable [97, 98]) ++ []) 512 [] true).bits =
      [] := by
    unfold FancyInputStream.bits
    rw [drop_header _ _ (freqTable_length _)]
    rfl
  have hdec := decode_exhausted B 97 98 (by decide) (by decide) (by decide)
    (freqTable_present [97, 98] hS 97 (by decide)).2
    (freqTable_present [97, 98] hS 98 (by decide)).2 _ hbits
  have h2 : ([97, 98] : List Nat).length = 1 + 1 := rfl
  rw [h2, decodeFile, if_pos rfl, hdec]

/-! ## Two symbols -/

theorem walk_one_bit (heap : List HCNode) (r l rr j : Nat) (bits : List Nat)
    (h0 : (deref heap r).c0 = some l) (h1 : (deref heap r).c1 = some rr)
    (hl0 : (deref heap l).c0 = none) (hl1 : (deref heap l).c1 = none)
    (hr0 : (deref heap rr).c0 = none) (hr1 : (deref heap rr).c1 = none)
    (hj : (deref heap j).c0 = none) (hb : ∀ b, b ∈ bits → b = 0 ∨ b = 1)
    (hw : walk heap r bits = some j) : (bits = [0] ∧ j = l) ∨ (bits = [1] ∧ j = rr) := by
  cases bits with
  | nil =>
    simp only [walk, Option.some.injEq] at hw
    subst hw
    rw [h0] at hj
    exact Option.noConfusion hj
  | cons b rest =>
    simp only [walk] at hw
    rcases hb b (List.mem_cons_self _ _) with hb0 | hb1
    · subst hb0
      rw [if_pos rfl, h0] at hw
      have hnil := walk_leaf heap l rest j hl0 hl1 hw
      subst hnil
      simp only [walk, Option.some.injEq] at hw
      left
      exact ⟨rfl, hw.symm⟩
    · subst hb1
      rw [if_neg (by decide), h1] at hw
      have hnil := walk_leaf heap rr rest j hr0 hr1 hw
      subst hnil
      simp only [walk, Option.some.injEq] at hw
      right
      exact ⟨rfl, hw.symm⟩

theorem two_symbols (comp : HCNode → HCNode → Bool) (freqs : List Nat)
    (hlen : freqs.length = 256) (a b : Nat) (hab : a ≠ b)
    (ha : freqs.getD a 0 ≠ 0) (hb : freqs.getD b 0 ≠ 0)
    (hz : ∀ s, s ≠ a → s ≠ b → freqs.getD s 0 = 0) :
    ∃ r l rr ca cb, (HCTree.new.build comp freqs).root = some r ∧
      (deref (HCTree.new.build comp freqs).heap r).c0 = some l ∧
      (deref (HCTree.new.build comp freqs).heap r).c1 = some rr ∧
      (deref (HCTree.new.build comp freqs).heap l).c0 = none ∧
      (deref (HCTree.new.build comp freqs).heap l).c1 = none ∧
      (deref (HCTree.new.build comp freqs).heap rr).c0 = none ∧
      (deref (HCTree.new.build comp freqs).heap rr).c1 = none ∧
      (((HCTree.new.build comp freqs).leaves.getD a none = some l ∧
          (HCTree.new.build comp freqs).leaves.getD b none = some rr) ∨
        ((HCTree.new.build comp freqs).leaves.getD a none = some rr ∧
          (HCTree.new.build comp freqs).leaves.getD b none = some l)) ∧
      (HCTree.new.build comp freqs).code a = some [ca] ∧
      (HCTree.new.build comp freqs).code b = some [cb] ∧ ca ≠ cb := by
  have ha2 : a < 256 := hlen ▸ getD_ne_zero_lt freqs a ha
  have hb2 : b < 256 := hlen ▸ getD_ne_zero_lt freqs b hb
  have I := build_leafInv freqs hlen
  obtain ⟨ja, a1, a2, a3, _⟩ := leaf_of_symbol freqs hlen a ha2 ha
  obtain ⟨jb, b1, b2, b3, _⟩ := leaf_of_symbol freqs hlen b hb2 hb
  have hjab : ja ≠ jb := by
    intro h
    rw [h] at a3
    exact hab (a3.symm.trans b3)
  have hall : ∀ j, j < (buildState freqs).1.length → j = ja ∨ j = jb := by
    intro j hj
    obtain ⟨s, _, s2, s3, _⟩ := symbol_of_leaf freqs hlen j hj
    by_cases hsa : s = a
    · subst hsa
      rw [a1] at s3
      left; exact (Option.some.inj s3).symm
    · by_cases hsb : s = b
      · subst hsb
        rw [b1] at s3
        right; exact (Option.some.inj s3).symm
      · exact absurd (hz s hsa hsb) s2
  have htwo : (buildState freqs).1.length = 2 := by
    by_contra hne
    have h0 := hall 0 (by omega)
    have h1 := hall 1 (by omega)
    have h2 := hall 2 (by omega)
    omega
  have hpq : (buildState freqs).2.2 = [0, 1] := by
    rw [I.pq_eq, htwo]
    rfl
  -- the single merge
  obtain ⟨l, hl⟩ := pqTop_isSome comp (buildState freqs).1 [0, 1] (by simp)
  have hlm := pqTop_mem comp _ _ l hl
  have hF := I.forest
  rw [hpq] at hF
  have hlen1 : ([0, 1].erase l).length = 1 := by
    rw [List.length_erase_of_mem hlm]
    rfl
  obtain ⟨rr, hrr⟩ := pqTop_isSome comp (buildState freqs).1 ([0, 1].erase l)
    (by intro h; rw [h] at hlen1; simp at hlen1)
  have hrm := pqTop_mem comp _ _ rr hrr
  have hrm2 := hF.nodup.mem_erase_iff.1 hrm
  have hlr : l ≠ rr := Ne.symm hrm2.1
  have hlen2 : (([0, 1].erase l).erase rr).length = 0 := by
    rw [List.length_erase_of_mem hrm, hlen1]
  have hnil : ([0, 1].erase l).erase rr = [] := List.length_eq_zero.1 hlen2
  have hl1 : l < (buildState freqs).1.length := hF.pq_lt l hlm
  have hr1 : rr < (buildState freqs).1.length := hF.pq_lt rr hrm2.2
  have hrun : buildRun comp freqs = (mergeHeap (buildState freqs).1 l rr, [2]) := by
    unfold buildRun
    rw [hpq]
    show buildLoop comp (1 + 1) (buildState freqs).1 [0, 1] = _
    rw [buildLoop_succ comp 1 _ [0, 1] l rr (by simp) hl hrr, hnil, htwo]
    exact buildLoop_short comp 1 _ _ (by simp)
  obtain ⟨r, B⟩ := build_built comp freqs hlen
  rcases build_cases comp freqs hlen with ⟨x, hx, hbuild⟩ | ⟨h, _⟩
  · rw [hrun] at hx hbuild
    have hx2 : x = 2 := by
      have := List.cons.inj hx
      exact this.1.symm
    subst hx2
    have hheap : (HCTree.new.build comp freqs).heap = mergeHeap (buildState freqs).1 l rr := by
      rw [hbuild]
    have hleaves : (HCTree.new.build comp freqs).leaves = (buildState freqs).2.1 := by
      rw [hbuild]
    have hroot : (HCTree.new.build comp freqs).root = some 2 := by rw [hbuild]
    have hr2 : r = 2 := by
      have := B.root
      rw [hroot] at this
      exact (Option.some.inj this).symm
    subst hr2
    have hnew := deref_mergeHeap_new (buildState freqs).1 l rr hl1 hr1
    rw [htwo] at hnew
    have g0 : (deref (HCTree.new.build comp freqs).heap 2).c0 = some l := by
      rw [hheap, hnew]
    have g1 : (deref (HCTree.new.build comp freqs).heap 2).c1 = some rr := by
      rw [hheap, hnew]
    have hl0 : (deref (HCTree.new.build comp freqs).heap l).c0 = none := by
      rw [hheap, mergeHeap_c0 _ l rr l hl1 hr1 hl1 hlr]; exact (I.leaf l hl1).1
    have hl1' : (deref (HCTree.new.build comp freqs).heap l).c1 = none := by
      rw [hheap, mergeHeap_c1 _ l rr l hl1 hr1 hl1 hlr]; exact (I.leaf l hl1).2.1
    have hr0 : (deref (HCTree.new.build comp freqs).heap rr).c0 = none := by
      rw [hheap, mergeHeap_c0 _ l rr rr hl1 hr1 hr1 hlr]; exact (I.leaf rr hr1).1
    have hr1' : (deref (HCTree.new.build comp freqs).heap rr).c1 = none := by
      rw [hheap, mergeHeap_c1 _ l rr rr hl1 hr1 hr1 hlr]; exact (I.leaf rr hr1).2.1
    obtain ⟨bitsa, ja2, ca1, ca2, _, ca4, ca5, _, ca7, _⟩ := code_spec B a ha2 ha
    obtain ⟨bitsb, jb2, cb1, cb2, _, cb4, cb5, _, cb7, _⟩ := code_spec B b hb2 hb
    have eja : ja2 = ja := by
      rw [hleaves, a1] at ca2
      exact (Option.some.inj ca2).symm
    have ejb : jb2 = jb := by
      rw [hleaves, b1] at cb2
      exact (Option.some.inj cb2).symm
    subst eja
    subst ejb
    have wa := walk_one_bit _ 2 l rr ja2 bitsa g0 g1 hl0 hl1' hr0 hr1' ca7 ca5 ca4
    have wb := walk_one_bit _ 2 l rr jb2 bitsb g0 g1 hl0 hl1' hr0 hr1' cb7 cb5 cb4
    rcases wa with ⟨wa1, wa2⟩ | ⟨wa1, wa2⟩ <;> rcases wb with ⟨wb1, wb2⟩ | ⟨wb1, wb2⟩
    · exact absurd (wa2.trans wb2.symm) hjab
    · subst wa1; subst wb1
      refine ⟨2, l, rr, 0, 1, hroot, g0, g1, hl0, hl1', hr0, hr1', Or.inl ⟨?_, ?_⟩, ca1, cb1,
        by decide⟩
      · rw [hleaves, a1, wa2]
      · rw [hleaves, b1, wb2]
    · subst wa1; subst wb1
      refine ⟨2, l, rr, 1, 0, hroot, g0, g1, hl0, hl1', hr0, hr1', Or.inr ⟨?_, ?_⟩, ca1, cb1,
        by decide⟩
      · rw [hleaves, a1, wa2]
      · rw [hleaves, b1, wb2]
    · exact absurd (wa2.trans wb2.symm) hjab
  · rw [hrun] at h
    exact absurd h (by simp)

theorem absent_two (s : Nat) (h1 : s ≠ 97) (h2 : s ≠ 98) : (freqTable [97, 98]).getD s 0 = 0 := by
  by_contra h
  rcases present_two s h with e | e
  · exact h1 e
  · exact h2 e

/-- C14: for every 256-entry table with exactly two non-zero counts, those of
`a` and `b`, `build` produces a root whose two children are the leaves of `a`
and `b`, and `encode` emits exactly one bit for each of the two symbols, the
two bits being different; for the input 97, 98 (the text "ab") the output of
`compress` is the 512-byte header followed by one payload byte whose top two
bits are the code of 97 and then the code of 98. -/
theorem two_symbol_scenario (comp : HCNode → HCNode → Bool) (freqs : List Nat)
    (hlen : freqs.length = 256) (a b : Nat) (hab : a ≠ b)
    (ha : freqs.getD a 0 ≠ 0) (hb : freqs.getD b 0 ≠ 0)
    (hz : ∀ s, s ≠ a → s ≠ b → freqs.getD s 0 = 0) :
    (∃ r l rr ca cb, (HCTree.new.build comp freqs).root = some r ∧
      (deref (HCTree.new.build comp freqs).heap r).c0 = some l ∧
      (deref (HCTree.new.build comp freqs).heap r).c1 = some rr ∧
      (deref (HCTree.new.build comp freqs).heap l).c0 = none ∧
      (deref (HCTree.new.build comp freqs).heap l).c1 = none ∧
      (deref (HCTree.new.build comp freqs).heap rr).c0 = none ∧
      (deref (HCTree.new.build comp freqs).heap rr).c1 = none ∧
      (((HCTree.new.build comp freqs).leaves.getD a none = some l ∧
          (HCTree.new.build comp freqs).leaves.getD b none = some rr) ∨
        ((HCTree.new.build comp freqs).leaves.getD a none = some rr ∧
          (HCTree.new.build comp freqs).leaves.getD b none = some l)) ∧
      (HCTree.new.build comp freqs).code a = some [ca] ∧
      (HCTree.new.build comp freqs).code b = some [cb] ∧ ca ≠ cb) ∧
    ∃ byte ca cb, compress comp [97, 98] = .ok (headerBytes (freqTable [97, 98]) ++ [byte]) ∧
      (headerBytes (freqTable [97, 98])).length = 512 ∧
      (HCTree.new.build comp (freqTable [97, 98])).code 97 = some [ca] ∧
      (HCTree.new.build comp (freqTable [97, 98])).code 98 = some [cb] ∧ ca ≠ cb ∧
      (bitsOfByte byte).take 2 = [ca, cb] := by
  refine ⟨two_symbols comp freqs hlen a b hab ha hb hz, ?_⟩
  have hS : ∀ x, x ∈ [97, 98] → x < 256 := by decide
  obtain ⟨_, _, _, ca, cb, _, _, _, _, _, _, _, _, c1, c2, c3⟩ :=
    two_symbols comp (freqTable [97, 98]) (freqTable_length _) 97 98 (by decide)
      (freqTable_present [97, 98] hS 97 (by decide)).2
      (freqTable_present [97, 98] hS 98 (by decide)).2 absent_two
  obtain ⟨ext, pad, e1, e2, _, _, e5⟩ := compress_spec comp [97, 98] (by decide) hS
  have henc : encodeAll (HCTree.new.build comp (freqTable [97, 98])) [97, 98] = [ca, cb] := by
    simp only [encodeAll, c1, c2, Option.getD_some, List.append_nil, List.singleton_append]
  rw [henc] at e2 e5
  have hlen1 : ext.length = 1 := by
    rw [e5]
    simp
  obtain ⟨byte, hbyte⟩ : ∃ byte, ext = [byte] := List.length_eq_one.1 hlen1
  subst hbyte
  refine ⟨byte, ca, cb, e1, by rw [headerBytes_length, freqTable_length], c1, c2, c3, ?_⟩
  have hb2 : bitsOfByte byte = [ca, cb] ++ pad := by
    have : bitsOfBytes [byte] = bitsOfByte byte := by
      show bitsOfByte byte ++ [] = _
      rw [List.append_nil]
    rw [← this, e2]
  rw [hb2]
  rfl

/-- Witness of C14: the table of the input 97, 98. -/
theorem two_symbol_scenario_witness :
    (freqTable [97, 98]).length = 256 ∧ (freqTable [97, 98]).getD 97 0 ≠ 0 ∧
    (freqTable [97, 98]).getD 98 0 ≠ 0 ∧
    (∀ s, s ≠ 97 → s ≠ 98 → (freqTable [97, 98]).getD s 0 = 0) ∧
    ∃ byte ca cb, compress HCNodePtrComp [97, 98] =
        .ok (headerBytes (freqTable [97, 98]) ++ [byte]) ∧
      (headerBytes (freqTable [97, 98])).length = 512 ∧
      (HCTree.new.build HCNodePtrComp (freqTable [97, 98])).code 97 = some [ca] ∧
      (HCTree.new.build HCNodePtrComp (freqTable [97, 98])).code 98 = some [cb] ∧ ca ≠ cb ∧
      (bitsOfByte byte).take 2 = [ca, cb] :=
  ⟨freqTable_length _, (freqTable_present [97, 98] (by decide) 97 (by decide)).2,
    (freqTable_present [97, 98] (by decide) 98 (by decide)).2, absent_two,
    (two_symbol_scenario HCNodePtrComp (freqTable [97, 98]) (freqTable_length _) 97 98
      (by decide) (freqTable_present [97, 98] (by decide) 97 (by decide)).2
      (freqTable_present [97, 98] (by decide) 98 (by decide)).2 absent_two).2⟩

theorem bitsToBool_prefix : ∀ (x y : List Nat), (∀ b, b ∈ x → b = 0 ∨ b = 1) →
    (∀ b, b ∈ y → b = 0 ∨ b = 1) → bitsToBool x <+: bitsToBool y → x <+: y := by
  intro x
  induction x with
  | nil => intro y _ _ _; exact List.nil_prefix
  | cons a xs ih =>
    intro y hx hy hp
    cases y with
    | nil =>
      simp only [bitsToBool, List.map_cons, List.map_nil] at hp
      exact absurd (List.prefix_nil.1 hp) (List.cons_ne_nil _ _)
    | cons b ys =>
      simp only [bitsToBool, List.map_cons, List.cons_prefix_cons] at hp
      rw [List.cons_prefix_cons]
      have ha := hx a (List.mem_cons_self _ _)
      have hb := hy b (List.mem_cons_self _ _)
      refine ⟨?_, ih ys (fun c hc => hx c (List.mem_cons_of_mem _ hc))
        (fun c hc => hy c (List.mem_cons_of_mem _ hc)) hp.2⟩
      have h1 := hp.1
      rcases ha with rfl | rfl <;> rcases hb with rfl | rfl
      · rfl
      · simp at h1
      · simp at h1
      · rfl

theorem swap_present (freqs : List Nat) (a b s : Nat) (ha : a ∈ presentSymbols freqs)
    (hb : b ∈ presentSymbols freqs) (hs : s ∈ presentSymbols freqs) :
    Equiv.swap a b s ∈ presentSymbols freqs :=
  swap_mem (presentSymbols freqs) a b s ha hb hs

theorem code_length_order (comp : HCNode → HCNode → Bool)
    (h1 : ∀ x y : HCNode, comp x y = true → y.count ≤ x.count)
    (h2 : ∀ x y : HCNode, y.count < x.count → comp x y = true)
    (freqs : List Nat) (hlen : freqs.length = 256) (a b : Nat)
    (ha : 0 < freqs.getD a 0) (hab : freqs.getD a 0 < freqs.getD b 0) :
    (((HCTree.new.build comp freqs).code b).getD []).length ≤
      (((HCTree.new.build comp freqs).code a).getD []).length := by
  have hfa : freqs.getD a 0 ≠ 0 := by omega
  have hfb : freqs.getD b 0 ≠ 0 := by omega
  have ha2 : a < 256 := hlen ▸ getD_ne_zero_lt freqs a hfa
  have hb2 : b < 256 := hlen ▸ getD_ne_zero_lt freqs b hfb
  have hne : a ≠ b := by
    intro h
    rw [h] at hab
    exact Nat.lt_irrefl _ hab
  obtain ⟨r, B⟩ := build_built comp freqs hlen
  have haP : a ∈ presentSymbols freqs := by
    simp only [presentSymbols, Finset.mem_filter, Finset.mem_range]
    exact ⟨ha2, hfa⟩
  have hbP : b ∈ presentSymbols freqs := by
    simp only [presentSymbols, Finset.mem_filter, Finset.mem_range]
    exact ⟨hb2, hfb⟩
  -- the competitor: the codes of `a` and `b` exchanged
  have hpf : PrefixFree (presentSymbols freqs)
      (fun s => bitsToBool (((HCTree.new.build comp freqs).code (Equiv.swap a b s)).getD [])) := by
    intro s hs u hu hsu hp
    have hs2 := swap_present freqs a b s haP hbP hs
    have hu2 := swap_present freqs a b u haP hbP hu
    simp only [presentSymbols, Finset.mem_filter, Finset.mem_range] at hs2 hu2
    obtain ⟨cs, _, s1, _, _, _, s5, _⟩ := code_spec B _ hs2.1 hs2.2
    obtain ⟨cu, _, u1, _, _, _, u5, _⟩ := code_spec B _ hu2.1 hu2.2
    have hp2 : bitsToBool (((HCTree.new.build comp freqs).code (Equiv.swap a b s)).getD []) <+:
        bitsToBool (((HCTree.new.build comp freqs).code (Equiv.swap a b u)).getD []) := hp
    rw [s1, u1] at hp2
    simp only [Option.getD_some] at hp2
    have hpre := bitsToBool_prefix cs cu s5 u5 hp2
    have hne2 : Equiv.swap a b s ≠ Equiv.swap a b u := by
      intro h
      exact hsu ((Equiv.swap a b).injective h)
    exact code_not_prefix B _ _ hs2.1 hu2.1 hne2 hs2.2 hu2.2 cs cu s1 u1 hpre
  have hopt := optimal_of_greedy comp h1 h2 freqs hlen _ hpf
  have hlenmap : ∀ s, (bitsToBool
      (((HCTree.new.build comp freqs).code (Equiv.swap a b s)).getD [])).length =
      (((HCTree.new.build comp freqs).code (Equiv.swap a b s)).getD []).length := by
    intro s
    simp [bitsToBool]
  simp only [hlenmap] at hopt
  have haR : a ∈ Finset.range 256 := Finset.mem_range.2 ha2
  have hbR : b ∈ (Finset.range 256).erase a :=
    Finset.mem_erase.2 ⟨Ne.symm hne, Finset.mem_range.2 hb2⟩
  rw [← Finset.add_sum_erase _ _ haR, ← Finset.add_sum_erase _ _ hbR,
    ← Finset.add_sum_erase (Finset.range 256)
      (fun s => freqs.getD s 0 *
        (((HCTree.new.build comp freqs).code (Equiv.swap a b s)).getD []).length) haR,
    ← Finset.add_sum_erase ((Finset.range 256).erase a)
      (fun s => freqs.getD s 0 *
        (((HCTree.new.build comp freqs).code (Equiv.swap a b s)).getD []).length) hbR] at hopt
  have hrest : (((Finset.range 256).erase a).erase b).sum
      (fun s => freqs.getD s 0 *
        (((HCTree.new.build comp freqs).code (Equiv.swap a b s)).getD []).length) =
      (((Finset.range 256).erase a).erase b).sum
      (fun s => freqs.getD s 0 * (((HCTree.new.build comp freqs).code s).getD []).length) := by
    apply Finset.sum_congr rfl
    intro s hs
    rw [Finset.mem_erase, Finset.mem_erase] at hs
    rw [Equiv.swap_apply_of_ne_of_ne hs.2.1 hs.1]
  rw [hrest] at hopt
  simp only [Equiv.swap_apply_left, Equiv.swap_apply_right] at hopt
  by_contra hlt
  have hlt2 : (((HCTree.new.build comp freqs).code a).getD []).length <
      (((HCTree.new.build comp freqs).code b).getD []).length := by omega
  obtain ⟨d, hd⟩ := Nat.exists_eq_add_of_lt hab
  obtain ⟨e, he⟩ := Nat.exists_eq_add_of_lt hlt2
  rw [hd, he] at hopt
  nlinarith [Nat.zero_le (d * e), Nat.zero_le d, Nat.zero_le e]

/-- C20: when the comparator of the queue orders by weight, for every 256-entry
frequency table and every two symbols `a`, `b` with `0 < freqs[a] < freqs[b]`,
both have a code in the tree that `build` makes, and the code of `a` is at
least as long as the code of `b`. -/
theorem code_length_monotone (comp : HCNode → HCNode → Bool)
    (h1 : ∀ x y : HCNode, comp x y = true → y.count ≤ x.count)
    (h2 : ∀ x y : HCNode, y.count < x.count → comp x y = true)
    (freqs : List Nat) (hlen : freqs.length = 256) (a b : Nat)
    (ha : 0 < freqs.getD a 0) (hab : freqs.getD a 0 < freqs.getD b 0) :
    ∃ ca cb, (HCTree.new.build comp freqs).code a = some ca ∧
      (HCTree.new.build comp freqs).code b = some cb ∧ cb.length ≤ ca.length := by
  have hfa : freqs.getD a 0 ≠ 0 := by omega
  have hfb : freqs.getD b 0 ≠ 0 := by omega
  have ha2 : a < 256 := hlen ▸ getD_ne_zero_lt freqs a hfa
  have hb2 : b < 256 := hlen ▸ getD_ne_zero_lt freqs b hfb
  obtain ⟨r, B⟩ := build_built comp freqs hlen
  obtain ⟨ca, _, a1, _⟩ := code_spec B a ha2 hfa
  obtain ⟨cb, _, b1, _⟩ := code_spec B b hb2 hfb
  have h := code_length_order comp h1 h2 freqs hlen a b ha hab
  rw [a1, b1] at h
  exact ⟨ca, cb, a1, b1, h⟩

/-- Witness of C20: the table of the input 97, 98, 98, in which 97 is rarer
than 98. -/
theorem code_length_monotone_witness :
    (freqTable [97, 98, 98]).length = 256 ∧ 0 < (freqTable [97, 98, 98]).getD 97 0 ∧
    (freqTable [97, 98, 98]).getD 97 0 < (freqTable [97, 98, 98]).getD 98 0 ∧
    ∃ ca cb, (HCTree.new.build HCNodePtrComp (freqTable [97, 98, 98])).code 97 = some ca ∧
      (HCTree.new.build HCNodePtrComp (freqTable [97, 98, 98])).code 98 = some cb ∧
      cb.length ≤ ca.length :=
  have hS : ∀ b, b ∈ [97, 98, 98] → b < 256 := by decide
  have h97 : 0 < (freqTable [97, 98, 98]).getD 97 0 := by
    rw [freqTable_getD _ hS]
    decide
  have h98 : (freqTable [97, 98, 98]).getD 97 0 < (freqTable [97, 98, 98]).getD 98 0 := by
    rw [freqTable_getD _ hS, freqTable_getD _ hS]
    decide
  ⟨freqTable_length _, h97, h98,
    code_length_monotone HCNodePtrComp comp_by_weight_1 comp_by_weight_2 (freqTable [97, 98, 98])
      (freqTable_length _) 97 98 h97 h98⟩

end Huffman
